import Mathlib

/-!
Aho-Corasick multi-pattern matcher: embedding of `aho_corasick.h`.

The class template `AhoCorasick<CharType>` is embedded at `CharType = char`.

* A null-terminated `const CharType*` is the list of its symbols before the
  terminator; a pointer that may be `nullptr` is an `Option`.
* The nodes owned (transitively) by `root.children` live in one node store, a
  `List TrieNode`; a `TrieNode*` is an index into the store, `&root` is index `0`.
* `std::unordered_map<CharType, TrieNode>` is an association list in insertion
  order (keys are kept unique by `add_child`); iteration follows that order.
* Member functions are non-`const`, so they pass the store explicitly and
  return it together with their result.
* Recursion and loops that follow links carry a bound (`fuel`).  A walk that
  terminates never meets a node twice, so the number of nodes is enough; a
  run that exhausts the bound is reported as `Fault.out_of_fuel`.
-/

namespace AhoCorasick

/-! ## The program and the notions of its specification -/

/-- Ways in which a run can fail to return normally. -/
inductive Fault where
  /-- The exception `std::invalid_argument` thrown by `add_child`. -/
  | invalid_argument
  /-- A `nullptr` link is dereferenced. -/
  | null_deref
  /-- The call `node_queue.front()` on an empty queue. -/
  | empty_front
  /-- The subscript `entries[k]` with `k` outside the deque. -/
  | out_of_range
  /-- An index that is not in the node store. -/
  | dangling
  /-- The bound on link-following steps is exhausted. -/
  | out_of_fuel
  deriving DecidableEq

/-- The struct `TrieNode`; `children` maps a symbol to the index of the child. -/
structure TrieNode where
  end_of_string : Nat
  children : List (Char × Nat)
  suffix_link : Option Nat
  dict_suffix_link : Option Nat
  parent : Option Nat
  path_symbol : Char
  deriving DecidableEq

/-- The class `Trie`: the node store, with `root` at index `0`. -/
abbrev Trie := List TrieNode

/-- The class `AhoCorasick`: its two data members. -/
structure Automaton where
  dictionary_size : Nat
  trie : Trie
  deriving DecidableEq

/-- The constructor `TrieNode(parent, path_symbol)`. -/
def TrieNode.new (parent : Option Nat) (path_symbol : Char) : TrieNode :=
  { end_of_string := 0, children := [], suffix_link := none,
    dict_suffix_link := none, parent := parent, path_symbol := path_symbol }

/-- Assignment through a node pointer: replaces node `n` by `f` of it. -/
def update_node (trie : Trie) (n : Nat) (f : TrieNode → TrieNode) : Trie :=
  match trie[n]? with
  | some node => trie.set n (f node)
  | none => trie

/-- The member `Trie::transition_function(node_ptr, next_symbol)`. -/
def transition_function (trie : Trie) :
    Nat → Option Nat → Char → Except Fault (Trie × Nat)
  | 0, _, _ => .error .out_of_fuel
  | _ + 1, none, _ => .error .null_deref
  | fuel + 1, some node_ptr, next_symbol =>
    match trie[node_ptr]? with
    | none => .error .dangling
    | some node =>
      match node.children.lookup next_symbol with
      | some child => .ok (trie, child)
      | none =>
        if node_ptr = 0 then .ok (trie, 0)
        else transition_function trie fuel node.suffix_link next_symbol

/-- The body of `Trie::add_child` after its null check, by recursion on the
rest of the string (`++path` of a non-null pointer is never null). -/
def add_child_from (string_number : Nat) : List Char → Trie → Nat → Except Fault Trie
  | [], trie, node_ptr =>
    match trie[node_ptr]? with
    | none => .error .dangling
    | some node => .ok (trie.set node_ptr { node with end_of_string := string_number })
  | child_sym :: path, trie, node_ptr =>
    match trie[node_ptr]? with
    | none => .error .dangling
    | some node =>
      match node.children.lookup child_sym with
      | some child => add_child_from string_number path trie child
      | none =>
        let child := trie.length
        let trie1 := trie.set node_ptr
          { node with children := node.children ++ [(child_sym, child)] }
        add_child_from string_number path
          (trie1 ++ [TrieNode.new (some node_ptr) child_sym]) child

/-- The member `Trie::add_child(node_ptr, path, string_number)`. -/
def add_child (trie : Trie) (node_ptr : Nat) (path : Option (List Char))
    (string_number : Nat) : Except Fault Trie :=
  match path with
  | none => .error .invalid_argument
  | some s => add_child_from string_number s trie node_ptr

/-- The member `Trie::find_suffix_link(node_ptr)`. -/
def find_suffix_link (trie : Trie) (fuel : Nat) (node_ptr : Nat) :
    Except Fault (Trie × Option Nat) :=
  match trie[node_ptr]? with
  | none => .error .dangling
  | some node =>
    if node.parent = some 0 then .ok (trie, some 0)
    else if node_ptr ≠ 0 then
      match node.parent with
      | none => .error .null_deref
      | some p =>
        match trie[p]? with
        | none => .error .dangling
        | some parent =>
          match transition_function trie fuel parent.suffix_link node.path_symbol with
          | .error e => .error e
          | .ok (trie1, r) => .ok (trie1, some r)
    else .ok (trie, none)

/-- The member `Trie::find_dict_suffix_link(node_ptr)`. -/
def find_dict_suffix_link (trie : Trie) :
    Nat → Nat → Except Fault (Trie × Option Nat)
  | 0, _ => .error .out_of_fuel
  | fuel + 1, node_ptr =>
    match trie[node_ptr]? with
    | none => .error .dangling
    | some node =>
      match node.suffix_link with
      | none => .error .null_deref
      | some suffix_linked_node =>
        match trie[suffix_linked_node]? with
        | none => .error .dangling
        | some linked =>
          if linked.end_of_string ≠ 0 then .ok (trie, some suffix_linked_node)
          else if suffix_linked_node = 0 then .ok (trie, none)
          else find_dict_suffix_link trie fuel suffix_linked_node

/-- The first loop of the constructor `Trie::Trie`: one `add_child` per entry,
numbered from `string_num`. -/
def insert_dictionary : List (Option (List Char)) → Trie → Nat → Except Fault Trie
  | [], trie, _ => .ok trie
  | str_pointer :: rest, trie, string_num =>
    match add_child trie 0 str_pointer string_num with
    | .error e => .error e
    | .ok trie1 => insert_dictionary rest trie1 (string_num + 1)

/-- The `do ... while (!node_queue.empty())` loop of the constructor `Trie::Trie`. -/
def resolve_links : Nat → Trie → List Nat → Except Fault Trie
  | 0, _, _ => .error .out_of_fuel
  | _ + 1, _, [] => .error .empty_front
  | fuel + 1, trie, current_node :: rest =>
    match trie[current_node]? with
    | none => .error .dangling
    | some node =>
      let node_queue := rest ++ node.children.map Prod.snd
      match find_suffix_link trie trie.length current_node with
      | .error e => .error e
      | .ok (trie1, sl) =>
        let trie2 := update_node trie1 current_node (fun nd => { nd with suffix_link := sl })
        match find_dict_suffix_link trie2 trie2.length current_node with
        | .error e => .error e
        | .ok (trie3, dl) =>
          let trie4 := update_node trie3 current_node
            (fun nd => { nd with dict_suffix_link := dl })
          if node_queue.isEmpty then .ok trie4
          else resolve_links fuel trie4 node_queue

/-- The constructor `Trie::Trie(dictionary)`. -/
def Trie.build (dictionary : List (Option (List Char))) : Except Fault Trie :=
  match insert_dictionary dictionary [TrieNode.new none (Char.ofNat 0)] 1 with
  | .error e => .error e
  | .ok trie =>
    match trie[0]? with
    | none => .error .dangling
    | some root => resolve_links trie.length trie (root.children.map Prod.snd)

/-- The constructor `AhoCorasick::AhoCorasick(dictionary)`. -/
def Automaton.build (dictionary : List (Option (List Char))) : Except Fault Automaton :=
  match Trie.build dictionary with
  | .error e => .error e
  | .ok trie => .ok { dictionary_size := dictionary.length, trie := trie }

/-- The statement `entries[end_of_string - 1].push_back(i)`; for
`end_of_string = 0` the unsigned index wraps to `SIZE_MAX`, outside any deque. -/
def push_back_at (entries : List (List Nat)) (end_of_string i : Nat) :
    Except Fault (List (List Nat)) :=
  if end_of_string = 0 then .error .out_of_range
  else
    match entries[end_of_string - 1]? with
    | none => .error .out_of_range
    | some v => .ok (entries.set (end_of_string - 1) (v ++ [i]))

/-- The inner `do ... while (dict_found_state != nullptr)` loop of
`execute_on_string`, entered with a non-null `dict_found_state`. -/
def emit_dict_suffixes (trie : Trie) (i : Nat) :
    Nat → Nat → List (List Nat) → Except Fault (List (List Nat))
  | 0, _, _ => .error .out_of_fuel
  | fuel + 1, dict_found_state, entries =>
    match trie[dict_found_state]? with
    | none => .error .dangling
    | some node =>
      match push_back_at entries node.end_of_string i with
      | .error e => .error e
      | .ok entries1 =>
        match node.dict_suffix_link with
        | none => .ok entries1
        | some next => emit_dict_suffixes trie i fuel next entries1

/-- The body of the `for` loop of `execute_on_string` after the transition:
what is appended to `entries` at position `i` in state `state`. -/
def emit (trie : Trie) (state i : Nat) (entries : List (List Nat)) :
    Except Fault (List (List Nat)) :=
  match trie[state]? with
  | none => .error .dangling
  | some node =>
    match (if node.end_of_string ≠ 0 then push_back_at entries node.end_of_string i
           else .ok entries) with
    | .error e => .error e
    | .ok entries1 =>
      match node.dict_suffix_link with
      | none => .ok entries1
      | some dict_found_state =>
        emit_dict_suffixes trie i trie.length dict_found_state entries1

/-- The `for` loop of `execute_on_string` from position `i` on, over the rest
of the text, with the loop variables `state` and `entries`. -/
def scan_loop : List Char → Trie → Nat → Nat → List (List Nat) →
    Except Fault (Trie × Nat × List (List Nat))
  | [], trie, _, state, entries => .ok (trie, state, entries)
  | c :: rest, trie, i, state, entries =>
    match transition_function trie trie.length (some state) c with
    | .error e => .error e
    | .ok (trie1, state1) =>
      match emit trie1 state1 i entries with
      | .error e => .error e
      | .ok entries1 => scan_loop rest trie1 (i + 1) state1 entries1

/-- The member `AhoCorasick::execute_on_string(str)`. -/
def execute_on_string (aho : Automaton) (str : List Char) :
    Except Fault (Automaton × List (List Nat)) :=
  match scan_loop str aho.trie 0 0 (List.replicate aho.dictionary_size []) with
  | .error e => .error e
  | .ok (trie1, _, entries) => .ok ({ aho with trie := trie1 }, entries)

/-- The call sequence of `main`: build, then scan, keeping the result lists. -/
def run (dictionary : List (Option (List Char))) (str : List Char) :
    Except Fault (List (List Nat)) :=
  match Automaton.build dictionary with
  | .error e => .error e
  | .ok aho =>
    match execute_on_string aho str with
    | .error e => .error e
    | .ok (_, entries) => .ok entries

/-- `s` is the longest suffix of `x` that satisfies `P`. -/
def LongestSuffix (P : List Char → Prop) (x s : List Char) : Prop :=
  s <:+ x ∧ P s ∧ ∀ s', s' <:+ x → P s' → s' <:+ s

/-- `P` holds of every prefix of a word it holds of. -/
def PrefixClosed (P : List Char → Prop) : Prop :=
  ∀ u c, P (u ++ [c]) → P u

/-- The store is a tree whose node `n` spells the word `wd n`: the root spells
the empty word, words determine nodes, every child entry spells one more
symbol and points back to its parent, and children are stored after parents. -/
structure Shape (trie : Trie) (wd : Nat → List Char) : Prop where
  root_word : wd 0 = []
  pos : 0 < trie.length
  inj : ∀ i j, i < trie.length → j < trie.length → wd i = wd j → i = j
  child : ∀ (n : Nat) (node : TrieNode) (c : Char) (m : Nat), trie[n]? = some node → (c, m) ∈ node.children →
    n < m ∧ wd m = wd n ++ [c] ∧
      ∃ md, trie[m]? = some md ∧ md.parent = some n ∧ md.path_symbol = c
  parent : ∀ (m : Nat) (md : TrieNode), trie[m]? = some md → m ≠ 0 →
    ∃ p pd, md.parent = some p ∧ trie[p]? = some pd ∧ (md.path_symbol, m) ∈ pd.children
  kids_nodup : ∀ (n : Nat) (node : TrieNode), trie[n]? = some node → (node.children.map Prod.snd).Nodup

/-- Two stores with the same tree structure (children, parents, edge symbols). -/
def SameTree (t t' : Trie) : Prop :=
  t.length = t'.length ∧ ∀ (n : Nat) (node node' : TrieNode), t[n]? = some node → t'[n]? = some node' →
    node'.children = node.children ∧ node'.parent = node.parent ∧
      node'.path_symbol = node.path_symbol

/-- Two stores with the same tree structure and the same pattern numbers. -/
def SameSkeleton (t t' : Trie) : Prop :=
  SameTree t t' ∧ ∀ (n : Nat) (node node' : TrieNode), t[n]? = some node → t'[n]? = some node' →
    node'.end_of_string = node.end_of_string

/-- The word `u` is spelled by a node of the store. -/
def IsWord (len : Nat) (wd : Nat → List Char) (u : List Char) : Prop :=
  ∃ n, n < len ∧ wd n = u

/-- The word `u` is spelled by a node that ends a dictionary string. -/
def Terminal (trie : Trie) (wd : Nat → List Char) (u : List Char) : Prop :=
  ∃ (n : Nat) (node : TrieNode), trie[n]? = some node ∧ wd n = u ∧ node.end_of_string ≠ 0

/-- The number `e` is the pattern number of `w` after inserting `ps` in order,
numbered from `1`: `0` when `w` is not in `ps`, else the number of its last occurrence. -/
def IsId (ps : List (List Char)) (w : List Char) (e : Nat) : Prop :=
  (e = 0 ∧ w ∉ ps) ∨ (0 < e ∧ ps[e - 1]? = some w ∧ ∀ j, e ≤ j → ps[j]? ≠ some w)

/-- The store after inserting the strings `ps`, while inserting `p`, with the
prefix `u` of `p` already walked. -/
structure Inserting (trie : Trie) (wd : Nat → List Char) (ps : List (List Char))
    (p u : List Char) : Prop where
  shape : Shape trie wd
  sound : ∀ n, n < trie.length → ∃ q ∈ ps ++ [p], wd n <+: q
  complete_old : ∀ q ∈ ps, ∀ v, v <+: q → IsWord trie.length wd v
  complete_new : ∀ v, v <+: u → IsWord trie.length wd v
  ids : ∀ (n : Nat) (node : TrieNode), trie[n]? = some node → IsId ps (wd n) node.end_of_string
  fresh : ∀ (n : Nat) (node : TrieNode), trie[n]? = some node →
    node.suffix_link = none ∧ node.dict_suffix_link = none

/-- The store after inserting the strings `ps`, before any link is set. -/
structure Inserted (trie : Trie) (wd : Nat → List Char) (ps : List (List Char)) : Prop where
  shape : Shape trie wd
  sound : ∀ n, n < trie.length → wd n = [] ∨ ∃ q ∈ ps, wd n <+: q
  complete : ∀ q ∈ ps, ∀ v, v <+: q → IsWord trie.length wd v
  ids : ∀ (n : Nat) (node : TrieNode), trie[n]? = some node → IsId ps (wd n) node.end_of_string
  fresh : ∀ (n : Nat) (node : TrieNode), trie[n]? = some node →
    node.suffix_link = none ∧ node.dict_suffix_link = none

/-- The store after `add_child` has constructed a new child of node `n` by `c`. -/
def grow (trie : Trie) (n : Nat) (node : TrieNode) (c : Char) : Trie :=
  trie.set n { node with children := node.children ++ [(c, trie.length)] } ++
    [TrieNode.new (some n) c]

/-- The words of the store after a new child of node `n` by `c` is constructed. -/
def grow_words (trie : Trie) (wd : Nat → List Char) (n : Nat) (c : Char) : Nat → List Char :=
  fun i => if i = trie.length then wd n ++ [c] else wd i

/-- The suffix link of node `n` is set, to the node of the longest proper
suffix of its word that is spelled in the store. -/
def SuffixOK (trie : Trie) (wd : Nat → List Char) (n : Nat) : Prop :=
  ∃ (node : TrieNode) (s : Nat), trie[n]? = some node ∧ node.suffix_link = some s ∧
    s < trie.length ∧ LongestSuffix (IsWord trie.length wd) (wd n).tail (wd s)

/-- The link `r` is the node of the longest suffix of `x` with `Q`, and null when
no suffix of `x` has `Q`. -/
def DictSpec (Q : List Char → Prop) (len : Nat) (wd : Nat → List Char) (x : List Char)
    (r : Option Nat) : Prop :=
  (r = none → ∀ s, s <:+ x → ¬ Q s) ∧
    (∀ d, r = some d → d < len ∧ LongestSuffix Q x (wd d))

/-- The dictionary suffix link of node `n` is the node of the longest proper
suffix of its word that ends a dictionary string, null when there is none. -/
def DictOK (trie : Trie) (wd : Nat → List Char) (n : Nat) : Prop :=
  ∃ node : TrieNode, trie[n]? = some node ∧
    DictSpec (Terminal trie wd) trie.length wd (wd n).tail node.dict_suffix_link

/-- The children of node `n`, in the order the queue receives them. -/
def kids (trie : Trie) (n : Nat) : List Nat :=
  match trie[n]? with
  | some node => node.children.map Prod.snd
  | none => []

/-- The nodes at depth `d`, in breadth-first order. -/
def level (trie : Trie) : Nat → List Nat
  | 0 => [0]
  | d + 1 => (level trie d).flatMap (kids trie)

/-- The number of nodes whose suffix link is not set. -/
def pending (trie : Trie) : Nat :=
  trie.countP (fun nd => nd.suffix_link.isNone)

/-- The state of the breadth-first pass at the head of its loop: the nodes
shallower than `d` and the nodes `P` of depth `d` have their links, the nodes
`A` of depth `d` are next in the queue, followed by the children of `P`. -/
structure BfsInv (t0 : Trie) (wd : Nat → List Char) (t : Trie) (d : Nat) (P A : List Nat) :
    Prop where
  skel : SameSkeleton t0 t
  lvl : level t0 d = P ++ A
  dpos : 1 ≤ d
  done : ∀ n, n ≠ 0 → n < t0.length → ((wd n).length < d ∨ n ∈ P) →
    SuffixOK t wd n ∧ DictOK t wd n
  todo : ∀ (n : Nat) (node : TrieNode), t[n]? = some node →
    (n = 0 ∨ (d ≤ (wd n).length ∧ n ∉ P)) →
    node.suffix_link = none ∧ node.dict_suffix_link = none

/-- The store `t` is the store `t0` with the links of all non-root nodes set. -/
structure Linked (t0 : Trie) (wd : Nat → List Char) (t : Trie) : Prop where
  skel : SameSkeleton t0 t
  links : ∀ n, n ≠ 0 → n < t0.length → SuffixOK t wd n ∧ DictOK t wd n
  root : ∃ r : TrieNode, t[0]? = some r ∧ r.suffix_link = none ∧ r.dict_suffix_link = none

/-- The store of an automaton built from the dictionary `D`: the trie of the
prefixes of `D` with all links set and the pattern numbers of `D`. -/
structure Built (trie : Trie) (wd : Nat → List Char) (D : List (List Char)) : Prop where
  shape : Shape trie wd
  suffix : ∀ n, n ≠ 0 → n < trie.length → SuffixOK trie wd n
  dict : ∀ n, n ≠ 0 → n < trie.length → DictOK trie wd n
  root_links : ∃ r : TrieNode, trie[0]? = some r ∧ r.suffix_link = none ∧
    r.dict_suffix_link = none
  sound : ∀ n, n < trie.length → wd n = [] ∨ ∃ q ∈ D, wd n <+: q
  complete : ∀ q ∈ D, ∀ v, v <+: q → IsWord trie.length wd v
  ids : ∀ (n : Nat) (node : TrieNode), trie[n]? = some node → IsId D (wd n) node.end_of_string

/-- Some node whose word is a suffix of `y` carries the pattern number `k + 1`. -/
def Hit (trie : Trie) (wd : Nat → List Char) (k : Nat) (y : List Char) : Prop :=
  ∃ (n : Nat) (node : TrieNode), trie[n]? = some node ∧ node.end_of_string = k + 1 ∧ wd n <:+ y

/-- The lists `entries'` are the lists `entries` with `i` appended once to each
list whose index satisfies `S`. -/
def Pushed (S : Nat → Prop) (i : Nat) (entries entries' : List (List Nat)) : Prop :=
  entries'.length = entries.length ∧
    ∀ k v, entries[k]? = some v →
      (S k → entries'[k]? = some (v ++ [i])) ∧ (¬ S k → entries'[k]? = some v)

/-- The string `p` occurs in `text` as a contiguous substring whose last
character is at position `i` (counted from `0`). -/
def OccursEndingAt (p text : List Char) (i : Nat) : Prop :=
  ∃ a b, text = a ++ p ++ b ∧ (a ++ p).length = i + 1

/-- The position `i` is in list `k` of the result. -/
def Reported (entries : List (List Nat)) (k i : Nat) : Prop :=
  ∃ l, entries[k]? = some l ∧ i ∈ l

/-- The node reached from node `n` along the edges labelled by `w`, if there is one. -/
def walk (trie : Trie) : List Char → Nat → Option Nat
  | [], n => some n
  | c :: w, n =>
    match trie[n]? with
    | none => none
    | some node =>
      match node.children.lookup c with
      | none => none
      | some m => walk trie w m

/-- Two calls of `execute_on_string` on the same object, one after the other,
with both results. -/
def scan_twice (aho : Automaton) (str : List Char) :
    Except Fault (Automaton × List (List Nat) × List (List Nat)) :=
  match execute_on_string aho str with
  | .error e => .error e
  | .ok (aho1, entries1) =>
    match execute_on_string aho1 str with
    | .error e => .error e
    | .ok (aho2, entries2) => .ok (aho2, entries1, entries2)

/-- The substring-correctness property as the specification states it for a
dictionary `D` and a text `T`: the run returns, and position `i` is in list
`k` exactly when `D[k]` occurs in `T` ending at `i`. -/
def SubstringCorrect (D : List (List Char)) (T : List Char) : Prop :=
  ∃ entries, run (D.map some) T = .ok entries ∧
    ∀ k i, Reported entries k i ↔ ∃ p, D[k]? = some p ∧ OccursEndingAt p T i

/-- The number of parent steps from node `n` up to the root. -/
def depth (trie : Trie) : Nat → Nat → Nat
  | 0, _ => 0
  | fuel + 1, n =>
    if n = 0 then 0
    else
      match trie[n]? with
      | none => 0
      | some node =>
        match node.parent with
        | none => 0
        | some p => depth trie fuel p + 1

/-- The nodes met by following `suffix_link` from node `n`, one or more times. -/
def suffix_chain (trie : Trie) : Nat → Nat → List Nat
  | 0, _ => []
  | fuel + 1, n =>
    match trie[n]? with
    | none => []
    | some node =>
      match node.suffix_link with
      | none => []
      | some s => s :: suffix_chain trie fuel s

/-- The nodes met by following `dict_suffix_link` from node `n`, one or more times. -/
def dict_chain (trie : Trie) : Nat → Nat → List Nat
  | 0, _ => []
  | fuel + 1, n =>
    match trie[n]? with
    | none => []
    | some node =>
      match node.dict_suffix_link with
      | none => []
      | some d => d :: dict_chain trie fuel d

/-- Node `m` has a non-zero pattern number. -/
def is_terminal (trie : Trie) (m : Nat) : Bool :=
  match trie[m]? with
  | some node => decide (node.end_of_string ≠ 0)
  | none => false

/-- Every node of `t` is a node of `t'`, at the same index, with the same parent
and edge symbol, and with its children entries kept in place. -/
def Extends (t t' : Trie) : Prop :=
  t.length ≤ t'.length ∧ ∀ (n : Nat) (node : TrieNode), t[n]? = some node →
    ∃ node' : TrieNode, t'[n]? = some node' ∧ node'.parent = node.parent ∧
      node'.path_symbol = node.path_symbol ∧ node.children <+: node'.children

/-- The strings that label a path from the root of `trie` are exactly the
prefixes of the strings of `D`. -/
def PathsArePrefixes (D : List (List Char)) (trie : Trie) : Prop :=
  ∀ w : List Char, (∃ n, walk trie w 0 = some n) ↔ ∃ p ∈ D, w <+: p

/-- The children of node `n`, in the order in which an iteration `iter` over the
children map yields them. -/
def kids_in (iter : List (Char × Nat) → List (Char × Nat)) (trie : Trie) (n : Nat) : List Nat :=
  match trie[n]? with
  | some node => (iter node.children).map Prod.snd
  | none => []

/-- The nodes at depth `d`, in the order in which the queue receives them when
the children maps are iterated by `iter`. -/
def level_in (iter : List (Char × Nat) → List (Char × Nat)) (trie : Trie) : Nat → List Nat
  | 0 => [0]
  | d + 1 => (level_in iter trie d).flatMap (kids_in iter trie)

/-- The state of the breadth-first pass at the head of its loop, when the
children maps are iterated by `iter`: the nodes shallower than `d` and the nodes
`P` of depth `d` have their links, the nodes `A` of depth `d` are next in the
queue, followed by the children of `P`. -/
structure BfsInvIn (iter : List (Char × Nat) → List (Char × Nat)) (t0 : Trie)
    (wd : Nat → List Char) (t : Trie) (d : Nat) (P A : List Nat) : Prop where
  skel : SameSkeleton t0 t
  lvl : level_in iter t0 d = P ++ A
  dpos : 1 ≤ d
  done : ∀ n, n ≠ 0 → n < t0.length → ((wd n).length < d ∨ n ∈ P) →
    SuffixOK t wd n ∧ DictOK t wd n
  todo : ∀ (n : Nat) (node : TrieNode), t[n]? = some node →
    (n = 0 ∨ (d ≤ (wd n).length ∧ n ∉ P)) →
    node.suffix_link = none ∧ node.dict_suffix_link = none

/-- The loop of the constructor `Trie::Trie` (lines 73-90), returning with its
outcome the nodes it has taken from the front of the queue, in the order in
which it has taken them. The range-for over `children` (lines 82-83), an
`std::unordered_map` whose iteration order the language leaves open, yields the
entries in the order `iter children`. -/
def resolve_links_visits (iter : List (Char × Nat) → List (Char × Nat)) :
    Nat → Trie → List Nat → Except Fault Trie × List Nat
  | 0, _, _ => (.error .out_of_fuel, [])
  | _ + 1, _, [] => (.error .empty_front, [])
  | fuel + 1, trie, current_node :: rest =>
    match trie[current_node]? with
    | none => (.error .dangling, [current_node])
    | some node =>
      let node_queue := rest ++ (iter node.children).map Prod.snd
      match find_suffix_link trie trie.length current_node with
      | .error e => (.error e, [current_node])
      | .ok (trie1, sl) =>
        let trie2 := update_node trie1 current_node (fun nd => { nd with suffix_link := sl })
        match find_dict_suffix_link trie2 trie2.length current_node with
        | .error e => (.error e, [current_node])
        | .ok (trie3, dl) =>
          let trie4 := update_node trie3 current_node
            (fun nd => { nd with dict_suffix_link := dl })
          if node_queue.isEmpty then (.ok trie4, [current_node])
          else (
            (resolve_links_visits iter fuel trie4 node_queue).1,
            current_node :: (resolve_links_visits iter fuel trie4 node_queue).2)

/-- The constructor `Trie::Trie(dictionary)` with the nodes its link loop takes
from the queue; the range-for over the children of the root (lines 75-76) and
the one in the loop yield the entries in the order `iter children`. -/
def Trie.build_visits (iter : List (Char × Nat) → List (Char × Nat))
    (dictionary : List (Option (List Char))) : Except Fault Trie × List Nat :=
  match insert_dictionary dictionary [TrieNode.new none (Char.ofNat 0)] 1 with
  | .error e => (.error e, [])
  | .ok trie =>
    match trie[0]? with
    | none => (.error .dangling, [])
    | some root => resolve_links_visits iter trie.length trie ((iter root.children).map Prod.snd)

/-! ## Properties -/

theorem suffix_antisymm {a b : List Char} (h1 : a <:+ b) (h2 : b <:+ a) : a = b :=
  h1.eq_of_length (Nat.le_antisymm h1.length_le h2.length_le)

theorem LongestSuffix.unique {P : List Char → Prop} {x s s' : List Char}
    (h : LongestSuffix P x s) (h' : LongestSuffix P x s') : s = s' :=
  suffix_antisymm (h'.2.2 s h.1 h.2.1) (h.2.2 s' h'.1 h'.2.1)

theorem LongestSuffix.congr_suffix {P : List Char → Prop} {x y : List Char}
    (h : ∀ s, (s <:+ x ∧ P s) ↔ (s <:+ y ∧ P s)) (r : List Char) :
    LongestSuffix P x r ↔ LongestSuffix P y r := by
  constructor
  · rintro ⟨h1, h2, h3⟩
    refine ⟨((h r).1 ⟨h1, h2⟩).1, h2, fun s' hs hp => h3 s' ((h s').2 ⟨hs, hp⟩).1 hp⟩
  · rintro ⟨h1, h2, h3⟩
    refine ⟨((h r).2 ⟨h1, h2⟩).1, h2, fun s' hs hp => h3 s' ((h s').1 ⟨hs, hp⟩).1 hp⟩

theorem LongestSuffix.self {P : List Char → Prop} {x : List Char} (h : P x) :
    LongestSuffix P x x :=
  ⟨List.suffix_rfl, h, fun _ hs _ => hs⟩

/-- The suffixes with `P` of `x ++ [c]` are those of `f ++ [c]`, for `f` the
longest suffix of `x` with `P`. -/
theorem suffix_step {P : List Char → Prop} (hP : PrefixClosed P) {x f : List Char}
    (hf : LongestSuffix P x f) (c : Char) (s : List Char) :
    (s <:+ x ++ [c] ∧ P s) ↔ (s <:+ f ++ [c] ∧ P s) := by
  constructor
  · rintro ⟨hs, hp⟩
    refine ⟨?_, hp⟩
    rcases List.suffix_concat_iff.1 hs with rfl | ⟨t, rfl, ht⟩
    · exact List.nil_suffix
    · have := hf.2.2 t ht (hP t c hp)
      exact List.suffix_concat_iff.2 (Or.inr ⟨t, rfl, this⟩)
  · rintro ⟨hs, hp⟩
    refine ⟨?_, hp⟩
    rcases List.suffix_concat_iff.1 hs with rfl | ⟨t, rfl, ht⟩
    · exact List.nil_suffix
    · exact List.suffix_concat_iff.2 (Or.inr ⟨t, rfl, ht.trans hf.1⟩)

theorem LongestSuffix.step_suffix {P : List Char → Prop} (hP : PrefixClosed P) {x f : List Char}
    (hf : LongestSuffix P x f) (c : Char) (r : List Char) :
    LongestSuffix P (x ++ [c]) r ↔ LongestSuffix P (f ++ [c]) r :=
  LongestSuffix.congr_suffix (suffix_step hP hf c) r

/-- When a non-empty `w` does not satisfy `P`, its suffixes with `P` are those of its tail. -/
theorem suffix_tail_of_not {P : List Char → Prop} {w : List Char} (hw : ¬ P w)
    (s : List Char) : (s <:+ w ∧ P s) ↔ (s <:+ w.tail ∧ P s) := by
  constructor
  · rintro ⟨hs, hp⟩
    refine ⟨?_, hp⟩
    cases w with
    | nil => simpa using hs
    | cons a w =>
      rcases List.suffix_cons_iff.1 hs with rfl | h
      · exact absurd hp hw
      · simpa using h
  · rintro ⟨hs, hp⟩
    exact ⟨hs.trans (List.tail_suffix w), hp⟩

theorem tail_append_singleton {w : List Char} (hw : w ≠ []) (c : Char) :
    (w ++ [c]).tail = w.tail ++ [c] := by
  cases w with
  | nil => exact absurd rfl hw
  | cons a w => rfl

theorem length_tail_lt {w : List Char} (hw : w ≠ []) : w.tail.length < w.length := by
  cases w with
  | nil => exact absurd rfl hw
  | cons a w => simp

/-- A proper suffix of `w` is a suffix of its tail. -/
theorem suffix_tail_of_ne {s w : List Char} (hs : s <:+ w) (hne : s ≠ w) : s <:+ w.tail := by
  cases w with
  | nil => simpa using hs
  | cons a w =>
    rcases List.suffix_cons_iff.1 hs with rfl | h
    · exact absurd rfl hne
    · simpa using h

theorem suffix_tail_ne {s w : List Char} (hw : w ≠ []) (hs : s <:+ w.tail) : s ≠ w := by
  rintro rfl
  have := hs.length_le
  have := length_tail_lt hw
  omega

/-! ### Access to the store -/

theorem get_lt {trie : Trie} {n : Nat} {node : TrieNode} (h : trie[n]? = some node) :
    n < trie.length := by
  rcases List.getElem?_eq_some.1 h with ⟨h', _⟩
  exact h'

theorem get_of_lt {trie : Trie} {n : Nat} (h : n < trie.length) :
    ∃ node, trie[n]? = some node :=
  ⟨trie[n], List.getElem?_eq_getElem h⟩

theorem get_set_self {trie : Trie} {n : Nat} {node : TrieNode} (h : trie[n]? = some node)
    (node' : TrieNode) : (trie.set n node')[n]? = some node' :=
  List.getElem?_set_self (get_lt h)

theorem get_set_ne {trie : Trie} {n m : Nat} (h : n ≠ m) (node' : TrieNode) :
    (trie.set n node')[m]? = trie[m]? :=
  List.getElem?_set_ne h

theorem update_node_of_get {trie : Trie} {n : Nat} {node : TrieNode}
    (h : trie[n]? = some node) (f : TrieNode → TrieNode) :
    update_node trie n f = trie.set n (f node) := by
  simp [update_node, h]

theorem update_node_length (trie : Trie) (n : Nat) (f : TrieNode → TrieNode) :
    (update_node trie n f).length = trie.length := by
  unfold update_node
  split <;> simp

theorem update_node_get_self {trie : Trie} {n : Nat} {node : TrieNode}
    (h : trie[n]? = some node) (f : TrieNode → TrieNode) :
    (update_node trie n f)[n]? = some (f node) := by
  rw [update_node_of_get h]
  exact get_set_self h _

theorem update_node_get_ne (trie : Trie) {n m : Nat} (h : n ≠ m) (f : TrieNode → TrieNode) :
    (update_node trie n f)[m]? = trie[m]? := by
  unfold update_node
  split
  · exact get_set_ne h _
  · rfl

/-- Reading node `m` after an update of node `n`. -/
theorem update_node_get {trie : Trie} {n m : Nat} {f : TrieNode → TrieNode} {node' : TrieNode}
    (h : (update_node trie n f)[m]? = some node') :
    ∃ node, trie[m]? = some node ∧ ((m = n ∧ node' = f node) ∨ (m ≠ n ∧ node' = node)) := by
  by_cases hmn : m = n
  · subst hmn
    have hlt : m < trie.length := by
      have := get_lt h
      rwa [update_node_length] at this
    obtain ⟨node, hn⟩ := get_of_lt hlt
    rw [update_node_get_self hn] at h
    exact ⟨node, hn, Or.inl ⟨rfl, (Option.some.inj h).symm⟩⟩
  · rw [update_node_get_ne trie (Ne.symm hmn)] at h
    exact ⟨node', h, Or.inr ⟨hmn, rfl⟩⟩

/-! ### Lookups in `children` -/

theorem lookup_mem {l : List (Char × Nat)} {c : Char} {m : Nat}
    (h : l.lookup c = some m) : (c, m) ∈ l := by
  induction l with
  | nil => simp at h
  | cons a l ih =>
    obtain ⟨k, b⟩ := a
    rw [List.lookup_cons] at h
    by_cases hk : c = k
    · subst hk
      simp at h
      subst h
      exact List.mem_cons_self _ _
    · have : (c == k) = false := by simpa using hk
      rw [this] at h
      exact List.mem_cons_of_mem _ (ih h)

theorem lookup_none {l : List (Char × Nat)} {c : Char}
    (h : l.lookup c = none) (m : Nat) : (c, m) ∉ l := by
  induction l with
  | nil => simp
  | cons a l ih =>
    obtain ⟨k, b⟩ := a
    rw [List.lookup_cons] at h
    by_cases hk : c = k
    · subst hk
      simp at h
    · have : (c == k) = false := by simpa using hk
      rw [this] at h
      intro hm
      rcases List.mem_cons.1 hm with heq | hm
      · exact hk (Prod.mk.inj heq).1
      · exact ih h hm

theorem lookup_isSome_of_mem {l : List (Char × Nat)} {c : Char} {m : Nat}
    (h : (c, m) ∈ l) : ∃ m', l.lookup c = some m' := by
  cases hl : l.lookup c with
  | none => exact absurd h (lookup_none hl m)
  | some m' => exact ⟨m', rfl⟩

namespace Shape

variable {trie : Trie} {wd : Nat → List Char}

theorem lookup_of_mem (hs : Shape trie wd) {n : Nat} {node : TrieNode}
    (hn : trie[n]? = some node) {c : Char} {m : Nat} (hm : (c, m) ∈ node.children) :
    node.children.lookup c = some m := by
  obtain ⟨m', hm'⟩ := lookup_isSome_of_mem hm
  have h1 := hs.child n node c m hn hm
  have h2 := hs.child n node c m' hn (lookup_mem hm')
  obtain ⟨md, hmd, -⟩ := h1.2.2
  obtain ⟨md', hmd', -⟩ := h2.2.2
  have := hs.inj m m' (get_lt hmd) (get_lt hmd') (by rw [h1.2.1, h2.2.1])
  rw [hm', this]

theorem child_lt (hs : Shape trie wd) {n : Nat} {node : TrieNode}
    (hn : trie[n]? = some node) {c : Char} {m : Nat} (hm : (c, m) ∈ node.children) :
    m < trie.length := by
  obtain ⟨md, hmd, -⟩ := (hs.child n node c m hn hm).2.2
  exact get_lt hmd

/-- A non-root node spells its parent's word followed by its edge symbol. -/
theorem parent_word (hs : Shape trie wd) {m : Nat} {md : TrieNode}
    (hm : trie[m]? = some md) (h0 : m ≠ 0) :
    ∃ p pd, md.parent = some p ∧ trie[p]? = some pd ∧ p < m ∧
      (md.path_symbol, m) ∈ pd.children ∧ wd m = wd p ++ [md.path_symbol] := by
  obtain ⟨p, pd, h1, h2, h3⟩ := hs.parent m md hm h0
  have := hs.child p pd _ m h2 h3
  exact ⟨p, pd, h1, h2, this.1, h3, this.2.1⟩

theorem word_ne_nil (hs : Shape trie wd) {m : Nat} (hm : m < trie.length) (h0 : m ≠ 0) :
    wd m ≠ [] := by
  intro h
  exact h0 (hs.inj m 0 hm hs.pos (by rw [h, hs.root_word]))

theorem eq_root_of_word (hs : Shape trie wd) {m : Nat} (hm : m < trie.length)
    (h : wd m = []) : m = 0 :=
  hs.inj m 0 hm hs.pos (by rw [h, hs.root_word])

/-- The depth of a node is at most its index. -/
theorem length_le_index (hs : Shape trie wd) :
    ∀ m, m < trie.length → (wd m).length ≤ m := by
  intro m
  induction m using Nat.strong_induction_on with
  | _ m ih =>
    intro hm
    by_cases h0 : m = 0
    · subst h0
      simp [hs.root_word]
    · obtain ⟨md, hmd⟩ := get_of_lt hm
      obtain ⟨p, pd, -, hp, hlt, -, hw⟩ := hs.parent_word hmd h0
      have := ih p hlt (get_lt hp)
      rw [hw]
      simp
      omega

theorem length_lt (hs : Shape trie wd) {m : Nat} (hm : m < trie.length) :
    (wd m).length < trie.length :=
  Nat.lt_of_le_of_lt (hs.length_le_index m hm) hm

theorem prefixClosed (hs : Shape trie wd) : PrefixClosed (IsWord trie.length wd) := by
  rintro u c ⟨n, hn, hw⟩
  have h0 : n ≠ 0 := by
    rintro rfl
    rw [hs.root_word] at hw
    simp at hw
  obtain ⟨nd, hnd⟩ := get_of_lt hn
  obtain ⟨p, pd, -, hp, -, -, hpw⟩ := hs.parent_word hnd h0
  rw [hw] at hpw
  have := List.append_inj' hpw rfl
  exact ⟨p, get_lt hp, this.1.symm⟩

theorem isWord_nil (hs : Shape trie wd) : IsWord trie.length wd [] :=
  ⟨0, hs.pos, hs.root_word⟩

/-- A word followed by `c` is spelled in the store exactly when its node has a child by `c`. -/
theorem isWord_snoc (hs : Shape trie wd) {n : Nat} {node : TrieNode}
    (hn : trie[n]? = some node) (c : Char) :
    IsWord trie.length wd (wd n ++ [c]) ↔ ∃ m, node.children.lookup c = some m := by
  constructor
  · rintro ⟨m, hm, hw⟩
    have h0 : m ≠ 0 := by
      rintro rfl
      rw [hs.root_word] at hw
      simp at hw
    obtain ⟨md, hmd⟩ := get_of_lt hm
    obtain ⟨p, pd, -, hp, -, hmem, hpw⟩ := hs.parent_word hmd h0
    rw [hw] at hpw
    have := List.append_inj' hpw rfl
    have hpn : p = n := hs.inj p n (get_lt hp) (get_lt hn) this.1.symm
    subst hpn
    rw [hp] at hn
    cases hn
    have hc : md.path_symbol = c := by simpa using this.2.symm
    rw [hc] at hmem
    exact ⟨m, hs.lookup_of_mem hp hmem⟩
  · rintro ⟨m, hm⟩
    have := hs.child n node c m hn (lookup_mem hm)
    exact ⟨m, hs.child_lt hn (lookup_mem hm), this.2.1⟩

theorem of_sameTree (hs : Shape trie wd) {t' : Trie} (h : SameTree trie t') : Shape t' wd := by
  obtain ⟨hlen, hf⟩ := h
  have back : ∀ (n : Nat) (node' : TrieNode), t'[n]? = some node' → ∃ node : TrieNode, trie[n]? = some node ∧
      node'.children = node.children ∧ node'.parent = node.parent ∧
      node'.path_symbol = node.path_symbol := by
    intro n node' hn
    have : n < trie.length := by rw [hlen]; exact get_lt hn
    obtain ⟨node, hnode⟩ := get_of_lt this
    exact ⟨node, hnode, hf n node node' hnode hn⟩
  have fwd : ∀ (n : Nat) (node : TrieNode), trie[n]? = some node → ∃ node' : TrieNode, t'[n]? = some node' ∧
      node'.children = node.children ∧ node'.parent = node.parent ∧
      node'.path_symbol = node.path_symbol := by
    intro n node hn
    have : n < t'.length := by rw [← hlen]; exact get_lt hn
    obtain ⟨node', hnode'⟩ := get_of_lt this
    exact ⟨node', hnode', hf n node node' hn hnode'⟩
  refine ⟨hs.root_word, hlen ▸ hs.pos, ?_, ?_, ?_, ?_⟩
  · intro i j hi hj
    exact hs.inj i j (hlen ▸ hi) (hlen ▸ hj)
  · intro n node' c m hn hm
    obtain ⟨node, hnode, hc, -, -⟩ := back n node' hn
    rw [hc] at hm
    obtain ⟨h1, h2, md, hmd, hp, hsym⟩ := hs.child n node c m hnode hm
    obtain ⟨md', hmd', -, hp', hsym'⟩ := fwd m md hmd
    exact ⟨h1, h2, md', hmd', by rw [hp', hp], by rw [hsym', hsym]⟩
  · intro m md' hm h0
    obtain ⟨md, hmd, -, hp, hsym⟩ := back m md' hm
    obtain ⟨p, pd, h1, h2, h3⟩ := hs.parent m md hmd h0
    obtain ⟨pd', hpd', hc', -, -⟩ := fwd p pd h2
    exact ⟨p, pd', by rw [hp, h1], hpd', by rw [hc', hsym]; exact h3⟩
  · intro n node' hn
    obtain ⟨node, hnode, hc, -, -⟩ := back n node' hn
    rw [hc]
    exact hs.kids_nodup n node hnode

end Shape

theorem SameTree.refl_tree (t : Trie) : SameTree t t :=
  ⟨rfl, fun n node node' h h' => by rw [h] at h'; cases h'; exact ⟨rfl, rfl, rfl⟩⟩

theorem SameTree.trans_tree {t1 t2 t3 : Trie} (h12 : SameTree t1 t2) (h23 : SameTree t2 t3) :
    SameTree t1 t3 := by
  refine ⟨h12.1.trans h23.1, ?_⟩
  intro n node node3 h1 h3
  have : n < t2.length := by rw [← h12.1]; exact get_lt h1
  obtain ⟨node2, h2⟩ := get_of_lt this
  obtain ⟨a1, a2, a3⟩ := h12.2 n node node2 h1 h2
  obtain ⟨b1, b2, b3⟩ := h23.2 n node2 node3 h2 h3
  exact ⟨b1.trans a1, b2.trans a2, b3.trans a3⟩

theorem SameTree.update_tree (t : Trie) (n : Nat) (f : TrieNode → TrieNode)
    (hf : ∀ nd, (f nd).children = nd.children ∧ (f nd).parent = nd.parent ∧
      (f nd).path_symbol = nd.path_symbol) : SameTree t (update_node t n f) := by
  refine ⟨(update_node_length t n f).symm, ?_⟩
  intro m node node' h h'
  obtain ⟨nd, hnd, hcase⟩ := update_node_get h'
  rw [h] at hnd
  cases hnd
  rcases hcase with ⟨-, rfl⟩ | ⟨-, rfl⟩
  · exact hf node
  · exact ⟨rfl, rfl, rfl⟩

theorem SameSkeleton.refl_skeleton (t : Trie) : SameSkeleton t t :=
  ⟨SameTree.refl_tree t, fun n node node' h h' => by rw [h] at h'; cases h'; rfl⟩

theorem SameSkeleton.trans_skeleton {t1 t2 t3 : Trie} (h12 : SameSkeleton t1 t2)
    (h23 : SameSkeleton t2 t3) : SameSkeleton t1 t3 := by
  refine ⟨h12.1.trans_tree h23.1, ?_⟩
  intro n node node3 h1 h3
  have : n < t2.length := by rw [← h12.1.1]; exact get_lt h1
  obtain ⟨node2, h2⟩ := get_of_lt this
  exact (h23.2 n node2 node3 h2 h3).trans (h12.2 n node node2 h1 h2)

theorem SameSkeleton.update_skeleton (t : Trie) (n : Nat) (f : TrieNode → TrieNode)
    (hf : ∀ nd, (f nd).children = nd.children ∧ (f nd).parent = nd.parent ∧
      (f nd).path_symbol = nd.path_symbol ∧ (f nd).end_of_string = nd.end_of_string) :
    SameSkeleton t (update_node t n f) := by
  refine ⟨SameTree.update_tree t n f (fun nd => ⟨(hf nd).1, (hf nd).2.1, (hf nd).2.2.1⟩), ?_⟩
  intro m node node' h h'
  obtain ⟨nd, hnd, hcase⟩ := update_node_get h'
  rw [h] at hnd
  cases hnd
  rcases hcase with ⟨-, rfl⟩ | ⟨-, rfl⟩
  · exact (hf node).2.2.2
  · rfl

theorem SameSkeleton.get {t t' : Trie} (h : SameSkeleton t t') {n : Nat} {node : TrieNode}
    (hn : t[n]? = some node) : ∃ node', t'[n]? = some node' ∧
      node'.children = node.children ∧ node'.parent = node.parent ∧
      node'.path_symbol = node.path_symbol ∧ node'.end_of_string = node.end_of_string := by
  have : n < t'.length := by rw [← h.1.1]; exact get_lt hn
  obtain ⟨node', hn'⟩ := get_of_lt this
  obtain ⟨a, b, c⟩ := h.1.2 n node node' hn hn'
  exact ⟨node', hn', a, b, c, h.2 n node node' hn hn'⟩

theorem SameSkeleton.get_back {t t' : Trie} (h : SameSkeleton t t') {n : Nat} {node' : TrieNode}
    (hn' : t'[n]? = some node') : ∃ node, t[n]? = some node ∧
      node'.children = node.children ∧ node'.parent = node.parent ∧
      node'.path_symbol = node.path_symbol ∧ node'.end_of_string = node.end_of_string := by
  have : n < t.length := by rw [h.1.1]; exact get_lt hn'
  obtain ⟨node, hn⟩ := get_of_lt this
  obtain ⟨a, b, c⟩ := h.1.2 n node node' hn hn'
  exact ⟨node, hn, a, b, c, h.2 n node node' hn hn'⟩

theorem Terminal.of_sameSkeleton {t t' : Trie} {wd : Nat → List Char} (h : SameSkeleton t t')
    (u : List Char) : Terminal t wd u ↔ Terminal t' wd u := by
  constructor
  · rintro ⟨n, node, hn, hw, he⟩
    obtain ⟨node', hn', -, -, -, he'⟩ := h.get hn
    exact ⟨n, node', hn', hw, by rw [he']; exact he⟩
  · rintro ⟨n, node', hn', hw, he'⟩
    obtain ⟨node, hn, -, -, -, he⟩ := h.get_back hn'
    exact ⟨n, node, hn, hw, by rw [← he]; exact he'⟩

theorem IsId.snoc_self (ps : List (List Char)) (p : List Char) :
    IsId (ps ++ [p]) p (ps.length + 1) := by
  refine Or.inr ⟨Nat.succ_pos _, ?_, ?_⟩
  · simp
  · intro j hj
    rw [List.getElem?_eq_none (by simp; omega)]
    simp

theorem IsId.snoc_other {ps : List (List Char)} {w : List Char} {e : Nat}
    (h : IsId ps w e) {p : List Char} (hne : w ≠ p) : IsId (ps ++ [p]) w e := by
  rcases h with ⟨h0, hmem⟩ | ⟨hpos, hget, hlast⟩
  · refine Or.inl ⟨h0, ?_⟩
    simp [hmem, hne]
  · have hlt : e - 1 < ps.length := by
      rcases List.getElem?_eq_some.1 hget with ⟨h', _⟩
      exact h'
    refine Or.inr ⟨hpos, ?_, ?_⟩
    · rw [List.getElem?_append_left hlt]
      exact hget
    · intro j hj
      by_cases hjl : j < ps.length
      · rw [List.getElem?_append_left hjl]
        exact hlast j hj
      · by_cases hje : j = ps.length
        · subst hje
          simp
          exact fun h => hne h.symm
        · rw [List.getElem?_eq_none (by simp; omega)]
          simp

theorem Inserted.start_inserted (trie : Trie) (h : trie = [TrieNode.new none (Char.ofNat 0)]) :
    Inserted trie (fun _ => []) [] := by
  subst h
  refine ⟨⟨rfl, by simp, ?_, ?_, ?_, ?_⟩, ?_, ?_, ?_, ?_⟩
  · intro i j hi hj _
    simp at hi hj
    omega
  · intro n node c m hn hm
    have : n = 0 := by
      have := get_lt hn
      simp at this
      exact this
    subst this
    simp at hn
    subst hn
    simp [TrieNode.new] at hm
  · intro m md hm h0
    have := get_lt hm
    simp at this
    omega
  · intro n node hn
    have : n = 0 := by
      have := get_lt hn
      simp at this
      exact this
    subst this
    simp at hn
    subst hn
    simp [TrieNode.new]
  · intro n _
    exact Or.inl rfl
  · intro q hq
    simp at hq
  · intro n node hn
    have : n = 0 := by
      have := get_lt hn
      simp at this
      exact this
    subst this
    simp at hn
    subst hn
    exact Or.inl ⟨rfl, by simp⟩
  · intro n node hn
    have : n = 0 := by
      have := get_lt hn
      simp at this
      exact this
    subst this
    simp at hn
    subst hn
    exact ⟨rfl, rfl⟩

theorem Inserted.inserting {trie : Trie} {wd : Nat → List Char} {ps : List (List Char)}
    (h : Inserted trie wd ps) (p : List Char) : Inserting trie wd ps p [] := by
  refine ⟨h.shape, ?_, h.complete, ?_, h.ids, h.fresh⟩
  · intro n hn
    rcases h.sound n hn with h0 | ⟨q, hq, hpre⟩
    · exact ⟨p, by simp, by rw [h0]; exact List.nil_prefix⟩
    · exact ⟨q, by simp [hq], hpre⟩
  · intro v hv
    have : v = [] := List.prefix_nil.1 hv
    subst this
    exact h.shape.isWord_nil

/-- Walking an existing edge while inserting. -/
theorem Inserting.walk {trie : Trie} {wd : Nat → List Char} {ps : List (List Char)}
    {p : List Char} {n : Nat} (h : Inserting trie wd ps p (wd n)) {node : TrieNode}
    (hn : trie[n]? = some node) {c : Char} {m : Nat}
    (hl : node.children.lookup c = some m) : Inserting trie wd ps p (wd m) ∧ m < trie.length := by
  have hc := h.shape.child n node c m hn (lookup_mem hl)
  have hm : m < trie.length := h.shape.child_lt hn (lookup_mem hl)
  refine ⟨⟨h.shape, h.sound, h.complete_old, ?_, h.ids, h.fresh⟩, hm⟩
  intro v hv
  rw [hc.2.1] at hv
  rcases List.prefix_concat_iff.1 hv with rfl | hv
  · exact ⟨m, hm, hc.2.1⟩
  · exact h.complete_new v hv

/-- The last step of an insertion: the node reached gets the pattern number. -/
theorem Inserting.finish {trie : Trie} {wd : Nat → List Char} {ps : List (List Char)}
    {n : Nat} (h : Inserting trie wd ps (wd n) (wd n)) {node : TrieNode}
    (hn : trie[n]? = some node) :
    Inserted (trie.set n { node with end_of_string := ps.length + 1 }) wd (ps ++ [wd n]) := by
  have hupd := update_node_of_get hn (fun nd => { nd with end_of_string := ps.length + 1 })
  simp only at hupd
  rw [← hupd]
  have hst : SameTree trie
      (update_node trie n (fun nd => { nd with end_of_string := ps.length + 1 })) :=
    SameTree.update_tree trie n _ (fun nd => ⟨rfl, rfl, rfl⟩)
  have hlen := update_node_length trie n (fun nd => { nd with end_of_string := ps.length + 1 })
  refine ⟨h.shape.of_sameTree hst, ?_, ?_, ?_, ?_⟩
  · intro m hm
    rw [hlen] at hm
    exact Or.inr (h.sound m hm)
  · intro q hq v hv
    rw [hlen]
    rcases List.mem_append.1 hq with hq | hq
    · exact h.complete_old q hq v hv
    · have : q = wd n := by simpa using hq
      subst this
      exact h.complete_new v hv
  · intro m node' hm
    obtain ⟨nd, hnd, hcase⟩ := update_node_get hm
    rcases hcase with ⟨rfl, rfl⟩ | ⟨hne, rfl⟩
    · exact IsId.snoc_self ps (wd m)
    · refine (h.ids m node' hnd).snoc_other ?_
      intro heq
      exact hne (h.shape.inj m n (get_lt hnd) (get_lt hn) heq)
  · intro m node' hm
    obtain ⟨nd, hnd, hcase⟩ := update_node_get hm
    rcases hcase with ⟨rfl, rfl⟩ | ⟨hne, rfl⟩
    · exact h.fresh m nd hnd
    · exact h.fresh m node' hnd

theorem grow_length (trie : Trie) (n : Nat) (node : TrieNode) (c : Char) :
    (grow trie n node c).length = trie.length + 1 := by
  simp [grow]

theorem grow_get_new (trie : Trie) (n : Nat) (node : TrieNode) (c : Char) :
    (grow trie n node c)[trie.length]? = some (TrieNode.new (some n) c) := by
  unfold grow
  rw [List.getElem?_append_right (by simp)]
  simp

theorem grow_get_self {trie : Trie} {n : Nat} {node : TrieNode} (hn : trie[n]? = some node)
    (c : Char) : (grow trie n node c)[n]? =
      some { node with children := node.children ++ [(c, trie.length)] } := by
  unfold grow
  rw [List.getElem?_append_left (by simpa using get_lt hn)]
  exact get_set_self hn _

theorem grow_get_other (trie : Trie) {n m : Nat} (node : TrieNode) (c : Char) (hmn : m ≠ n)
    (hm : m < trie.length) : (grow trie n node c)[m]? = trie[m]? := by
  unfold grow
  rw [List.getElem?_append_left (by simpa using hm)]
  exact get_set_ne (Ne.symm hmn) _

/-- Reading a node of the grown store. -/
theorem grow_get {trie : Trie} {n : Nat} {node : TrieNode} (hn : trie[n]? = some node)
    {c : Char} {m : Nat} {md : TrieNode} (h : (grow trie n node c)[m]? = some md) :
    (m = trie.length ∧ md = TrieNode.new (some n) c) ∨
    (m = n ∧ md = { node with children := node.children ++ [(c, trie.length)] }) ∨
    (m ≠ n ∧ m < trie.length ∧ trie[m]? = some md) := by
  have hlt : m < trie.length + 1 := by
    have := get_lt h
    rwa [grow_length] at this
  by_cases h1 : m = trie.length
  · subst h1
    rw [grow_get_new] at h
    exact Or.inl ⟨rfl, (Option.some.inj h).symm⟩
  · have hm : m < trie.length := by omega
    by_cases h2 : m = n
    · subst h2
      rw [grow_get_self hn] at h
      exact Or.inr (Or.inl ⟨rfl, (Option.some.inj h).symm⟩)
    · rw [grow_get_other trie node c h2 hm] at h
      exact Or.inr (Or.inr ⟨h2, hm, h⟩)

theorem grow_words_old (trie : Trie) (wd : Nat → List Char) (n : Nat) (c : Char) {m : Nat}
    (hm : m < trie.length) : grow_words trie wd n c m = wd m := by
  simp [grow_words, Nat.ne_of_lt hm]

theorem grow_words_new (trie : Trie) (wd : Nat → List Char) (n : Nat) (c : Char) :
    grow_words trie wd n c trie.length = wd n ++ [c] := by
  simp [grow_words]

theorem Shape.grow_shape {trie : Trie} {wd : Nat → List Char} (hs : Shape trie wd) {n : Nat}
    {node : TrieNode} (hn : trie[n]? = some node) {c : Char}
    (hl : node.children.lookup c = none) :
    Shape (grow trie n node c) (grow_words trie wd n c) := by
  have hnlt : n < trie.length := get_lt hn
  have hnew : ¬ IsWord trie.length wd (wd n ++ [c]) := by
    intro h
    obtain ⟨m, hm⟩ := (hs.isWord_snoc hn c).1 h
    rw [hl] at hm
    cases hm
  have hwn : grow_words trie wd n c n = wd n := grow_words_old trie wd n c hnlt
  refine ⟨?_, ?_, ?_, ?_, ?_, ?_⟩
  · rw [grow_words_old trie wd n c hs.pos]
    exact hs.root_word
  · rw [grow_length]
    omega
  · intro i j hi hj hij
    rw [grow_length] at hi hj
    by_cases h1 : i = trie.length
    · by_cases h2 : j = trie.length
      · rw [h1, h2]
      · exfalso
        have hj' : j < trie.length := by omega
        rw [h1, grow_words_new, grow_words_old trie wd n c hj'] at hij
        exact hnew ⟨j, hj', hij.symm⟩
    · have hi' : i < trie.length := by omega
      by_cases h2 : j = trie.length
      · exfalso
        rw [h2, grow_words_new, grow_words_old trie wd n c hi'] at hij
        exact hnew ⟨i, hi', hij⟩
      · have hj' : j < trie.length := by omega
        rw [grow_words_old trie wd n c hi', grow_words_old trie wd n c hj'] at hij
        exact hs.inj i j hi' hj' hij
  · intro k kd c' m hk hm
    rcases grow_get hn hk with ⟨-, rfl⟩ | ⟨rfl, rfl⟩ | ⟨hkn, hklt, hk'⟩
    · simp [TrieNode.new] at hm
    · simp only [List.mem_append, List.mem_singleton] at hm
      rcases hm with hm | hm
      · obtain ⟨h1, h2, md, hmd, hp, hsym⟩ := hs.child k node c' m hn hm
        have hmlt := get_lt hmd
        refine ⟨h1, ?_, md, ?_, hp, hsym⟩
        · rw [grow_words_old trie wd k c hmlt, hwn, h2]
        · rw [grow_get_other trie node c (by omega) hmlt]
          exact hmd
      · obtain ⟨rfl, rfl⟩ := Prod.mk.inj hm
        refine ⟨hnlt, ?_, _, grow_get_new trie k node c', rfl, rfl⟩
        rw [grow_words_new, hwn]
    · obtain ⟨h1, h2, md, hmd, hp, hsym⟩ := hs.child k kd c' m hk' hm
      have hmlt := get_lt hmd
      refine ⟨h1, ?_, ?_⟩
      · rw [grow_words_old trie wd n c hmlt, grow_words_old trie wd n c hklt, h2]
      · by_cases hmn : m = n
        · subst hmn
          rw [hn] at hmd
          cases hmd
          exact ⟨_, grow_get_self hn c, hp, hsym⟩
        · refine ⟨md, ?_, hp, hsym⟩
          rw [grow_get_other trie node c hmn hmlt]
          exact hmd
  · intro m md hm h0
    rcases grow_get hn hm with ⟨rfl, rfl⟩ | ⟨rfl, rfl⟩ | ⟨hmn, hmlt, hm'⟩
    · exact ⟨n, _, rfl, grow_get_self hn c, by simp [TrieNode.new]⟩
    · obtain ⟨p, pd, h1, h2, h3, h4, -⟩ := hs.parent_word hn h0
      refine ⟨p, pd, h1, ?_, h4⟩
      rw [grow_get_other trie node c (by omega) (get_lt h2)]
      exact h2
    · obtain ⟨p, pd, h1, h2, h3⟩ := hs.parent m md hm' h0
      by_cases hpn : p = n
      · subst hpn
        rw [hn] at h2
        cases h2
        exact ⟨p, _, h1, grow_get_self hn c, by simp [h3]⟩
      · refine ⟨p, pd, h1, ?_, h3⟩
        rw [grow_get_other trie node c hpn (get_lt h2)]
        exact h2
  · intro k kd hk
    rcases grow_get hn hk with ⟨-, rfl⟩ | ⟨rfl, rfl⟩ | ⟨hkn, hklt, hk'⟩
    · simp [TrieNode.new]
    · simp only [List.map_append, List.map_cons, List.map_nil]
      rw [List.nodup_append]
      refine ⟨hs.kids_nodup k node hn, by simp, ?_⟩
      intro a ha hb
      have : a = trie.length := by simpa using hb
      subst this
      obtain ⟨⟨c', m⟩, hmem, hsnd⟩ := List.mem_map.1 ha
      simp only at hsnd
      subst hsnd
      have := hs.child_lt hn hmem
      omega
    · exact hs.kids_nodup k kd hk'

/-- Constructing a missing child while inserting. -/
theorem Inserting.grow_inserting {trie : Trie} {wd : Nat → List Char} {ps : List (List Char)}
    {p : List Char} {n : Nat} (h : Inserting trie wd ps p (wd n)) {node : TrieNode}
    (hn : trie[n]? = some node) {c : Char} (hl : node.children.lookup c = none)
    (hp : wd n ++ [c] <+: p) :
    Inserting (AhoCorasick.grow trie n node c) (grow_words trie wd n c) ps p
      (grow_words trie wd n c trie.length) := by
  have hnlt : n < trie.length := get_lt hn
  have hnew : ¬ IsWord trie.length wd (wd n ++ [c]) := by
    intro hw
    obtain ⟨m, hm⟩ := (h.shape.isWord_snoc hn c).1 hw
    rw [hl] at hm
    cases hm
  have hold : ∀ v, IsWord trie.length wd v →
      IsWord (AhoCorasick.grow trie n node c).length (grow_words trie wd n c) v := by
    rintro v ⟨m, hm, hv⟩
    refine ⟨m, by rw [grow_length]; omega, ?_⟩
    rw [grow_words_old trie wd n c hm, hv]
  refine ⟨h.shape.grow_shape hn hl, ?_, ?_, ?_, ?_, ?_⟩
  · intro m hm
    rw [grow_length] at hm
    by_cases h1 : m = trie.length
    · subst h1
      rw [grow_words_new]
      exact ⟨p, by simp, hp⟩
    · have hm' : m < trie.length := by omega
      rw [grow_words_old trie wd n c hm']
      exact h.sound m hm'
  · intro q hq v hv
    exact hold v (h.complete_old q hq v hv)
  · intro v hv
    rw [grow_words_new] at hv
    rcases List.prefix_concat_iff.1 hv with rfl | hv
    · exact ⟨trie.length, by rw [grow_length]; omega, grow_words_new trie wd n c⟩
    · exact hold v (h.complete_new v hv)
  · intro m md hm
    rcases grow_get hn hm with ⟨rfl, rfl⟩ | ⟨rfl, rfl⟩ | ⟨hmn, hmlt, hm'⟩
    · rw [grow_words_new]
      refine Or.inl ⟨rfl, ?_⟩
      intro hmem
      exact hnew (h.complete_old _ hmem _ List.prefix_rfl)
    · rw [grow_words_old trie wd m c hnlt]
      exact h.ids m node hn
    · rw [grow_words_old trie wd n c hmlt]
      exact h.ids m md hm'
  · intro m md hm
    rcases grow_get hn hm with ⟨rfl, rfl⟩ | ⟨rfl, rfl⟩ | ⟨hmn, hmlt, hm'⟩
    · exact ⟨rfl, rfl⟩
    · exact h.fresh m node hn
    · exact h.fresh m md hm'

/-- `add_child` on a non-null string succeeds and extends the store by that string. -/
theorem add_child_from_spec (ps : List (List Char)) :
    ∀ (path : List Char) (trie : Trie) (wd : Nat → List Char) (n : Nat),
      n < trie.length → Inserting trie wd ps (wd n ++ path) (wd n) →
      ∃ trie' wd', add_child_from (ps.length + 1) path trie n = .ok trie' ∧
        Inserted trie' wd' (ps ++ [wd n ++ path]) := by
  intro path
  induction path with
  | nil =>
    intro trie wd n hn h
    obtain ⟨node, hnode⟩ := get_of_lt hn
    simp only [List.append_nil] at h ⊢
    exact ⟨_, wd, by simp [add_child_from, hnode], h.finish hnode⟩
  | cons c path ih =>
    intro trie wd n hn h
    obtain ⟨node, hnode⟩ := get_of_lt hn
    have hassoc : ∀ w : List Char, w ++ c :: path = (w ++ [c]) ++ path := by simp
    cases hl : node.children.lookup c with
    | some m =>
      have hc := h.shape.child n node c m hnode (lookup_mem hl)
      obtain ⟨h', hm⟩ := h.walk hnode hl
      have e : wd m ++ path = wd n ++ c :: path := by rw [hc.2.1, ← hassoc]
      have := ih trie wd m hm (by rw [e]; exact h')
      rw [e] at this
      obtain ⟨trie', wd', hrun, hres⟩ := this
      exact ⟨trie', wd', by simp [add_child_from, hnode, hl, hrun], hres⟩
    | none =>
      have hg := h.grow_inserting hnode hl (by rw [hassoc]; exact List.prefix_append _ _)
      have hlen : trie.length < (grow trie n node c).length := by
        rw [grow_length]; omega
      have := ih (grow trie n node c) (grow_words trie wd n c) trie.length hlen
        (by rw [grow_words_new, ← hassoc]; rw [grow_words_new] at hg; exact hg)
      rw [grow_words_new, ← hassoc] at this
      obtain ⟨trie', wd', hrun, hres⟩ := this
      refine ⟨trie', wd', ?_, hres⟩
      simp only [add_child_from, hnode, hl]
      exact hrun

/-- The insertion loop succeeds on a dictionary without null entries. -/
theorem insert_dictionary_spec :
    ∀ (D ps : List (List Char)) (trie : Trie) (wd : Nat → List Char),
      Inserted trie wd ps →
      ∃ trie' wd', insert_dictionary (D.map some) trie (ps.length + 1) = .ok trie' ∧
        Inserted trie' wd' (ps ++ D) := by
  intro D
  induction D with
  | nil =>
    intro ps trie wd h
    exact ⟨trie, wd, rfl, by simpa using h⟩
  | cons p D ih =>
    intro ps trie wd h
    have h0 := add_child_from_spec ps p trie wd 0 h.shape.pos
      (by rw [h.shape.root_word]; exact h.inserting p)
    rw [h.shape.root_word] at h0
    obtain ⟨trie1, wd1, hrun1, h1⟩ := h0
    simp only [List.nil_append] at h1
    obtain ⟨trie', wd', hrun, hres⟩ := ih (ps ++ [p]) trie1 wd1 h1
    refine ⟨trie', wd', ?_, by simpa using hres⟩
    simp only [List.map_cons, insert_dictionary, add_child]
    rw [hrun1]
    simpa using hrun

/-- The insertion loop throws `invalid_argument` when some entry is null. -/
theorem insert_dictionary_null :
    ∀ (dictionary : List (Option (List Char))) (ps : List (List Char)) (trie : Trie)
      (wd : Nat → List Char), Inserted trie wd ps → none ∈ dictionary →
      insert_dictionary dictionary trie (ps.length + 1) = .error .invalid_argument := by
  intro dictionary
  induction dictionary with
  | nil =>
    intro ps trie wd _ hmem
    simp at hmem
  | cons str dictionary ih =>
    intro ps trie wd h hmem
    cases str with
    | none => simp [insert_dictionary, add_child]
    | some p =>
      have hmem' : none ∈ dictionary := by simpa using hmem
      have h0 := add_child_from_spec ps p trie wd 0 h.shape.pos
        (by rw [h.shape.root_word]; exact h.inserting p)
      rw [h.shape.root_word] at h0
      obtain ⟨trie1, wd1, hrun1, h1⟩ := h0
      simp only [List.nil_append] at h1
      have := ih (ps ++ [p]) trie1 wd1 h1 hmem'
      simp only [insert_dictionary, add_child]
      rw [hrun1]
      simpa using this

theorem DictSpec.congr_dict {Q : List Char → Prop} {len : Nat} {wd : Nat → List Char}
    {x y : List Char} (h : ∀ s, (s <:+ x ∧ Q s) ↔ (s <:+ y ∧ Q s)) {r : Option Nat}
    (hr : DictSpec Q len wd x r) : DictSpec Q len wd y r := by
  refine ⟨?_, ?_⟩
  · intro hn s hs hq
    exact hr.1 hn s ((h s).2 ⟨hs, hq⟩).1 hq
  · intro d hd
    exact ⟨(hr.2 d hd).1, (LongestSuffix.congr_suffix h (wd d)).1 (hr.2 d hd).2⟩

theorem Terminal.isWord {trie : Trie} {wd : Nat → List Char} {u : List Char}
    (h : Terminal trie wd u) : IsWord trie.length wd u := by
  obtain ⟨n, node, hn, hw, -⟩ := h
  exact ⟨n, get_lt hn, hw⟩

/-- The transition from node `n` by `c` returns the node of the longest suffix
of `wd n ++ [c]` spelled in the store, when the suffix links of the nodes not
deeper than `n` are set. -/
theorem transition_spec {trie : Trie} {wd : Nat → List Char} (hs : Shape trie wd)
    (c : Char) (L : Nat)
    (hL : ∀ n, n ≠ 0 → n < trie.length → (wd n).length ≤ L → SuffixOK trie wd n) :
    ∀ (fuel n : Nat), n < trie.length → (wd n).length ≤ L → (wd n).length < fuel →
      ∃ m, transition_function trie fuel (some n) c = .ok (trie, m) ∧ m < trie.length ∧
        LongestSuffix (IsWord trie.length wd) (wd n ++ [c]) (wd m) := by
  intro fuel
  induction fuel with
  | zero =>
    intro n _ _ h
    omega
  | succ fuel ih =>
    intro n hn hnL hfuel
    obtain ⟨node, hnode⟩ := get_of_lt hn
    cases hl : node.children.lookup c with
    | some m =>
      have hc := hs.child n node c m hnode (lookup_mem hl)
      have hm := hs.child_lt hnode (lookup_mem hl)
      refine ⟨m, by simp [transition_function, hnode, hl], hm, ?_⟩
      rw [← hc.2.1]
      exact LongestSuffix.self ⟨m, hm, rfl⟩
    | none =>
      have hnot : ¬ IsWord trie.length wd (wd n ++ [c]) := by
        intro hw
        obtain ⟨m, hm⟩ := (hs.isWord_snoc hnode c).1 hw
        rw [hl] at hm
        cases hm
      by_cases h0 : n = 0
      · subst h0
        refine ⟨0, by simp [transition_function, hnode, hl], hn, ?_⟩
        rw [hs.root_word] at hnot ⊢
        refine ⟨List.nil_suffix, hs.isWord_nil, ?_⟩
        intro s' hs' hp
        rcases List.suffix_concat_iff.1 hs' with rfl | ⟨t, rfl, ht⟩
        · exact List.suffix_rfl
        · have : t = [] := List.suffix_nil.1 ht
          subst this
          exact absurd hp hnot
      · obtain ⟨node', s, hnode', hsl, hslt, hls⟩ := hL n h0 hn hnL
        rw [hnode] at hnode'
        cases hnode'
        have hne : wd n ≠ [] := hs.word_ne_nil hn h0
        have hlen : (wd s).length < (wd n).length :=
          Nat.lt_of_le_of_lt hls.1.length_le (length_tail_lt hne)
        obtain ⟨m, hrun, hm, hres⟩ := ih s hslt (by omega) (by omega)
        refine ⟨m, ?_, hm, ?_⟩
        · simp only [transition_function, hnode, hl, h0, if_false, hsl]
          exact hrun
        · rw [LongestSuffix.congr_suffix (suffix_tail_of_not hnot) (wd m),
            tail_append_singleton hne, LongestSuffix.step_suffix hs.prefixClosed hls c]
          exact hres

/-- The transition function returns the store it was given. -/
theorem transition_function_frame (trie : Trie) (c : Char) :
    ∀ (fuel : Nat) (node_ptr : Option Nat) (trie' : Trie) (m : Nat),
      transition_function trie fuel node_ptr c = .ok (trie', m) → trie' = trie := by
  intro fuel
  induction fuel with
  | zero =>
    intro node_ptr trie' m h
    simp [transition_function] at h
  | succ fuel ih =>
    intro node_ptr trie' m h
    cases node_ptr with
    | none => simp [transition_function] at h
    | some n =>
      simp only [transition_function] at h
      split at h
      · cases h
      · split at h
        · cases h
          rfl
        · split at h
          · cases h
            rfl
          · exact ih _ _ _ h

/-- The suffix link computed for a non-root node `n`, when the links of all
shallower non-root nodes are set. -/
theorem find_suffix_link_spec {trie : Trie} {wd : Nat → List Char} (hs : Shape trie wd)
    {n : Nat} (hn : n < trie.length) (h0 : n ≠ 0)
    (hL : ∀ k, k ≠ 0 → k < trie.length → (wd k).length < (wd n).length → SuffixOK trie wd k) :
    ∃ s, find_suffix_link trie trie.length n = .ok (trie, some s) ∧ s < trie.length ∧
      LongestSuffix (IsWord trie.length wd) (wd n).tail (wd s) := by
  obtain ⟨node, hnode⟩ := get_of_lt hn
  obtain ⟨p, pd, hpar, hpd, hplt, hmem, hw⟩ := hs.parent_word hnode h0
  by_cases hp0 : p = 0
  · subst hp0
    refine ⟨0, by simp [find_suffix_link, hnode, hpar], hs.pos, ?_⟩
    rw [hw, hs.root_word]
    simp only [List.nil_append, List.tail_cons]
    exact LongestSuffix.self hs.isWord_nil
  · have hplen : (wd p).length < (wd n).length := by rw [hw]; simp
    obtain ⟨pd', f, hpd', hf, hflt, hfls⟩ := hL p hp0 (get_lt hpd) hplen
    rw [hpd] at hpd'
    cases hpd'
    have hpne : wd p ≠ [] := hs.word_ne_nil (get_lt hpd) hp0
    have hflen : (wd f).length < (wd p).length :=
      Nat.lt_of_le_of_lt hfls.1.length_le (length_tail_lt hpne)
    obtain ⟨m, hrun, hm, hres⟩ := transition_spec hs node.path_symbol (wd f).length
      (fun k hk0 hk hkl => hL k hk0 hk (by omega)) trie.length f hflt (Nat.le_refl _)
      (hs.length_lt hflt)
    refine ⟨m, ?_, hm, ?_⟩
    · have hne : node.parent ≠ some 0 := by
        rw [hpar]
        intro h
        exact hp0 (Option.some.inj h)
      have hne' : ¬ (some p = some 0) := fun h => hp0 (Option.some.inj h)
      simp only [find_suffix_link, hnode, if_false, h0, ne_eq, not_false_eq_true, if_true,
        hpar, hpd, hf, hrun, hne']
    · rw [hw, tail_append_singleton hpne, LongestSuffix.step_suffix hs.prefixClosed hfls]
      exact hres

/-- The dictionary suffix link computed for a non-root node `n` whose suffix
link is set, as are those of all shallower non-root nodes. -/
theorem find_dict_suffix_link_spec {trie : Trie} {wd : Nat → List Char} (hs : Shape trie wd) :
    ∀ (fuel n : Nat), n < trie.length → n ≠ 0 → (wd n).length ≤ fuel →
      (∀ k, k ≠ 0 → k < trie.length → (k = n ∨ (wd k).length < (wd n).length) →
        SuffixOK trie wd k) →
      ∃ r, find_dict_suffix_link trie fuel n = .ok (trie, r) ∧
        DictSpec (Terminal trie wd) trie.length wd (wd n).tail r := by
  intro fuel
  induction fuel with
  | zero =>
    intro n hn h0 hfuel _
    have := hs.word_ne_nil hn h0
    have : (wd n).length ≠ 0 := by simpa using this
    omega
  | succ fuel ih =>
    intro n hn h0 hfuel hL
    obtain ⟨node, s, hnode, hsl, hslt, hls⟩ := hL n h0 hn (Or.inl rfl)
    obtain ⟨linked, hlinked⟩ := get_of_lt hslt
    have hne : wd n ≠ [] := hs.word_ne_nil hn h0
    have hlen : (wd s).length < (wd n).length :=
      Nat.lt_of_le_of_lt hls.1.length_le (length_tail_lt hne)
    by_cases he : linked.end_of_string ≠ 0
    · refine ⟨some s, by simp [find_dict_suffix_link, hnode, hsl, hlinked, he], ?_, ?_⟩
      · intro h
        cases h
      · intro d hd
        cases hd
        refine ⟨hslt, hls.1, ⟨s, linked, hlinked, rfl, he⟩, ?_⟩
        intro s' hs' ht
        exact hls.2.2 s' hs' ht.isWord
    · have hnt : ¬ Terminal trie wd (wd s) := by
        rintro ⟨k, kd, hk, hkw, hke⟩
        have := hs.inj k s (get_lt hk) hslt hkw
        subst this
        rw [hlinked] at hk
        cases hk
        exact he hke
      by_cases hs0 : s = 0
      · subst hs0
        refine ⟨none, by simp [find_dict_suffix_link, hnode, hsl, hlinked, he], ?_, ?_⟩
        · intro _ s' hs' ht
          have := hls.2.2 s' hs' ht.isWord
          rw [hs.root_word] at this
          have : s' = [] := List.suffix_nil.1 this
          subst this
          rw [hs.root_word] at hnt
          exact hnt ht
        · intro d hd
          cases hd
      · obtain ⟨r, hrun, hr⟩ := ih s hslt hs0 (by omega)
          (fun k hk0 hk hkl => hL k hk0 hk (by
            rcases hkl with rfl | hkl
            · exact Or.inr hlen
            · exact Or.inr (by omega)))
        refine ⟨r, ?_, ?_⟩
        · simp only [find_dict_suffix_link, hnode, hsl, hlinked, he, if_false, hs0]
          exact hrun
        · refine DictSpec.congr_dict ?_ hr
          intro s'
          constructor
          · rintro ⟨h1, h2⟩
            exact ⟨(h1.trans (List.tail_suffix _)).trans hls.1, h2⟩
          · rintro ⟨h1, h2⟩
            refine ⟨suffix_tail_of_ne (hls.2.2 s' h1 h2.isWord) ?_, h2⟩
            rintro rfl
            exact hnt h2

theorem find_dict_suffix_link_frame (trie : Trie) :
    ∀ (fuel n : Nat) (trie' : Trie) (r : Option Nat),
      find_dict_suffix_link trie fuel n = .ok (trie', r) → trie' = trie := by
  intro fuel
  induction fuel with
  | zero =>
    intro n trie' r h
    simp [find_dict_suffix_link] at h
  | succ fuel ih =>
    intro n trie' r h
    simp only [find_dict_suffix_link] at h
    split at h
    · cases h
    · split at h
      · cases h
      · split at h
        · cases h
        · split at h
          · cases h
            rfl
          · split at h
            · cases h
              rfl
            · exact ih _ _ _ h

theorem kids_of_get {trie : Trie} {n : Nat} {node : TrieNode} (h : trie[n]? = some node) :
    kids trie n = node.children.map Prod.snd := by
  simp [kids, h]

theorem mem_kids {trie : Trie} {n m : Nat} (h : m ∈ kids trie n) :
    ∃ (node : TrieNode) (c : Char), trie[n]? = some node ∧ (c, m) ∈ node.children := by
  unfold kids at h
  split at h
  · rename_i node hn
    obtain ⟨⟨c, m'⟩, hmem, hsnd⟩ := List.mem_map.1 h
    simp only at hsnd
    subst hsnd
    exact ⟨node, c, hn, hmem⟩
  · simp at h

namespace Shape

variable {trie : Trie} {wd : Nat → List Char}

theorem mem_level (hs : Shape trie wd) :
    ∀ (d m : Nat), m ∈ level trie d → m < trie.length ∧ (wd m).length = d := by
  intro d
  induction d with
  | zero =>
    intro m hm
    simp only [level, List.mem_singleton] at hm
    subst hm
    exact ⟨hs.pos, by simp [hs.root_word]⟩
  | succ d ih =>
    intro m hm
    simp only [level, List.mem_flatMap] at hm
    obtain ⟨n, hn, hmk⟩ := hm
    obtain ⟨node, c, hnode, hmem⟩ := mem_kids hmk
    have := hs.child n node c m hnode hmem
    refine ⟨hs.child_lt hnode hmem, ?_⟩
    rw [this.2.1]
    simp [(ih n hn).2]

theorem level_of_length (hs : Shape trie wd) :
    ∀ (d m : Nat), m < trie.length → (wd m).length = d → m ∈ level trie d := by
  intro d
  induction d with
  | zero =>
    intro m hm hlen
    have : wd m = [] := List.length_eq_zero.1 hlen
    rw [hs.eq_root_of_word hm this]
    simp [level]
  | succ d ih =>
    intro m hm hlen
    have h0 : m ≠ 0 := by
      rintro rfl
      rw [hs.root_word] at hlen
      simp at hlen
    obtain ⟨md, hmd⟩ := get_of_lt hm
    obtain ⟨p, pd, -, hpd, -, hmem, hw⟩ := hs.parent_word hmd h0
    have hp : p ∈ level trie d := by
      apply ih p (get_lt hpd)
      rw [hw] at hlen
      simpa using hlen
    simp only [level, List.mem_flatMap]
    refine ⟨p, hp, ?_⟩
    rw [kids_of_get hpd]
    exact List.mem_map.2 ⟨_, hmem, rfl⟩

theorem kids_parent (hs : Shape trie wd) {n m : Nat} (h : m ∈ kids trie n) :
    ∃ md : TrieNode, trie[m]? = some md ∧ md.parent = some n := by
  obtain ⟨node, c, hnode, hmem⟩ := mem_kids h
  obtain ⟨-, -, md, hmd, hp, -⟩ := hs.child n node c m hnode hmem
  exact ⟨md, hmd, hp⟩

theorem level_nodup (hs : Shape trie wd) : ∀ d, (level trie d).Nodup := by
  intro d
  induction d with
  | zero => simp [level]
  | succ d ih =>
    simp only [level]
    rw [List.nodup_flatMap]
    refine ⟨?_, ?_⟩
    · intro n _
      unfold kids
      split
      · rename_i node hn
        exact hs.kids_nodup n node hn
      · exact List.nodup_nil
    · refine ih.pairwise_of_forall_ne ?_
      intro a _ b _ hab
      simp only [Function.onFun]
      intro m hma hmb
      obtain ⟨md, hmd, hpa⟩ := hs.kids_parent hma
      obtain ⟨md', hmd', hpb⟩ := hs.kids_parent hmb
      rw [hmd] at hmd'
      cases hmd'
      rw [hpa] at hpb
      exact hab (Option.some.inj hpb)

end Shape

theorem kids_sameTree {t t' : Trie} (h : SameTree t t') (n : Nat) : kids t' n = kids t n := by
  unfold kids
  cases hn : t[n]? with
  | none =>
    have : t'[n]? = none := by
      rw [List.getElem?_eq_none_iff] at hn ⊢
      rw [← h.1]
      exact hn
    rw [this]
  | some node =>
    have : n < t'.length := by rw [← h.1]; exact get_lt hn
    obtain ⟨node', hn'⟩ := get_of_lt this
    rw [hn']
    simp only
    rw [(h.2 n node node' hn hn').1]

theorem level_succ_nil {trie : Trie} {d : Nat} (h : level trie d = []) :
    ∀ k, level trie (d + k) = [] := by
  intro k
  induction k with
  | zero => exact h
  | succ k ih =>
    rw [← Nat.add_assoc]
    simp [level, ih]

theorem pending_pos {trie : Trie} {r : TrieNode} (h : trie[0]? = some r)
    (hr : r.suffix_link = none) : 0 < pending trie := by
  unfold pending
  rw [List.countP_pos_iff]
  exact ⟨r, List.getElem?_mem h, by simp [hr]⟩

theorem pending_update_set {trie : Trie} {n : Nat} {node : TrieNode}
    (hn : trie[n]? = some node) (hnone : node.suffix_link = none) (f : TrieNode → TrieNode)
    (hf : (f node).suffix_link ≠ none) :
    pending (update_node trie n f) + 1 = pending trie := by
  have hlt := get_lt hn
  have hget : trie[n] = node := by
    rcases List.getElem?_eq_some.1 hn with ⟨_, h⟩
    exact h
  have hpos : 0 < pending trie := by
    unfold pending
    rw [List.countP_pos_iff]
    exact ⟨node, List.getElem?_mem hn, by simp [hnone]⟩
  rw [update_node_of_get hn]
  unfold pending at hpos ⊢
  rw [List.countP_set _ _ _ _ hlt, hget]
  have h1 : (f node).suffix_link.isNone = false := by
    cases h : (f node).suffix_link with
    | none => exact absurd h hf
    | some _ => rfl
  simp only [hnone, Option.isNone_none, if_true, h1]
  simp
  omega

theorem pending_update_same {trie : Trie} {n : Nat} (f : TrieNode → TrieNode)
    (hf : ∀ nd, (f nd).suffix_link = nd.suffix_link) :
    pending (update_node trie n f) = pending trie := by
  unfold update_node
  split
  · rename_i node hn
    have hlt := get_lt hn
    have hget : trie[n] = node := by
      rcases List.getElem?_eq_some.1 hn with ⟨_, h⟩
      exact h
    unfold pending
    rw [List.countP_set _ _ _ _ hlt, hget, hf node]
    by_cases h : node.suffix_link.isNone = true
    · have : 0 < List.countP (fun nd => nd.suffix_link.isNone) trie := by
        rw [List.countP_pos_iff]
        exact ⟨node, List.getElem?_mem hn, h⟩
      simp only [h, if_true]
      omega
    · simp [h]
  · rfl

/-! ### Links of a node after an update elsewhere or of another field -/

theorem SuffixOK.transfer_suffix {t t' : Trie} {wd : Nat → List Char} {k : Nat}
    (hlen : t'.length = t.length)
    (hk : ∀ node : TrieNode, t[k]? = some node →
      ∃ node' : TrieNode, t'[k]? = some node' ∧ node'.suffix_link = node.suffix_link)
    (h : SuffixOK t wd k) : SuffixOK t' wd k := by
  obtain ⟨node, s, hnode, hsl, hs, hls⟩ := h
  obtain ⟨node', hnode', hsl'⟩ := hk node hnode
  exact ⟨node', s, hnode', by rw [hsl', hsl], by rw [hlen]; exact hs, by rw [hlen]; exact hls⟩

theorem DictOK.transfer_dict {t t' : Trie} {wd : Nat → List Char} {k : Nat}
    (hsk : SameSkeleton t t')
    (hk : ∀ node : TrieNode, t[k]? = some node →
      ∃ node' : TrieNode, t'[k]? = some node' ∧
        node'.dict_suffix_link = node.dict_suffix_link)
    (h : DictOK t wd k) : DictOK t' wd k := by
  obtain ⟨node, hnode, hd⟩ := h
  obtain ⟨node', hnode', hdl'⟩ := hk node hnode
  have hT : Terminal t wd = Terminal t' wd :=
    funext fun u => propext (Terminal.of_sameSkeleton hsk u)
  exact ⟨node', hnode', by rw [hdl', ← hT, ← hsk.1.1]; exact hd⟩

theorem BfsInv.next_level {t0 t : Trie} {wd : Nat → List Char} {d : Nat} {P : List Nat}
    (hs : Shape t0 wd) (h : BfsInv t0 wd t d P []) :
    BfsInv t0 wd t (d + 1) [] (level t0 (d + 1)) ∧
      P.flatMap (kids t0) = level t0 (d + 1) := by
  have hP : level t0 d = P := by simpa using h.lvl
  refine ⟨⟨h.skel, by simp, by omega, ?_, ?_⟩, by simp [level, hP]⟩
  · intro n h0 hn hcase
    rcases hcase with hlt | hmem
    · by_cases hd : (wd n).length < d
      · exact h.done n h0 hn (Or.inl hd)
      · have : (wd n).length = d := by omega
        exact h.done n h0 hn (Or.inr (hP ▸ hs.level_of_length d n hn this))
    · simp at hmem
  · intro n node hn hcase
    refine h.todo n node hn ?_
    rcases hcase with h0 | ⟨hd, -⟩
    · exact Or.inl h0
    · refine Or.inr ⟨by omega, ?_⟩
      intro hmem
      have := (hs.mem_level d n (hP ▸ hmem)).2
      omega

/-- One iteration of the breadth-first pass. -/
theorem BfsInv.step_bfs {t0 t : Trie} {wd : Nat → List Char} {d : Nat} {P A : List Nat}
    {cur : Nat} (hs : Shape t0 wd) (h : BfsInv t0 wd t d P (cur :: A)) :
    ∃ (node : TrieNode) (s : Nat) (r : Option Nat),
      t[cur]? = some node ∧ node.children.map Prod.snd = kids t0 cur ∧
      find_suffix_link t t.length cur = .ok (t, some s) ∧
      find_dict_suffix_link
        (update_node t cur (fun nd => { nd with suffix_link := some s }))
        (update_node t cur (fun nd => { nd with suffix_link := some s })).length cur =
        .ok (update_node t cur (fun nd => { nd with suffix_link := some s }), r) ∧
      BfsInv t0 wd
        (update_node (update_node t cur (fun nd => { nd with suffix_link := some s })) cur
          (fun nd => { nd with dict_suffix_link := r })) d (P ++ [cur]) A ∧
      pending (update_node (update_node t cur (fun nd => { nd with suffix_link := some s })) cur
          (fun nd => { nd with dict_suffix_link := r })) + 1 = pending t := by
  have hlen : t.length = t0.length := h.skel.1.1.symm
  have hst : Shape t wd := hs.of_sameTree h.skel.1
  have hcur_mem : cur ∈ level t0 d := by rw [h.lvl]; simp
  obtain ⟨hcur_lt0, hcur_len⟩ := hs.mem_level d cur hcur_mem
  have hcur_lt : cur < t.length := by rw [hlen]; exact hcur_lt0
  have hcur0 : cur ≠ 0 := by
    rintro rfl
    rw [hs.root_word] at hcur_len
    have := h.dpos
    simp at hcur_len
    omega
  have hnd := hs.level_nodup d
  rw [h.lvl] at hnd
  have hcurP : cur ∉ P := by
    intro hmem
    have := (List.nodup_append.1 hnd).2.2
    exact this hmem (List.mem_cons_self _ _)
  obtain ⟨node, hnode⟩ := get_of_lt hcur_lt
  have hkids : node.children.map Prod.snd = kids t0 cur := by
    rw [← kids_sameTree h.skel.1 cur, kids_of_get hnode]
  have hfresh := h.todo cur node hnode (Or.inr ⟨by omega, hcurP⟩)
  -- the suffix link
  obtain ⟨s, hrun1, hslt, hls⟩ := find_suffix_link_spec hst hcur_lt hcur0
    (fun k hk0 hk hkl => (h.done k hk0 (hlen ▸ hk) (Or.inl (by omega))).1)
  refine ⟨node, s, ?_⟩
  generalize ht2 : update_node t cur (fun nd => { nd with suffix_link := some s }) = t2
  have hsk2 : SameSkeleton t t2 := by
    rw [← ht2]
    exact SameSkeleton.update_skeleton t cur _ (fun nd => ⟨rfl, rfl, rfl, rfl⟩)
  have hlen2 : t2.length = t.length := hsk2.1.1.symm
  have hst2 : Shape t2 wd := hst.of_sameTree hsk2.1
  have hget2 : t2[cur]? = some { node with suffix_link := some s } := by
    rw [← ht2]
    exact update_node_get_self hnode _
  have hother2 : ∀ k, k ≠ cur → t2[k]? = t[k]? := by
    intro k hk
    rw [← ht2]
    exact update_node_get_ne t (Ne.symm hk) _
  have hsuf2 : SuffixOK t2 wd cur :=
    ⟨_, s, hget2, rfl, by rw [hlen2]; exact hslt, by rw [hlen2]; exact hls⟩
  have hdone2 : ∀ k, k ≠ 0 → k < t2.length → (k = cur ∨ (wd k).length < (wd cur).length) →
      SuffixOK t2 wd k := by
    intro k hk0 hk hcase
    rcases hcase with rfl | hkl
    · exact hsuf2
    · have hkc : k ≠ cur := by
        rintro rfl
        omega
      refine SuffixOK.transfer_suffix hlen2 ?_
        (h.done k hk0 (by rw [← hlen, ← hlen2]; exact hk) (Or.inl (by omega))).1
      intro nd hndk
      exact ⟨nd, by rw [hother2 k hkc]; exact hndk, rfl⟩
  -- the dictionary suffix link
  obtain ⟨r, hrun2, hr⟩ := find_dict_suffix_link_spec hst2 t2.length cur
    (by rw [hlen2]; exact hcur_lt) hcur0 (Nat.le_of_lt (hst2.length_lt (by rw [hlen2]; exact hcur_lt)))
    hdone2
  refine ⟨r, hnode, hkids, hrun1, hrun2, ?_⟩
  generalize ht4 : update_node t2 cur (fun nd => { nd with dict_suffix_link := r }) = t4
  have hsk4 : SameSkeleton t2 t4 := by
    rw [← ht4]
    exact SameSkeleton.update_skeleton t2 cur _ (fun nd => ⟨rfl, rfl, rfl, rfl⟩)
  have hlen4 : t4.length = t2.length := hsk4.1.1.symm
  have hget4 : t4[cur]? =
      some { ({ node with suffix_link := some s } : TrieNode) with dict_suffix_link := r } := by
    rw [← ht4]
    exact update_node_get_self hget2 _
  have hother4 : ∀ k, k ≠ cur → t4[k]? = t[k]? := by
    intro k hk
    rw [← ht4, update_node_get_ne t2 (Ne.symm hk) _]
    exact hother2 k hk
  have hsk04 : SameSkeleton t0 t4 := (h.skel.trans_skeleton hsk2).trans_skeleton hsk4
  have hsk_t4 : SameSkeleton t t4 := hsk2.trans_skeleton hsk4
  refine ⟨⟨hsk04, by rw [h.lvl]; simp, h.dpos, ?_, ?_⟩, ?_⟩
  · intro k hk0 hk hcase
    by_cases hkc : k = cur
    · subst hkc
      refine ⟨SuffixOK.transfer_suffix hlen4 ?_ hsuf2, ?_⟩
      · intro nd hndk
        rw [hget2] at hndk
        cases hndk
        exact ⟨_, hget4, rfl⟩
      · refine ⟨_, hget4, ?_⟩
        have hT : Terminal t2 wd = Terminal t4 wd :=
          funext fun u => propext (Terminal.of_sameSkeleton hsk4 u)
        rw [← hT, hlen4]
        exact hr
    · have hcase' : (wd k).length < d ∨ k ∈ P := by
        rcases hcase with hl | hm
        · exact Or.inl hl
        · rcases List.mem_append.1 hm with hm | hm
          · exact Or.inr hm
          · exact absurd (by simpa using hm) hkc
      obtain ⟨h1, h2⟩ := h.done k hk0 hk hcase'
      refine ⟨SuffixOK.transfer_suffix (hlen4.trans hlen2) ?_ h1, DictOK.transfer_dict hsk_t4 ?_ h2⟩
      · intro nd hndk
        exact ⟨nd, by rw [hother4 k hkc]; exact hndk, rfl⟩
      · intro nd hndk
        exact ⟨nd, by rw [hother4 k hkc]; exact hndk, rfl⟩
  · intro k nd hk hcase
    have hkc : k ≠ cur := by
      rcases hcase with rfl | ⟨-, hnot⟩
      · exact Ne.symm hcur0
      · rintro rfl
        exact hnot (by simp)
    rw [hother4 k hkc] at hk
    refine h.todo k nd hk ?_
    rcases hcase with h0 | ⟨hd, hnot⟩
    · exact Or.inl h0
    · exact Or.inr ⟨hd, fun hm => hnot (List.mem_append_left _ hm)⟩
  · have e4 : pending t4 = pending t2 := by
      rw [← ht4]
      exact pending_update_same _ (fun nd => rfl)
    have e2 : pending t2 + 1 = pending t := by
      rw [← ht2]
      exact pending_update_set hnode hfresh.1 _ (by simp)
    rw [e4, e2]

/-- The breadth-first pass terminates within its bound and sets every link. -/
theorem resolve_links_spec {t0 : Trie} {wd : Nat → List Char} (hs : Shape t0 wd) :
    ∀ (fuel : Nat) (t : Trie) (d : Nat) (P A : List Nat), BfsInv t0 wd t d P A →
      pending t ≤ fuel → A ++ P.flatMap (kids t0) ≠ [] →
      ∃ t', resolve_links fuel t (A ++ P.flatMap (kids t0)) = .ok t' ∧ Linked t0 wd t' := by
  intro fuel
  induction fuel with
  | zero =>
    intro t d P A h hp _
    exfalso
    have hpos : 0 < t.length := by rw [← h.skel.1.1]; exact hs.pos
    obtain ⟨r, hr⟩ := get_of_lt hpos
    have := pending_pos hr (h.todo 0 r hr (Or.inl rfl)).1
    omega
  | succ fuel ih =>
    -- it suffices to treat a queue that starts with a node of depth `d`
    have main : ∀ (t : Trie) (d : Nat) (P A : List Nat) (cur : Nat),
        BfsInv t0 wd t d P (cur :: A) → pending t ≤ fuel + 1 →
        ∃ t', resolve_links (fuel + 1) t ((cur :: A) ++ P.flatMap (kids t0)) = .ok t' ∧
          Linked t0 wd t' := by
      intro t d P A cur h hp
      obtain ⟨node, s, r, hnode, hkids, hrun1, hrun2, hinv, hpend⟩ := h.step_bfs hs
      have hq : (A ++ P.flatMap (kids t0)) ++ node.children.map Prod.snd =
          A ++ (P ++ [cur]).flatMap (kids t0) := by
        rw [hkids]
        simp
      by_cases hempty : A ++ (P ++ [cur]).flatMap (kids t0) = []
      · refine ⟨_, ?_, ⟨hinv.skel, ?_, ?_⟩⟩
        · rw [List.cons_append]
          simp only [resolve_links, hnode, hrun1, hrun2, hq, hempty,
            List.isEmpty_nil, if_true]
        · intro n h0 hn
          have hA : A = [] := (List.append_eq_nil.1 hempty).1
          have hnext : level t0 (d + 1) = [] := by
            have := (List.append_eq_nil.1 hempty).2
            simp only [level]
            rw [hinv.lvl, hA, List.append_nil]
            exact this
          have hle : (wd n).length ≤ d := by
            by_contra hgt
            have hmem := hs.level_of_length _ n hn rfl
            have : (wd n).length = d + 1 + ((wd n).length - (d + 1)) := by omega
            rw [this, level_succ_nil hnext] at hmem
            simp at hmem
          refine hinv.done n h0 hn ?_
          by_cases hd : (wd n).length < d
          · exact Or.inl hd
          · have : (wd n).length = d := by omega
            have hmem := hs.level_of_length d n hn this
            rw [hinv.lvl, hA, List.append_nil] at hmem
            exact Or.inr hmem
        · have hpos : 0 < (update_node (update_node t cur
              (fun nd => { nd with suffix_link := some s })) cur
              (fun nd => { nd with dict_suffix_link := r })).length := by
            rw [← hinv.skel.1.1]; exact hs.pos
          obtain ⟨rt, hrt⟩ := get_of_lt hpos
          exact ⟨rt, hrt, hinv.todo 0 rt hrt (Or.inl rfl)⟩
      · obtain ⟨t', hrun, hres⟩ := ih _ d (P ++ [cur]) A hinv (by omega) hempty
        refine ⟨t', ?_, hres⟩
        have hne : (A ++ (P ++ [cur]).flatMap (kids t0)).isEmpty = false := by
          cases hq' : A ++ (P ++ [cur]).flatMap (kids t0) with
          | nil => exact absurd hq' hempty
          | cons _ _ => rfl
        rw [List.cons_append]
        simp only [resolve_links, hnode, hrun1, hrun2, hq, hne]
        exact hrun
    intro t d P A h hp hq
    cases A with
    | cons cur A => exact main t d P A cur h hp
    | nil =>
      obtain ⟨h', hlevel⟩ := h.next_level hs
      simp only [List.nil_append] at hq ⊢
      rw [hlevel] at hq ⊢
      cases hl : level t0 (d + 1) with
      | nil => exact absurd hl hq
      | cons cur A =>
        rw [hl] at h'
        have := main t (d + 1) [] A cur h' hp
        simpa using this

theorem Linked.built {t0 t : Trie} {wd : Nat → List Char} {D : List (List Char)}
    (h0 : Inserted t0 wd D) (h : Linked t0 wd t) : Built t wd D := by
  have hlen : t.length = t0.length := h.skel.1.1.symm
  refine ⟨h0.shape.of_sameTree h.skel.1, ?_, ?_, h.root, ?_, ?_, ?_⟩
  · intro n hn0 hn
    exact (h.links n hn0 (hlen ▸ hn)).1
  · intro n hn0 hn
    exact (h.links n hn0 (hlen ▸ hn)).2
  · intro n hn
    exact h0.sound n (hlen ▸ hn)
  · intro q hq v hv
    rw [hlen]
    exact h0.complete q hq v hv
  · intro n node hn
    obtain ⟨node0, hn0, -, -, -, he⟩ := h.skel.get_back hn
    rw [he]
    exact h0.ids n node0 hn0

theorem BfsInv.start_bfs {t0 : Trie} {wd : Nat → List Char} {D : List (List Char)}
    (h0 : Inserted t0 wd D) : BfsInv t0 wd t0 1 [] (level t0 1) := by
  refine ⟨SameSkeleton.refl_skeleton t0, by simp, Nat.le_refl _, ?_, ?_⟩
  · intro n hn0 hn hcase
    exfalso
    rcases hcase with hl | hm
    · have : wd n = [] := List.length_eq_zero.1 (by omega)
      exact hn0 (h0.shape.eq_root_of_word hn this)
    · simp at hm
  · intro n node hn _
    exact h0.fresh n node hn

/-- The constructor of the trie succeeds on a dictionary without null entries
that has a non-empty string. -/
theorem Trie.build_trie_spec (D : List (List Char)) (hD : ∃ p ∈ D, p ≠ []) :
    ∃ trie wd, Trie.build (D.map some) = .ok trie ∧ Built trie wd D := by
  obtain ⟨t0, wd, hrun0, h0⟩ := insert_dictionary_spec D [] _ _ (Inserted.start_inserted _ rfl)
  simp only [List.length_nil, Nat.zero_add, List.nil_append] at hrun0 h0
  obtain ⟨root, hroot⟩ := get_of_lt h0.shape.pos
  have hq : root.children.map Prod.snd = level t0 1 := by
    simp [level, kids_of_get hroot]
  have hne : level t0 1 ≠ [] := by
    obtain ⟨p, hp, hpne⟩ := hD
    cases p with
    | nil => exact absurd rfl hpne
    | cons c rest =>
      obtain ⟨m, hm, hw⟩ := h0.complete _ hp [c] ⟨rest, rfl⟩
      have := h0.shape.level_of_length 1 m hm (by rw [hw]; rfl)
      intro hnil
      rw [hnil] at this
      simp at this
  have hpend : pending t0 ≤ t0.length := List.countP_le_length _
  obtain ⟨t', hrun, hres⟩ := resolve_links_spec h0.shape t0.length t0 1 [] (level t0 1)
    (BfsInv.start_bfs h0) hpend (by simpa using hne)
  refine ⟨t', wd, ?_, hres.built h0⟩
  simp only [Trie.build, hrun0, hroot, hq]
  simpa using hrun

/-- The constructor of the trie throws when some entry is null. -/
theorem Trie.build_null (dictionary : List (Option (List Char))) (h : none ∈ dictionary) :
    Trie.build dictionary = .error .invalid_argument := by
  have := insert_dictionary_null dictionary [] _ _ (Inserted.start_inserted _ rfl) h
  simp only [List.length_nil, Nat.zero_add] at this
  simp [Trie.build, this]

/-- On a dictionary of empty strings only (in particular on the empty
dictionary) the root has no child, and the link loop takes the front of an
empty queue. -/
theorem Trie.build_no_child (D : List (List Char)) (hD : ∀ p ∈ D, p = []) :
    Trie.build (D.map some) = .error .empty_front := by
  obtain ⟨t0, wd, hrun0, h0⟩ := insert_dictionary_spec D [] _ _ (Inserted.start_inserted _ rfl)
  simp only [List.length_nil, Nat.zero_add, List.nil_append] at hrun0 h0
  obtain ⟨root, hroot⟩ := get_of_lt h0.shape.pos
  have hnil : root.children = [] := by
    cases hc : root.children with
    | nil => rfl
    | cons a l =>
      exfalso
      obtain ⟨c, m⟩ := a
      have hmem : (c, m) ∈ root.children := by rw [hc]; exact List.mem_cons_self _ _
      have hch := h0.shape.child 0 root c m hroot hmem
      have hm := h0.shape.child_lt hroot hmem
      rcases h0.sound m hm with hw | ⟨q, hq, hpre⟩
      · rw [hch.2.1] at hw
        simp at hw
      · rw [hD q hq, hch.2.1] at hpre
        have := List.prefix_nil.1 hpre
        simp at this
  have hfuel : ∃ k, t0.length = k + 1 := ⟨t0.length - 1, by have := h0.shape.pos; omega⟩
  obtain ⟨k, hk⟩ := hfuel
  simp only [Trie.build, hrun0, hroot, hnil, List.map_nil, hk, resolve_links]

/-- Every dictionary is a list of non-null strings or has a null entry. -/
theorem dictionary_cases (dictionary : List (Option (List Char))) :
    none ∈ dictionary ∨ ∃ D : List (List Char), dictionary = D.map some := by
  induction dictionary with
  | nil => exact Or.inr ⟨[], rfl⟩
  | cons a l ih =>
    cases a with
    | none => exact Or.inl (List.mem_cons_self _ _)
    | some p =>
      rcases ih with h | ⟨D, hD⟩
      · exact Or.inl (List.mem_cons_of_mem _ h)
      · exact Or.inr ⟨p :: D, by simp [hD]⟩

/-- A trie that was built comes from a dictionary of non-null strings, one of
them non-empty, and is the trie of that dictionary. -/
theorem Trie.build_trie_ok {dictionary : List (Option (List Char))} {trie : Trie}
    (h : Trie.build dictionary = .ok trie) :
    ∃ (D : List (List Char)) (wd : Nat → List Char), dictionary = D.map some ∧
      (∃ p ∈ D, p ≠ []) ∧ Built trie wd D := by
  rcases dictionary_cases dictionary with hnull | ⟨D, rfl⟩
  · rw [Trie.build_null dictionary hnull] at h
    cases h
  · by_cases hD : ∃ p ∈ D, p ≠ []
    · obtain ⟨trie', wd, hrun, hres⟩ := Trie.build_trie_spec D hD
      rw [hrun] at h
      cases h
      exact ⟨D, wd, rfl, hD, hres⟩
    · have : ∀ p ∈ D, p = [] := by
        intro p hp
        by_contra hne
        exact hD ⟨p, hp, hne⟩
      rw [Trie.build_no_child D this] at h
      cases h

theorem Automaton.build_ok {dictionary : List (Option (List Char))} {aho : Automaton}
    (h : Automaton.build dictionary = .ok aho) :
    ∃ (D : List (List Char)) (wd : Nat → List Char), dictionary = D.map some ∧
      (∃ p ∈ D, p ≠ []) ∧ aho.dictionary_size = D.length ∧ Built aho.trie wd D := by
  unfold Automaton.build at h
  split at h
  · cases h
  · rename_i trie htrie
    cases h
    obtain ⟨D, wd, hd, hne, hb⟩ := Trie.build_trie_ok htrie
    exact ⟨D, wd, hd, hne, by simp [hd], hb⟩

theorem Automaton.build_spec (D : List (List Char)) (hD : ∃ p ∈ D, p ≠ []) :
    ∃ aho wd, Automaton.build (D.map some) = .ok aho ∧ aho.dictionary_size = D.length ∧
      Built aho.trie wd D := by
  obtain ⟨trie, wd, hrun, hres⟩ := Trie.build_trie_spec D hD
  exact ⟨⟨(D.map some).length, trie⟩, wd, by simp [Automaton.build, hrun], by simp, hres⟩

theorem Pushed.refl_pushed (i : Nat) (entries : List (List Nat)) :
    Pushed (fun _ => False) i entries entries :=
  ⟨rfl, fun _ _ hv => ⟨fun h => h.elim, fun _ => hv⟩⟩

theorem Pushed.congr_pushed {S S' : Nat → Prop} {i : Nat} {entries entries' : List (List Nat)}
    (h : Pushed S i entries entries') (hS : ∀ k, S k ↔ S' k) : Pushed S' i entries entries' :=
  ⟨h.1, fun k v hv => ⟨fun hs => (h.2 k v hv).1 ((hS k).2 hs),
    fun hs => (h.2 k v hv).2 (fun h' => hs ((hS k).1 h'))⟩⟩

theorem Pushed.comp {S1 S2 : Nat → Prop} {i : Nat} {e0 e1 e2 : List (List Nat)}
    (h1 : Pushed S1 i e0 e1) (h2 : Pushed S2 i e1 e2) (hex : ∀ k, ¬ (S1 k ∧ S2 k)) :
    Pushed (fun k => S1 k ∨ S2 k) i e0 e2 := by
  refine ⟨h2.1.trans h1.1, ?_⟩
  intro k v hv
  by_cases hs1 : S1 k
  · have hs2 : ¬ S2 k := fun h => hex k ⟨hs1, h⟩
    have hv1 := (h1.2 k v hv).1 hs1
    refine ⟨fun _ => (h2.2 k _ hv1).2 hs2, fun h => absurd (Or.inl hs1) h⟩
  · have hv1 := (h1.2 k v hv).2 hs1
    refine ⟨?_, ?_⟩
    · rintro (h | h)
      · exact absurd h hs1
      · exact (h2.2 k v hv1).1 h
    · intro h
      exact (h2.2 k v hv1).2 (fun h' => h (Or.inr h'))

theorem push_back_at_spec {entries : List (List Nat)} {e : Nat} (hpos : e ≠ 0)
    (hle : e ≤ entries.length) (i : Nat) :
    ∃ entries', push_back_at entries e i = .ok entries' ∧
      Pushed (fun k => k + 1 = e) i entries entries' := by
  have hlt : e - 1 < entries.length := by omega
  have hget : entries[e - 1]? = some entries[e - 1] := List.getElem?_eq_getElem hlt
  refine ⟨entries.set (e - 1) (entries[e - 1] ++ [i]), ?_, ?_, ?_⟩
  · simp [push_back_at, hpos, hget]
  · simp
  · intro k v hv
    refine ⟨?_, ?_⟩
    · intro hk
      have : k = e - 1 := by omega
      subst this
      rw [hget] at hv
      cases hv
      exact List.getElem?_set_self hlt
    · intro hk
      have : e - 1 ≠ k := by omega
      rw [List.getElem?_set_ne this]
      exact hv

namespace Built

variable {trie : Trie} {wd : Nat → List Char} {D : List (List Char)}

theorem ids_le (hb : Built trie wd D) {n : Nat} {node : TrieNode} (hn : trie[n]? = some node) :
    node.end_of_string ≤ D.length := by
  rcases hb.ids n node hn with ⟨h0, -⟩ | ⟨hpos, hget, -⟩
  · omega
  · rcases List.getElem?_eq_some.1 hget with ⟨h', _⟩
    omega

theorem ids_inj (hb : Built trie wd D) {n n' : Nat} {node node' : TrieNode}
    (hn : trie[n]? = some node) (hn' : trie[n']? = some node')
    (he : node.end_of_string = node'.end_of_string) (h0 : node.end_of_string ≠ 0) : n = n' := by
  rcases hb.ids n node hn with ⟨hz, -⟩ | ⟨-, hget, -⟩
  · exact absurd hz h0
  · rcases hb.ids n' node' hn' with ⟨hz, -⟩ | ⟨-, hget', -⟩
    · exact absurd (he.trans hz) h0
    · rw [← he, hget] at hget'
      exact hb.shape.inj n n' (get_lt hn) (get_lt hn') (Option.some.inj hget')

theorem terminal_iff (hb : Built trie wd D) {n : Nat} {node : TrieNode}
    (hn : trie[n]? = some node) : Terminal trie wd (wd n) ↔ node.end_of_string ≠ 0 := by
  constructor
  · rintro ⟨k, kd, hk, hkw, hke⟩
    have := hb.shape.inj k n (get_lt hk) (get_lt hn) hkw
    subst this
    rw [hn] at hk
    cases hk
    exact hke
  · intro h
    exact ⟨n, node, hn, rfl, h⟩

/-- The nodes that report at a node `m`: `m` itself when it ends a string, and
the nodes that report at its dictionary suffix link. -/
theorem hit_split (hb : Built trie wd D) {m : Nat} {node : TrieNode}
    (hm : trie[m]? = some node) :
    (node.dict_suffix_link = none →
      ∀ k, Hit trie wd k (wd m) ↔ k + 1 = node.end_of_string) ∧
    (∀ d, node.dict_suffix_link = some d →
      ∃ dnode : TrieNode, trie[d]? = some dnode ∧ dnode.end_of_string ≠ 0 ∧
        (wd d).length < (wd m).length ∧
        (∀ k, Hit trie wd k (wd m) ↔ (k + 1 = node.end_of_string ∨ Hit trie wd k (wd d))) ∧
        ∀ k, ¬ (k + 1 = node.end_of_string ∧ Hit trie wd k (wd d))) := by
  have hmlt := get_lt hm
  have self_hit : ∀ k, k + 1 = node.end_of_string → Hit trie wd k (wd m) :=
    fun k hk => ⟨m, node, hm, hk.symm, List.suffix_rfl⟩
  have self_only : ∀ k (n : Nat) (nd : TrieNode), trie[n]? = some nd →
      nd.end_of_string = k + 1 → wd n = wd m → k + 1 = node.end_of_string := by
    intro k n nd hn he hw
    have := hb.shape.inj n m (get_lt hn) hmlt hw
    subst this
    rw [hm] at hn
    cases hn
    exact he.symm
  by_cases h0 : m = 0
  · subst h0
    obtain ⟨r, hr, -, hrd⟩ := hb.root_links
    rw [hm] at hr
    cases hr
    refine ⟨?_, ?_⟩
    · intro _ k
      refine ⟨?_, self_hit k⟩
      rintro ⟨n, nd, hn, he, hsuf⟩
      rw [hb.shape.root_word] at hsuf
      refine self_only k n nd hn he ?_
      rw [hb.shape.root_word]
      exact List.suffix_nil.1 hsuf
    · intro d hd
      rw [hrd] at hd
      cases hd
  · obtain ⟨node', hnode', hspec⟩ := hb.dict m h0 hmlt
    rw [hm] at hnode'
    cases hnode'
    have hne : wd m ≠ [] := hb.shape.word_ne_nil hmlt h0
    refine ⟨?_, ?_⟩
    · intro hnone k
      refine ⟨?_, self_hit k⟩
      rintro ⟨n, nd, hn, he, hsuf⟩
      by_cases hw : wd n = wd m
      · exact self_only k n nd hn he hw
      · exfalso
        exact hspec.1 hnone (wd n) (suffix_tail_of_ne hsuf hw)
          ⟨n, nd, hn, rfl, by rw [he]; omega⟩
    · intro d hd
      obtain ⟨hdlt, hls⟩ := hspec.2 d hd
      obtain ⟨dnode, hdnode⟩ := get_of_lt hdlt
      have hde : dnode.end_of_string ≠ 0 := (hb.terminal_iff hdnode).1 hls.2.1
      have hdlen : (wd d).length < (wd m).length :=
        Nat.lt_of_le_of_lt hls.1.length_le (length_tail_lt hne)
      refine ⟨dnode, hdnode, hde, hdlen, ?_, ?_⟩
      · intro k
        constructor
        · rintro ⟨n, nd, hn, he, hsuf⟩
          by_cases hw : wd n = wd m
          · exact Or.inl (self_only k n nd hn he hw)
          · refine Or.inr ⟨n, nd, hn, he, ?_⟩
            exact hls.2.2 (wd n) (suffix_tail_of_ne hsuf hw)
              ⟨n, nd, hn, rfl, by rw [he]; omega⟩
        · rintro (hk | ⟨n, nd, hn, he, hsuf⟩)
          · exact self_hit k hk
          · exact ⟨n, nd, hn, he, (hsuf.trans hls.1).trans (List.tail_suffix _)⟩
      · rintro k ⟨hk, n, nd, hn, he, hsuf⟩
        have : n = m := hb.ids_inj hn hm (by rw [he, hk]) (by rw [he]; omega)
        subst this
        have := hsuf.length_le
        omega

end Built

namespace Built

variable {trie : Trie} {wd : Nat → List Char} {D : List (List Char)}

/-- The inner loop entered at a node `d` that ends a string appends the
position once for every pattern that is a suffix of the word of `d`. -/
theorem emit_dict_suffixes_spec (hb : Built trie wd D) (i : Nat) :
    ∀ (fuel d : Nat) (dnode : TrieNode) (entries : List (List Nat)),
      trie[d]? = some dnode → dnode.end_of_string ≠ 0 → (wd d).length < fuel →
      entries.length = D.length →
      ∃ entries', emit_dict_suffixes trie i fuel d entries = .ok entries' ∧
        Pushed (fun k => Hit trie wd k (wd d)) i entries entries' := by
  intro fuel
  induction fuel with
  | zero =>
    intro d dnode entries _ _ h
    omega
  | succ fuel ih =>
    intro d dnode entries hd he hfuel hlen
    obtain ⟨entries1, hpush, hp1⟩ := push_back_at_spec he
      (by rw [hlen]; exact hb.ids_le hd) i
    obtain ⟨hnone, hsome⟩ := hb.hit_split hd
    cases hlink : dnode.dict_suffix_link with
    | none =>
      refine ⟨entries1, by simp [emit_dict_suffixes, hd, hpush, hlink], ?_⟩
      exact hp1.congr_pushed (fun k => (hnone hlink k).symm)
    | some d' =>
      obtain ⟨dnode', hd', he', hlt, hiff, hex⟩ := hsome d' hlink
      obtain ⟨entries2, hrun, hp2⟩ := ih d' dnode' entries1 hd' he' (by omega)
        (hp1.1.trans hlen)
      refine ⟨entries2, by simp [emit_dict_suffixes, hd, hpush, hlink, hrun], ?_⟩
      exact (hp1.comp hp2 hex).congr_pushed (fun k => (hiff k).symm)

/-- What the loop body appends in state `m` at position `i`. -/
theorem emit_spec (hb : Built trie wd D) (i : Nat) {m : Nat} (hm : m < trie.length)
    {entries : List (List Nat)} (hlen : entries.length = D.length) :
    ∃ entries', emit trie m i entries = .ok entries' ∧
      Pushed (fun k => Hit trie wd k (wd m)) i entries entries' := by
  obtain ⟨node, hnode⟩ := get_of_lt hm
  obtain ⟨hnone, hsome⟩ := hb.hit_split hnode
  have first : ∃ entries1,
      (if node.end_of_string ≠ 0 then push_back_at entries node.end_of_string i
        else .ok entries) = .ok entries1 ∧
      Pushed (fun k => k + 1 = node.end_of_string) i entries entries1 := by
    by_cases he : node.end_of_string ≠ 0
    · obtain ⟨entries1, hpush, hp1⟩ := push_back_at_spec he
        (by rw [hlen]; exact hb.ids_le hnode) i
      exact ⟨entries1, by simp [he, hpush], hp1⟩
    · refine ⟨entries, by simp [he], ?_⟩
      refine (Pushed.refl_pushed i entries).congr_pushed (fun k => ?_)
      constructor
      · intro h
        exact h.elim
      · intro h
        omega
  obtain ⟨entries1, hfirst, hp1⟩ := first
  cases hlink : node.dict_suffix_link with
  | none =>
    refine ⟨entries1, ?_, hp1.congr_pushed (fun k => (hnone hlink k).symm)⟩
    simp only [emit, hnode, hfirst, hlink]
  | some d =>
    obtain ⟨dnode, hd, he, hlt, hiff, hex⟩ := hsome d hlink
    obtain ⟨entries2, hrun, hp2⟩ := hb.emit_dict_suffixes_spec i trie.length d dnode entries1
      hd he (hb.shape.length_lt (get_lt hd)) (hp1.1.trans hlen)
    refine ⟨entries2, ?_, (hp1.comp hp2 hex).congr_pushed (fun k => (hiff k).symm)⟩
    simp only [emit, hnode, hfirst, hlink, hrun]

/-- The patterns that end at the end of `y` are those that end at the end of
the longest suffix of `y` spelled in the store. -/
theorem hit_longest {y : List Char} {m : Nat}
    (hls : LongestSuffix (IsWord trie.length wd) y (wd m)) (k : Nat) :
    Hit trie wd k (wd m) ↔ Hit trie wd k y := by
  constructor
  · rintro ⟨n, nd, hn, he, hsuf⟩
    exact ⟨n, nd, hn, he, hsuf.trans hls.1⟩
  · rintro ⟨n, nd, hn, he, hsuf⟩
    exact ⟨n, nd, hn, he, hls.2.2 (wd n) hsuf ⟨n, get_lt hn, rfl⟩⟩

/-- The scanning loop, started at position `i` in the state of the longest
suffix spelled in the store of the text `pre` read so far, returns, and
appends to each list the positions at which its pattern ends. -/
theorem scan_loop_spec (hb : Built trie wd D) :
    ∀ (rest pre : List Char) (i state : Nat) (entries : List (List Nat)),
      state < trie.length → LongestSuffix (IsWord trie.length wd) pre (wd state) →
      entries.length = D.length →
      ∃ state' entries', scan_loop rest trie i state entries =
          .ok (trie, state', entries') ∧
        state' < trie.length ∧
        LongestSuffix (IsWord trie.length wd) (pre ++ rest) (wd state') ∧
        entries'.length = D.length ∧
        ∀ k v, entries[k]? = some v → ∀ hit : Nat → Bool,
          (∀ j, hit (i + j) = true ↔
            Hit trie wd k ((pre ++ rest).take (pre.length + j + 1))) →
          entries'[k]? = some (v ++ (List.range' i rest.length).filter hit) := by
  intro rest
  induction rest with
  | nil =>
    intro pre i state entries hstate hls hlen
    refine ⟨state, entries, rfl, hstate, by simpa using hls, hlen, ?_⟩
    intro k v hv hit _
    simpa using hv
  | cons c rest ih =>
    intro pre i state entries hstate hls hlen
    obtain ⟨m, hrun, hm, hres⟩ := transition_spec hb.shape c (wd state).length
      (fun n hn0 hn _ => hb.suffix n hn0 hn) trie.length state hstate (Nat.le_refl _)
      (hb.shape.length_lt hstate)
    have hls' : LongestSuffix (IsWord trie.length wd) (pre ++ [c]) (wd m) :=
      (LongestSuffix.step_suffix hb.shape.prefixClosed hls c (wd m)).2 hres
    obtain ⟨entries1, hemit, hp1⟩ := hb.emit_spec i hm hlen
    have hp1' := hp1.congr_pushed (hit_longest hls')
    have hassoc : pre ++ c :: rest = (pre ++ [c]) ++ rest := by simp
    obtain ⟨state', entries', hloop, hstate', hfin, hlen', hout⟩ :=
      ih (pre ++ [c]) (i + 1) m entries1 hm hls' (hp1.1.trans hlen)
    refine ⟨state', entries', ?_, hstate', by rw [hassoc]; exact hfin, hlen', ?_⟩
    · simp only [scan_loop, hrun, hemit]
      exact hloop
    · intro k v hv hit hhit
      have htake : (pre ++ c :: rest).take (pre.length + 0 + 1) = pre ++ [c] := by
        rw [hassoc, Nat.add_zero, List.take_append_of_le_length (by simp)]
        exact List.take_of_length_le (by simp)
      have hhead : hit i = true ↔ Hit trie wd k (pre ++ [c]) := by
        have := hhit 0
        rw [htake] at this
        simpa using this
      have htail : ∀ j, hit (i + 1 + j) = true ↔
          Hit trie wd k ((pre ++ [c] ++ rest).take ((pre ++ [c]).length + j + 1)) := by
        intro j
        have := hhit (j + 1)
        rw [hassoc] at this
        have e1 : i + (j + 1) = i + 1 + j := by omega
        have e2 : pre.length + (j + 1) + 1 = (pre ++ [c]).length + j + 1 := by
          simp
          omega
        rw [e1, e2] at this
        exact this
      rw [List.length_cons, List.range'_succ, List.filter_cons]
      by_cases hh : hit i = true
      · have hv1 := (hp1'.2 k v hv).1 (hhead.1 hh)
        have := hout k _ hv1 hit htail
        rw [this, hh]
        simp
      · have hv1 := (hp1'.2 k v hv).2 (fun h => hh (hhead.2 h))
        have := hout k _ hv1 hit htail
        rw [this]
        simp [hh]

/-- The pattern number `k + 1` is carried by the node of `D[k]`, provided no
later entry of the dictionary is the same string. -/
theorem hit_iff (hb : Built trie wd D) (k : Nat) (y : List Char) :
    Hit trie wd k y ↔
      ∃ p, D[k]? = some p ∧ p <:+ y ∧ ∀ j, k < j → D[j]? ≠ some p := by
  constructor
  · rintro ⟨n, nd, hn, he, hsuf⟩
    rcases hb.ids n nd hn with ⟨hz, -⟩ | ⟨-, hget, hlast⟩
    · omega
    · rw [he] at hget hlast
      exact ⟨wd n, by simpa using hget, hsuf, fun j hj => hlast j (by omega)⟩
  · rintro ⟨p, hget, hsuf, hlast⟩
    obtain ⟨n, hn, hw⟩ := hb.complete p (List.getElem?_mem hget) p List.prefix_rfl
    obtain ⟨nd, hnd⟩ := get_of_lt hn
    refine ⟨n, nd, hnd, ?_, by rw [hw]; exact hsuf⟩
    rcases hb.ids n nd hnd with ⟨-, hnot⟩ | ⟨hpos, hget', hlast'⟩
    · rw [hw] at hnot
      exact absurd (List.getElem?_mem hget) hnot
    · rw [hw] at hget' hlast'
      by_contra hne
      rcases Nat.lt_or_gt_of_ne hne with h | h
      · exact hlast' k (by omega) hget
      · exact hlast (nd.end_of_string - 1) (by omega) hget'

end Built

/-- The scan of a text over a built automaton returns; it leaves the automaton
as it was, and list `k` of the result holds, in increasing order, the
positions `j` at which `D[k]` ends in the text, provided no later entry of the
dictionary is the same string (else the list is empty). -/
theorem execute_on_string_spec {aho : Automaton} {wd : Nat → List Char}
    {D : List (List Char)} (hb : Built aho.trie wd D) (hsize : aho.dictionary_size = D.length)
    (str : List Char) :
    ∃ entries, execute_on_string aho str = .ok (aho, entries) ∧ entries.length = D.length ∧
      ∀ k, k < D.length → ∀ hit : Nat → Bool,
        (∀ j, hit j = true ↔
          ∃ p, D[k]? = some p ∧ p <:+ str.take (j + 1) ∧ ∀ j', k < j' → D[j']? ≠ some p) →
        entries[k]? = some ((List.range str.length).filter hit) := by
  have hroot : LongestSuffix (IsWord aho.trie.length wd) [] (wd 0) := by
    rw [hb.shape.root_word]
    exact LongestSuffix.self hb.shape.isWord_nil
  obtain ⟨state', entries', hloop, -, -, hlen', hout⟩ :=
    hb.scan_loop_spec str [] 0 0 (List.replicate aho.dictionary_size []) hb.shape.pos hroot
      (by simp [hsize])
  refine ⟨entries', ?_, hlen', ?_⟩
  · simp only [execute_on_string, hloop]
  · intro k hk hit hhit
    have hv : (List.replicate aho.dictionary_size ([] : List Nat))[k]? = some [] := by
      rw [List.getElem?_replicate, hsize]
      simp [hk]
    have := hout k [] hv hit (fun j => by
      simp only [Nat.zero_add, List.length_nil, List.nil_append]
      rw [hhit j, hb.hit_iff])
    rw [this, List.range_eq_range']
    simp

theorem occursEndingAt_iff (p text : List Char) (i : Nat) :
    OccursEndingAt p text i ↔ i < text.length ∧ p <:+ text.take (i + 1) := by
  constructor
  · rintro ⟨a, b, rfl, hlen⟩
    refine ⟨?_, ?_⟩
    · simp only [List.length_append] at hlen ⊢
      omega
    · rw [List.take_append_of_le_length (by omega), List.take_of_length_le (by omega)]
      exact List.suffix_append a p
  · rintro ⟨hi, a, ha⟩
    refine ⟨a, text.drop (i + 1), ?_, ?_⟩
    · rw [ha, List.take_append_drop]
    · rw [ha, List.length_take]
      omega

theorem emit_dict_suffixes_length (trie : Trie) (i : Nat) :
    ∀ (fuel d : Nat) (entries entries' : List (List Nat)),
      emit_dict_suffixes trie i fuel d entries = .ok entries' →
      entries'.length = entries.length := by
  intro fuel
  induction fuel with
  | zero =>
    intro d entries entries' h
    simp [emit_dict_suffixes] at h
  | succ fuel ih =>
    intro d entries entries' h
    simp only [emit_dict_suffixes] at h
    split at h
    · cases h
    · split at h
      · cases h
      · rename_i entries1 hpush
        have h1 : entries1.length = entries.length := by
          unfold push_back_at at hpush
          split at hpush
          · cases hpush
          · split at hpush
            · cases hpush
            · cases hpush
              simp
        split at h
        · cases h
          exact h1
        · exact (ih _ _ _ h).trans h1

/-- The scanning loop returns the store it was given. -/
theorem scan_loop_frame :
    ∀ (str : List Char) (trie : Trie) (i state : Nat) (entries : List (List Nat))
      (trie' : Trie) (state' : Nat) (entries' : List (List Nat)),
      scan_loop str trie i state entries = .ok (trie', state', entries') → trie' = trie := by
  intro str
  induction str with
  | nil =>
    intro trie i state entries trie' state' entries' h
    simp only [scan_loop] at h
    cases h
    rfl
  | cons c rest ih =>
    intro trie i state entries trie' state' entries' h
    simp only [scan_loop] at h
    split at h
    · cases h
    · rename_i trie1 state1 htr
      have h1 := transition_function_frame trie c _ _ _ _ htr
      subst h1
      split at h
      · cases h
      · exact ih _ _ _ _ _ _ _ h

/-- A call of `execute_on_string` returns the automaton it was given. -/
theorem execute_on_string_frame {aho aho' : Automaton} {str : List Char}
    {entries : List (List Nat)} (h : execute_on_string aho str = .ok (aho', entries)) :
    aho' = aho := by
  unfold execute_on_string at h
  split at h
  · cases h
  · rename_i trie1 state1 entries1 hloop
    have := scan_loop_frame _ _ _ _ _ _ _ _ hloop
    subst this
    cases h
    rfl

/-- The scanning loop over `T1 ++ T2` is the loop over `T1` followed by the loop
over `T2` started from the state, position and lists reached. -/
theorem scan_loop_append (T2 : List Char) :
    ∀ (T1 : List Char) (trie : Trie) (i state : Nat) (entries : List (List Nat))
      (trie1 : Trie) (state1 : Nat) (entries1 : List (List Nat)),
      scan_loop T1 trie i state entries = .ok (trie1, state1, entries1) →
      scan_loop (T1 ++ T2) trie i state entries =
        scan_loop T2 trie1 (i + T1.length) state1 entries1 := by
  intro T1
  induction T1 with
  | nil =>
    intro trie i state entries trie1 state1 entries1 h
    simp only [scan_loop] at h
    cases h
    rfl
  | cons c rest ih =>
    intro trie i state entries trie1 state1 entries1 h
    simp only [scan_loop] at h
    simp only [List.cons_append, scan_loop]
    split at h
    · cases h
    · rename_i trie' state' htr
      split at h
      · cases h
      · rename_i entries' hemit
        have := ih _ _ _ _ _ _ _ h
        have e : i + (c :: rest).length = i + 1 + rest.length := by
          simp only [List.length_cons]
          omega
        rw [e]
        exact this

namespace Shape

variable {trie : Trie} {wd : Nat → List Char}

theorem isWord_prefix (hs : Shape trie wd) (u : List Char) :
    ∀ v : List Char, IsWord trie.length wd (u ++ v) → IsWord trie.length wd u := by
  intro v
  induction v using List.reverseRecOn with
  | nil =>
    intro h
    simpa using h
  | append_singleton v c ih =>
    intro h
    rw [← List.append_assoc] at h
    exact ih (hs.prefixClosed _ c h)

/-- Walking from a node along `w` reaches the node that spells its word followed by `w`. -/
theorem walk_of_word (hs : Shape trie wd) :
    ∀ (w : List Char) (n m : Nat), n < trie.length → m < trie.length →
      wd m = wd n ++ w → walk trie w n = some m := by
  intro w
  induction w with
  | nil =>
    intro n m hn hm hw
    simp only [List.append_nil] at hw
    rw [hs.inj m n hm hn hw]
    rfl
  | cons c w ih =>
    intro n m hn hm hw
    obtain ⟨node, hnode⟩ := get_of_lt hn
    have hassoc : wd n ++ c :: w = (wd n ++ [c]) ++ w := by simp
    have hword : IsWord trie.length wd (wd n ++ [c]) :=
      hs.isWord_prefix _ w ⟨m, hm, by rw [hw, hassoc]⟩
    obtain ⟨m1, hl⟩ := (hs.isWord_snoc hnode c).1 hword
    have hc := hs.child n node c m1 hnode (lookup_mem hl)
    have := ih m1 m (hs.child_lt hnode (lookup_mem hl)) hm (by rw [hw, hc.2.1, hassoc])
    simp only [walk, hnode, hl]
    exact this

end Shape

/-- The result of a scan over a built automaton, by membership. -/
theorem execute_on_string_mem {aho : Automaton} {wd : Nat → List Char}
    {D : List (List Char)} (hb : Built aho.trie wd D) (hsize : aho.dictionary_size = D.length)
    (str : List Char) :
    ∃ entries, execute_on_string aho str = .ok (aho, entries) ∧ entries.length = D.length ∧
      (∀ l ∈ entries, l.Pairwise (· < ·)) ∧
      ∀ k i, Reported entries k i ↔
        ∃ p, D[k]? = some p ∧ OccursEndingAt p str i ∧ ∀ j, k < j → D[j]? ≠ some p := by
  classical
  obtain ⟨entries, hrun, hlen, hout⟩ := execute_on_string_spec hb hsize str
  have hget : ∀ k, k < D.length → entries[k]? = some ((List.range str.length).filter
      (fun j => decide (∃ p, D[k]? = some p ∧ p <:+ str.take (j + 1) ∧
        ∀ j', k < j' → D[j']? ≠ some p))) :=
    fun k hk => hout k hk _ (fun j => by simp)
  refine ⟨entries, hrun, hlen, ?_, ?_⟩
  · intro l hl
    obtain ⟨k, hk, hkl⟩ := List.getElem_of_mem hl
    have h1 := hget k (hlen ▸ hk)
    rw [List.getElem?_eq_getElem hk, hkl] at h1
    rw [Option.some.inj h1]
    exact List.Pairwise.filter _ (List.pairwise_lt_range _)
  · intro k i
    constructor
    · rintro ⟨l, hl, hi⟩
      have hk : k < D.length := by
        rw [← hlen]
        rcases List.getElem?_eq_some.1 hl with ⟨h', _⟩
        exact h'
      rw [hget k hk] at hl
      cases hl
      rw [List.mem_filter] at hi
      obtain ⟨hir, hdec⟩ := hi
      obtain ⟨p, hp, hsuf, hlast⟩ := of_decide_eq_true hdec
      exact ⟨p, hp, (occursEndingAt_iff p str i).2 ⟨List.mem_range.1 hir, hsuf⟩, hlast⟩
    · rintro ⟨p, hp, hocc, hlast⟩
      have hk : k < D.length := by
        rcases List.getElem?_eq_some.1 hp with ⟨h', _⟩
        exact h'
      obtain ⟨hi, hsuf⟩ := (occursEndingAt_iff p str i).1 hocc
      refine ⟨_, hget k hk, ?_⟩
      rw [List.mem_filter]
      exact ⟨List.mem_range.2 hi, decide_eq_true ⟨p, hp, hsuf, hlast⟩⟩

theorem run_of_build {dictionary : List (Option (List Char))} {aho aho' : Automaton}
    {str : List Char} {entries : List (List Nat)}
    (hb : Automaton.build dictionary = .ok aho)
    (he : execute_on_string aho str = .ok (aho', entries)) :
    run dictionary str = .ok entries := by
  simp [run, hb, he]

theorem filter_range'_shift (hit : Nat → Bool) (a n : Nat) :
    (List.range' a n).filter (fun j => hit (j - a)) =
      ((List.range' 0 n).filter hit).map (· + a) := by
  rw [List.range'_eq_map_range, List.range'_eq_map_range, List.filter_map, List.filter_map,
    List.map_map]
  congr 1
  · funext j
    simp
    omega
  · congr 1
    funext j
    simp

/-- The run on a dictionary of non-null strings, one of them non-empty. -/
theorem run_spec (D : List (List Char)) (hD : ∃ p ∈ D, p ≠ []) (T : List Char) :
    ∃ entries, run (D.map some) T = .ok entries ∧ entries.length = D.length ∧
      ∀ k i, Reported entries k i ↔
        ∃ p, D[k]? = some p ∧ OccursEndingAt p T i ∧ ∀ j, k < j → D[j]? ≠ some p := by
  obtain ⟨aho, wd, hbuild, hsize, hb⟩ := Automaton.build_spec D hD
  obtain ⟨entries, hrun, hlen, -, hmem⟩ := execute_on_string_mem hb hsize T
  exact ⟨entries, run_of_build hbuild hrun, hlen, hmem⟩

theorem nodup_last {D : List (List Char)} (hD : D.Nodup) {k : Nat} {p : List Char}
    (hp : D[k]? = some p) : ∀ j, k < j → D[j]? ≠ some p := by
  intro j hj hget
  have hk : k < D.length := by
    rcases List.getElem?_eq_some.1 hp with ⟨h', _⟩
    exact h'
  have := List.getElem?_inj hk hD (hp.trans hget.symm)
  omega

/-- C1 (amended): for every non-empty dictionary `D` of non-empty strings and
every text `T`, the run returns, and the reported (pattern index, end offset)
pairs are exactly the pairs `(k, i)` such that `D[k]` occurs in `T` as a
contiguous substring whose last character is at position `i` and no later
entry of `D` is the same string as `D[k]`. -/
theorem C1_reported_pairs_last_index (D : List (List Char)) (T : List Char) (hne : D ≠ [])
    (hD : ∀ p ∈ D, p ≠ []) :
    ∃ entries, run (D.map some) T = .ok entries ∧
      ∀ k i, Reported entries k i ↔
        ∃ p, D[k]? = some p ∧ OccursEndingAt p T i ∧ ∀ j, k < j → D[j]? ≠ some p := by
  have hex : ∃ p ∈ D, p ≠ [] := by
    cases D with
    | nil => exact absurd rfl hne
    | cons p D => exact ⟨p, List.mem_cons_self _ _, hD p (List.mem_cons_self _ _)⟩
  obtain ⟨entries, hrun, -, hmem⟩ := run_spec D hex T
  exact ⟨entries, hrun, hmem⟩

/-- C1 (witness): the amended statement at the dictionary `{"a", "a"}` and the text `"a"`. -/
theorem C1_reported_pairs_last_index_witness :
    ∃ entries, run ([['a'], ['a']].map some) ['a'] = .ok entries ∧
      ∀ k i, Reported entries k i ↔
        ∃ p, [['a'], ['a']][k]? = some p ∧ OccursEndingAt p ['a'] i ∧
          ∀ j, k < j → [['a'], ['a']][j]? ≠ some p :=
  C1_reported_pairs_last_index [['a'], ['a']] ['a'] (by simp) (by simp)

/-- C1 (counterexample): on the dictionary `{"a", "a"}` of non-empty strings and
the text `"a"` the property as stated fails: the first entry occurs ending at
position `0`, and its list in the result is empty. -/
theorem C1_counterexample :
    (∀ p ∈ [['a'], ['a']], p ≠ ([] : List Char)) ∧
      run ([['a'], ['a']].map some) ['a'] = .ok [[], [0]] ∧
      ¬ SubstringCorrect [['a'], ['a']] ['a'] := by
  refine ⟨by simp, rfl, ?_⟩
  rintro ⟨entries, hrun, h⟩
  have hval : run ([['a'], ['a']].map some) ['a'] = .ok [[], [0]] := rfl
  rw [hval] at hrun
  cases hrun
  obtain ⟨l, hl, hmem⟩ := (h 0 0).2 ⟨['a'], rfl, [], [], rfl, rfl⟩
  simp at hl
  subst hl
  simp at hmem

/-- C2: for every dictionary `D` of pairwise distinct non-empty strings, every
text `T` and every pattern index `k` of `D`: building and scanning return one
list per pattern, and for every position `i`, `i` is in list `k` if and only
if `D[k]` occurs in `T` as a substring ending at `i`; on the dictionary
`{a, ab, bab, bc, bca, c, caa}` and the text `"abccba"` the result is
`[[0,5],[1],[],[2],[],[2,3],[]]`. -/
theorem C2_distinct_patterns_reported :
    (∀ (D : List (List Char)) (T : List Char), D.Nodup → (∀ p ∈ D, p ≠ []) →
      ∀ (k : Nat) (p : List Char), D[k]? = some p →
        ∃ entries, run (D.map some) T = .ok entries ∧ entries.length = D.length ∧
          ∀ i, Reported entries k i ↔ OccursEndingAt p T i) ∧
    run [some ['a'], some ['a', 'b'], some ['b', 'a', 'b'], some ['b', 'c'],
        some ['b', 'c', 'a'], some ['c'], some ['c', 'a', 'a']]
      ['a', 'b', 'c', 'c', 'b', 'a'] = .ok [[0, 5], [1], [], [2], [], [2, 3], []] := by
  refine ⟨?_, rfl⟩
  intro D T hnd hD k p hp
  have hpD : p ∈ D := List.getElem?_mem hp
  obtain ⟨entries, hrun, hlen, hmem⟩ := run_spec D ⟨p, hpD, hD p hpD⟩ T
  refine ⟨entries, hrun, hlen, ?_⟩
  intro i
  rw [hmem k i]
  constructor
  · rintro ⟨q, hq, hocc, -⟩
    rw [hp] at hq
    cases hq
    exact hocc
  · intro hocc
    exact ⟨p, hp, hocc, nodup_last hnd hp⟩

/-- C2 (witness): the general statement at the dictionary `{"ab", "b"}`, the
text `"ab"` and the second pattern. -/
theorem C2_distinct_patterns_reported_witness :
    ∃ entries, run ([['a', 'b'], ['b']].map some) ['a', 'b'] = .ok entries ∧
      entries.length = [['a', 'b'], ['b']].length ∧
      ∀ i, Reported entries 1 i ↔ OccursEndingAt ['b'] ['a', 'b'] i :=
  C2_distinct_patterns_reported.1 [['a', 'b'], ['b']] ['a', 'b'] (by decide) (by simp) 1 ['b']
    rfl

/-- C3: for every automaton that was built and every text, the scan returns,
and each list of the result is strictly increasing. -/
theorem C3_offsets_strictly_increasing (dictionary : List (Option (List Char)))
    (aho : Automaton) (T : List Char) (h : Automaton.build dictionary = .ok aho) :
    ∃ entries, execute_on_string aho T = .ok (aho, entries) ∧
      ∀ l ∈ entries, l.Pairwise (· < ·) := by
  obtain ⟨D, wd, -, -, hsize, hb⟩ := Automaton.build_ok h
  obtain ⟨entries, hrun, -, hsorted, -⟩ := execute_on_string_mem hb hsize T
  exact ⟨entries, hrun, hsorted⟩

/-- C3 (witness): the dictionary `{"a", "aa"}` builds, and its scan of `"aaa"` is increasing. -/
theorem C3_offsets_strictly_increasing_witness :
    ∃ aho, Automaton.build [some ['a'], some ['a', 'a']] = .ok aho ∧
      ∃ entries, execute_on_string aho ['a', 'a', 'a'] = .ok (aho, entries) ∧
        ∀ l ∈ entries, l.Pairwise (· < ·) :=
  ⟨_, rfl, C3_offsets_strictly_increasing [some ['a'], some ['a', 'a']] _ ['a', 'a', 'a'] rfl⟩

/-- C4 (the code at the failing input): on the empty dictionary the root has no
child, the queue of the link loop is empty, and the `do ... while` loop takes
`front()` of it before any test: construction does not return an automaton. -/
theorem C4_empty_dictionary_front : Automaton.build [] = .error .empty_front := rfl

/-- C6: when some entry of the dictionary is a null pointer, at whatever
position, construction throws `invalid_argument` and returns no automaton. -/
theorem C6_null_entry_invalid_argument (dictionary : List (Option (List Char)))
    (h : none ∈ dictionary) : Automaton.build dictionary = .error .invalid_argument := by
  simp [Automaton.build, Trie.build_null dictionary h]

/-- C6 (witness): a null entry between two strings. -/
theorem C6_null_entry_invalid_argument_witness :
    none ∈ [some ['a'], none, some ['b']] ∧
      Automaton.build [some ['a'], none, some ['b']] = .error .invalid_argument :=
  ⟨by simp, C6_null_entry_invalid_argument [some ['a'], none, some ['b']] (by simp)⟩

/-- C7: when the non-empty string `w` stands in the dictionary and `j` is the
last index at which it stands, construction succeeds, the node reached from the
root along `w` carries the pattern number `j + 1`, and for every text the scan
returns, list `j` holds exactly the end offsets of `w`, and the list of every
earlier index of `w` is empty. -/
theorem C7_duplicate_last_index_wins (D : List (List Char)) (w : List Char) (j : Nat)
    (hw : w ≠ []) (hj : D[j]? = some w) (hlast : ∀ j', j < j' → D[j']? ≠ some w) :
    ∃ aho, Automaton.build (D.map some) = .ok aho ∧
      (∃ (n : Nat) (node : TrieNode), walk aho.trie w 0 = some n ∧
        aho.trie[n]? = some node ∧ node.end_of_string = j + 1) ∧
      ∀ T : List Char, ∃ entries, execute_on_string aho T = .ok (aho, entries) ∧
        (∀ i, Reported entries j i ↔ OccursEndingAt w T i) ∧
        ∀ j', j' < j → D[j']? = some w → entries[j']? = some [] := by
  have hmemD : w ∈ D := List.getElem?_mem hj
  obtain ⟨aho, wd, hbuild, hsize, hb⟩ := Automaton.build_spec D ⟨w, hmemD, hw⟩
  refine ⟨aho, hbuild, ?_, ?_⟩
  · obtain ⟨n, hn, hnw⟩ := hb.complete w hmemD w List.prefix_rfl
    obtain ⟨node, hnode⟩ := get_of_lt hn
    refine ⟨n, node, ?_, hnode, ?_⟩
    · exact hb.shape.walk_of_word w 0 n hb.shape.pos hn (by rw [hb.shape.root_word, hnw]; rfl)
    · rcases hb.ids n node hnode with ⟨-, hnot⟩ | ⟨hpos, hget, hl⟩
      · rw [hnw] at hnot
        exact absurd hmemD hnot
      · rw [hnw] at hget hl
        by_contra hne
        rcases Nat.lt_or_gt_of_ne hne with h | h
        · exact hl j (by omega) hj
        · exact hlast (node.end_of_string - 1) (by omega) hget
  · intro T
    obtain ⟨entries, hrun, hlen, -, hmem⟩ := execute_on_string_mem hb hsize T
    refine ⟨entries, hrun, ?_, ?_⟩
    · intro i
      rw [hmem j i]
      constructor
      · rintro ⟨q, hq, hocc, -⟩
        rw [hj] at hq
        cases hq
        exact hocc
      · intro hocc
        exact ⟨w, hj, hocc, hlast⟩
    · intro j' hj' hget
      have hlt : j' < entries.length := by
        rw [hlen]
        rcases List.getElem?_eq_some.1 hget with ⟨h', _⟩
        exact h'
      rw [List.getElem?_eq_getElem hlt]
      congr 1
      rw [List.eq_nil_iff_forall_not_mem]
      intro i hi
      obtain ⟨q, hq, -, hql⟩ := (hmem j' i).1 ⟨_, List.getElem?_eq_getElem hlt, hi⟩
      rw [hget] at hq
      cases hq
      exact hql j hj' hj

/-- C7 (witness): the dictionary `{"a", "b", "a"}`, in which `"a"` stands last at index `2`. -/
theorem C7_duplicate_last_index_wins_witness :
    ∃ aho, Automaton.build ([['a'], ['b'], ['a']].map some) = .ok aho ∧
      (∃ (n : Nat) (node : TrieNode), walk aho.trie ['a'] 0 = some n ∧
        aho.trie[n]? = some node ∧ node.end_of_string = 2 + 1) ∧
      ∀ T : List Char, ∃ entries, execute_on_string aho T = .ok (aho, entries) ∧
        (∀ i, Reported entries 2 i ↔ OccursEndingAt ['a'] T i) ∧
        ∀ j', j' < 2 → [['a'], ['b'], ['a']][j']? = some ['a'] → entries[j']? = some [] :=
  C7_duplicate_last_index_wins [['a'], ['b'], ['a']] ['a'] 2 (by simp) rfl
    (fun j' hj' => by
      rw [List.getElem?_eq_none (by simp; omega)]
      simp)

/-- C8: for every automaton that was built, the scan of the empty text returns
one list per dictionary entry, all of them empty. -/
theorem C8_empty_text (dictionary : List (Option (List Char))) (aho : Automaton)
    (h : Automaton.build dictionary = .ok aho) :
    aho.dictionary_size = dictionary.length ∧
      execute_on_string aho [] = .ok (aho, List.replicate dictionary.length []) := by
  unfold Automaton.build at h
  split at h
  · cases h
  · cases h
    exact ⟨rfl, rfl⟩

/-- C8 (witness): the dictionary `{"a", "ab"}`. -/
theorem C8_empty_text_witness :
    ∃ aho, Automaton.build [some ['a'], some ['a', 'b']] = .ok aho ∧
      aho.dictionary_size = [some ['a'], some ['a', 'b']].length ∧
      execute_on_string aho [] =
        .ok (aho, List.replicate [some ['a'], some ['a', 'b']].length []) :=
  ⟨_, rfl, C8_empty_text [some ['a'], some ['a', 'b']] _ rfl⟩

/-- C9: for every automaton that was built and texts `T1`, `T2`: the scan of
`T1` from the root returns with a state `s1` and lists `e1`; the scan of `T2`
resumed in `s1` with fresh lists and positions counted from `0` returns lists
`e2`; the scan of `T1 ++ T2` returns lists `e`, which are also the lists of the
loop continued over `T2` from `s1`, position `|T1|` and `e1`; and for every
pattern, list `e[k]` is `e1[k]` followed by `e2[k]` shifted by `|T1|`. -/
theorem C9_scan_split (dictionary : List (Option (List Char))) (aho : Automaton)
    (T1 T2 : List Char) (h : Automaton.build dictionary = .ok aho) :
    ∃ (s1 s2 : Nat) (e1 e2 e : List (List Nat)),
      scan_loop T1 aho.trie 0 0 (List.replicate aho.dictionary_size []) =
        .ok (aho.trie, s1, e1) ∧
      scan_loop T2 aho.trie 0 s1 (List.replicate aho.dictionary_size []) =
        .ok (aho.trie, s2, e2) ∧
      scan_loop T2 aho.trie T1.length s1 e1 = .ok (aho.trie, s2, e) ∧
      execute_on_string aho (T1 ++ T2) = .ok (aho, e) ∧
      e1.length = aho.dictionary_size ∧ e2.length = aho.dictionary_size ∧
      e.length = aho.dictionary_size ∧
      ∀ (k : Nat) (l1 l2 : List Nat), e1[k]? = some l1 → e2[k]? = some l2 →
        e[k]? = some (l1 ++ l2.map (· + T1.length)) := by
  classical
  obtain ⟨D, wd, -, -, hsize, hb⟩ := Automaton.build_ok h
  have hinit : (List.replicate aho.dictionary_size ([] : List Nat)).length = D.length := by
    simp [hsize]
  have hroot : LongestSuffix (IsWord aho.trie.length wd) [] (wd 0) := by
    rw [hb.shape.root_word]
    exact LongestSuffix.self hb.shape.isWord_nil
  obtain ⟨s1, e1, run1, hs1, hls1, hlen1, -⟩ :=
    hb.scan_loop_spec T1 [] 0 0 _ hb.shape.pos hroot hinit
  simp only [List.nil_append] at hls1
  obtain ⟨s2, e2, run2, hs2, hls2, hlen2, out2⟩ :=
    hb.scan_loop_spec T2 T1 0 s1 _ hs1 hls1 hinit
  obtain ⟨s3, e, run3, hs3, hls3, hlen3, out3⟩ :=
    hb.scan_loop_spec T2 T1 T1.length s1 e1 hs1 hls1 hlen1
  have hs : s3 = s2 := hb.shape.inj s3 s2 hs3 hs2 (hls3.unique hls2)
  subst hs
  have hfull : scan_loop (T1 ++ T2) aho.trie 0 0 (List.replicate aho.dictionary_size []) =
      .ok (aho.trie, s3, e) := by
    rw [scan_loop_append T2 T1 _ _ _ _ _ _ _ run1, Nat.zero_add]
    exact run3
  refine ⟨s1, s3, e1, e2, e, run1, run2, run3, ?_, hlen1.trans hsize.symm,
    hlen2.trans hsize.symm, hlen3.trans hsize.symm, ?_⟩
  · simp only [execute_on_string, hfull]
  · intro k l1 l2 h1 h2
    have hk : k < D.length := by
      rw [← hlen1]
      rcases List.getElem?_eq_some.1 h1 with ⟨h', _⟩
      exact h'
    have hv : (List.replicate aho.dictionary_size ([] : List Nat))[k]? = some [] := by
      rw [List.getElem?_replicate, hsize]
      simp [hk]
    have r2 := out2 k [] hv
      (fun j => decide (Hit aho.trie wd k ((T1 ++ T2).take (T1.length + j + 1))))
      (fun j => by simp)
    have r3 := out3 k l1 h1
      (fun j => decide (Hit aho.trie wd k ((T1 ++ T2).take (T1.length + (j - T1.length) + 1))))
      (fun j => by simp)
    rw [h2] at r2
    rw [r3, Option.some.inj r2, List.nil_append]
    congr 2
    exact filter_range'_shift
      (fun j => decide (Hit aho.trie wd k ((T1 ++ T2).take (T1.length + j + 1)))) T1.length
      T2.length

/-- C9 (witness): the dictionary `{"ab", "b"}` and the texts `"a"` and `"b"`. -/
theorem C9_scan_split_witness :
    ∃ aho, Automaton.build [some ['a', 'b'], some ['b']] = .ok aho ∧
      ∃ (s1 s2 : Nat) (e1 e2 e : List (List Nat)),
        scan_loop ['a'] aho.trie 0 0 (List.replicate aho.dictionary_size []) =
          .ok (aho.trie, s1, e1) ∧
        scan_loop ['b'] aho.trie 0 s1 (List.replicate aho.dictionary_size []) =
          .ok (aho.trie, s2, e2) ∧
        scan_loop ['b'] aho.trie ['a'].length s1 e1 = .ok (aho.trie, s2, e) ∧
        execute_on_string aho (['a'] ++ ['b']) = .ok (aho, e) ∧
        e1.length = aho.dictionary_size ∧ e2.length = aho.dictionary_size ∧
        e.length = aho.dictionary_size ∧
        ∀ (k : Nat) (l1 l2 : List Nat), e1[k]? = some l1 → e2[k]? = some l2 →
          e[k]? = some (l1 ++ l2.map (· + ['a'].length)) :=
  ⟨_, rfl, C9_scan_split [some ['a', 'b'], some ['b']] _ ['a'] ['b'] rfl⟩

/-- C10: the transition function returns the node store it was given (it looks
a child up and never inserts one); a call of `execute_on_string` returns the
automaton it was given, with every node unchanged; and on every automaton that
was built, two successive scans of the same text both return, with the same
result. -/
theorem C10_scan_read_only :
    (∀ (trie : Trie) (fuel : Nat) (node_ptr : Option Nat) (c : Char) (trie1 : Trie) (m : Nat),
      transition_function trie fuel node_ptr c = .ok (trie1, m) → trie1 = trie) ∧
    (∀ (aho aho1 : Automaton) (T : List Char) (entries : List (List Nat)),
      execute_on_string aho T = .ok (aho1, entries) → aho1 = aho) ∧
    (∀ (dictionary : List (Option (List Char))) (aho : Automaton) (T : List Char),
      Automaton.build dictionary = .ok aho →
      ∃ entries, scan_twice aho T = .ok (aho, entries, entries)) := by
  refine ⟨fun trie fuel node_ptr c trie1 m h => transition_function_frame trie c fuel node_ptr
    trie1 m h, fun aho aho1 T entries h => execute_on_string_frame h, ?_⟩
  intro dictionary aho T h
  obtain ⟨D, wd, -, -, hsize, hb⟩ := Automaton.build_ok h
  obtain ⟨entries, hrun, -⟩ := execute_on_string_spec hb hsize T
  exact ⟨entries, by simp [scan_twice, hrun]⟩

/-- C10 (witness): the dictionary `{"a", "ab"}` scanned twice over `"abab"`. -/
theorem C10_scan_read_only_witness :
    ∃ aho, Automaton.build [some ['a'], some ['a', 'b']] = .ok aho ∧
      ∃ entries, scan_twice aho ['a', 'b', 'a', 'b'] = .ok (aho, entries, entries) :=
  ⟨_, rfl, C10_scan_read_only.2.2 [some ['a'], some ['a', 'b']] _ ['a', 'b', 'a', 'b'] rfl⟩

namespace Shape

variable {trie : Trie} {wd : Nat → List Char}

/-- Walking from node `n` along `w` can only reach the node that spells the word
of `n` followed by `w`. -/
theorem word_of_walk (hs : Shape trie wd) :
    ∀ (w : List Char) (n m : Nat), n < trie.length → walk trie w n = some m →
      m < trie.length ∧ wd m = wd n ++ w := by
  intro w
  induction w with
  | nil =>
    intro n m hn h
    simp only [walk] at h
    cases h
    exact ⟨hn, by simp⟩
  | cons c w ih =>
    intro n m hn h
    simp only [walk] at h
    split at h
    · cases h
    · rename_i node hnode
      split at h
      · cases h
      · rename_i m1 hl
        have hc := hs.child n node c m1 hnode (lookup_mem hl)
        obtain ⟨hm, hw⟩ := ih m1 m (hs.child_lt hnode (lookup_mem hl)) h
        exact ⟨hm, by rw [hw, hc.2.1]; simp⟩

/-- The strings that label a path from the root to node `n`: the word of `n` only. -/
theorem walk_root_iff (hs : Shape trie wd) (w : List Char) (n : Nat) :
    walk trie w 0 = some n ↔ n < trie.length ∧ wd n = w := by
  constructor
  · intro h
    obtain ⟨hn, hw⟩ := hs.word_of_walk w 0 n hs.pos h
    exact ⟨hn, by rw [hw, hs.root_word]; rfl⟩
  · rintro ⟨hn, hw⟩
    exact hs.walk_of_word w 0 n hs.pos hn (by rw [hs.root_word, hw]; rfl)

theorem isWord_iff_walk (hs : Shape trie wd) (w : List Char) :
    IsWord trie.length wd w ↔ ∃ n, walk trie w 0 = some n := by
  constructor
  · rintro ⟨n, hn, hw⟩
    exact ⟨n, (hs.walk_root_iff w n).2 ⟨hn, hw⟩⟩
  · rintro ⟨n, h⟩
    exact ⟨n, (hs.walk_root_iff w n).1 h⟩

/-- The depth of a node is the length of its word. -/
theorem depth_eq (hs : Shape trie wd) :
    ∀ (fuel n : Nat), n < trie.length → (wd n).length ≤ fuel →
      depth trie fuel n = (wd n).length := by
  intro fuel
  induction fuel with
  | zero =>
    intro n _ hfuel
    simp only [depth]
    omega
  | succ fuel ih =>
    intro n hn hfuel
    by_cases h0 : n = 0
    · subst h0
      simp [depth, hs.root_word]
    · obtain ⟨node, hnode⟩ := get_of_lt hn
      obtain ⟨p, pd, hpar, hpd, -, -, hw⟩ := hs.parent_word hnode h0
      have hlen : (wd n).length = (wd p).length + 1 := by rw [hw]; simp
      simp only [depth, h0, if_false, hnode, hpar]
      rw [ih p (get_lt hpd) (by omega), hlen]

theorem depth_eq_length (hs : Shape trie wd) {n : Nat} (hn : n < trie.length) :
    depth trie trie.length n = (wd n).length :=
  hs.depth_eq trie.length n hn (Nat.le_of_lt (hs.length_lt hn))

end Shape

theorem Extends.refl_extends (t : Trie) : Extends t t :=
  ⟨Nat.le_refl _, fun _ node h => ⟨node, h, rfl, rfl, List.prefix_rfl⟩⟩

theorem Extends.trans_extends {t1 t2 t3 : Trie} (h12 : Extends t1 t2) (h23 : Extends t2 t3) :
    Extends t1 t3 := by
  refine ⟨Nat.le_trans h12.1 h23.1, ?_⟩
  intro n node hn
  obtain ⟨node2, hn2, hp2, hs2, hc2⟩ := h12.2 n node hn
  obtain ⟨node3, hn3, hp3, hs3, hc3⟩ := h23.2 n node2 hn2
  exact ⟨node3, hn3, hp3.trans hp2, hs3.trans hs2, hc2.trans hc3⟩

theorem lookup_kept {l l' : List (Char × Nat)} (h : l <+: l') {c : Char} {m : Nat}
    (hl : l.lookup c = some m) : l'.lookup c = some m := by
  obtain ⟨r, rfl⟩ := h
  rw [List.lookup_append, hl]
  rfl

/-- A path of `t` is a path of every store that extends `t`, to the same node. -/
theorem Extends.walk_extends {t t' : Trie} (h : Extends t t') :
    ∀ (w : List Char) (n m : Nat), walk t w n = some m → walk t' w n = some m := by
  intro w
  induction w with
  | nil =>
    intro n m hw
    exact hw
  | cons c w ih =>
    intro n m hw
    simp only [walk] at hw ⊢
    split at hw
    · cases hw
    · rename_i node hnode
      split at hw
      · cases hw
      · rename_i m1 hl
        obtain ⟨node', hnode', -, -, hpre⟩ := h.2 n node hnode
        rw [hnode']
        simp only
        rw [lookup_kept hpre hl]
        exact ih m1 m hw

/-- On any store, `add_child` keeps every node in place, with its parent, its edge
symbol and its children entries. -/
theorem add_child_from_extends (k : Nat) :
    ∀ (path : List Char) (trie : Trie) (n : Nat) (trie1 : Trie),
      add_child_from k path trie n = .ok trie1 → Extends trie trie1 := by
  intro path
  induction path with
  | nil =>
    intro trie n trie1 h
    simp only [add_child_from] at h
    split at h
    · cases h
    · rename_i node hnode
      cases h
      refine ⟨by simp, ?_⟩
      intro m md hm
      by_cases hmn : m = n
      · subst hmn
        rw [hnode] at hm
        cases hm
        exact ⟨_, get_set_self hnode _, rfl, rfl, List.prefix_rfl⟩
      · exact ⟨md, by rw [get_set_ne (Ne.symm hmn)]; exact hm, rfl, rfl, List.prefix_rfl⟩
  | cons c path ih =>
    intro trie n trie1 h
    simp only [add_child_from] at h
    split at h
    · cases h
    · rename_i node hnode
      split at h
      · exact ih _ _ _ h
      · have hg : Extends trie (grow trie n node c) := by
          refine ⟨by rw [grow_length]; omega, ?_⟩
          intro m md hm
          by_cases hmn : m = n
          · subst hmn
            rw [hnode] at hm
            cases hm
            exact ⟨_, grow_get_self hnode c, rfl, rfl, List.prefix_append _ _⟩
          · exact ⟨md, by rw [grow_get_other trie node c hmn (get_lt hm)]; exact hm, rfl, rfl,
              List.prefix_rfl⟩
        exact hg.trans_extends (ih _ _ _ h)

theorem Inserted.walk_iff_inserted {trie : Trie} {wd : Nat → List Char} {D : List (List Char)}
    (h : Inserted trie wd D) (w : List Char) :
    (∃ n, walk trie w 0 = some n) ↔ (w = [] ∨ ∃ p ∈ D, w <+: p) := by
  rw [← h.shape.isWord_iff_walk]
  constructor
  · rintro ⟨n, hn, hw⟩
    rw [← hw]
    exact h.sound n hn
  · rintro (rfl | ⟨p, hp, hpre⟩)
    · exact h.shape.isWord_nil
    · exact h.complete p hp w hpre

theorem Built.walk_iff_built {trie : Trie} {wd : Nat → List Char} {D : List (List Char)}
    (hb : Built trie wd D) (hD : ∃ p ∈ D, p ≠ []) (w : List Char) :
    (∃ n, walk trie w 0 = some n) ↔ ∃ p ∈ D, w <+: p := by
  rw [← hb.shape.isWord_iff_walk]
  constructor
  · rintro ⟨n, hn, hw⟩
    rcases hb.sound n hn with h0 | h
    · obtain ⟨p, hp, -⟩ := hD
      exact ⟨p, hp, by rw [← hw, h0]; exact List.nil_prefix⟩
    · rw [← hw]
      exact h
  · rintro ⟨p, hp, hpre⟩
    exact hb.complete p hp w hpre

/-- Every node of the store has exactly one path string. -/
theorem Shape.unique_path {trie : Trie} {wd : Nat → List Char} (hs : Shape trie wd) {n : Nat}
    (hn : n < trie.length) :
    walk trie (wd n) 0 = some n ∧ ∀ w, walk trie w 0 = some n → w = wd n :=
  ⟨(hs.walk_root_iff (wd n) n).2 ⟨hn, rfl⟩, fun w h => ((hs.walk_root_iff w n).1 h).2.symm⟩

/-- C11: on every automaton that was built, the strings that label a path from
the root are the prefixes of the dictionary strings, and every non-root node
`n`, with path string `w`, has its suffix link set, to the node whose path
string `u` is the longest proper suffix of `w` that labels a path; the link is
the root when no non-empty proper suffix of `w` labels a path, and for every
child of the root. -/
theorem C11_suffix_link_longest_proper_suffix (dictionary : List (Option (List Char)))
    (aho : Automaton) (h : Automaton.build dictionary = .ok aho) :
    (∀ v : List Char, (∃ m, walk aho.trie v 0 = some m) ↔
      ∃ p : List Char, some p ∈ dictionary ∧ v <+: p) ∧
    ∀ n, n ≠ 0 → n < aho.trie.length →
      ∃ (w : List Char) (node : TrieNode) (s : Nat) (u : List Char),
        walk aho.trie w 0 = some n ∧ (∀ w1, walk aho.trie w1 0 = some n → w1 = w) ∧
        aho.trie[n]? = some node ∧ node.suffix_link = some s ∧
        walk aho.trie u 0 = some s ∧ u <:+ w ∧ u.length < w.length ∧
        (∀ v : List Char, v <:+ w → v.length < w.length →
          (∃ m, walk aho.trie v 0 = some m) → v <:+ u) ∧
        ((∀ v : List Char, v ≠ [] → v <:+ w → v.length < w.length →
          walk aho.trie v 0 = none) → s = 0) ∧
        (node.parent = some 0 → s = 0) := by
  obtain ⟨D, wd, rfl, hD, -, hb⟩ := Automaton.build_ok h
  refine ⟨?_, ?_⟩
  · intro v
    rw [hb.walk_iff_built hD v]
    simp
  intro n hn0 hn
  obtain ⟨node, s, hnode, hsl, hs, hls⟩ := hb.suffix n hn0 hn
  have hne : wd n ≠ [] := hb.shape.word_ne_nil hn hn0
  have hlt : (wd s).length < (wd n).length :=
    Nat.lt_of_le_of_lt hls.1.length_le (length_tail_lt hne)
  have hpath := hb.shape.unique_path hn
  refine ⟨wd n, node, s, wd s, hpath.1, hpath.2, hnode, hsl, (hb.shape.unique_path hs).1,
    hls.1.trans (List.tail_suffix _), hlt, ?_, ?_, ?_⟩
  · intro v hv hvl hpathv
    refine hls.2.2 v (suffix_tail_of_ne hv ?_) ((hb.shape.isWord_iff_walk v).2 hpathv)
    rintro rfl
    omega
  · intro hnone
    by_contra hs0
    have hsne : wd s ≠ [] := hb.shape.word_ne_nil hs hs0
    have := hnone (wd s) hsne (hls.1.trans (List.tail_suffix _)) hlt
    rw [(hb.shape.unique_path hs).1] at this
    cases this
  · intro hpar
    obtain ⟨p, pd, hp, hpd, -, -, hw⟩ := hb.shape.parent_word hnode hn0
    rw [hpar] at hp
    cases hp
    rw [hw, hb.shape.root_word] at hls
    simp only [List.nil_append, List.tail_cons] at hls
    exact hb.shape.eq_root_of_word hs (List.suffix_nil.1 hls.1)

/-- C11 (witness): the dictionary `{"ab", "b"}`. -/
theorem C11_suffix_link_longest_proper_suffix_witness :
    ∃ aho, Automaton.build [some ['a', 'b'], some ['b']] = .ok aho ∧
      (∀ v : List Char, (∃ m, walk aho.trie v 0 = some m) ↔
        ∃ p : List Char, some p ∈ [some ['a', 'b'], some ['b']] ∧ v <+: p) ∧
      ∀ n, n ≠ 0 → n < aho.trie.length →
        ∃ (w : List Char) (node : TrieNode) (s : Nat) (u : List Char),
          walk aho.trie w 0 = some n ∧ (∀ w1, walk aho.trie w1 0 = some n → w1 = w) ∧
          aho.trie[n]? = some node ∧ node.suffix_link = some s ∧
          walk aho.trie u 0 = some s ∧ u <:+ w ∧ u.length < w.length ∧
          (∀ v : List Char, v <:+ w → v.length < w.length →
            (∃ m, walk aho.trie v 0 = some m) → v <:+ u) ∧
          ((∀ v : List Char, v ≠ [] → v <:+ w → v.length < w.length →
            walk aho.trie v 0 = none) → s = 0) ∧
          (node.parent = some 0 → s = 0) :=
  ⟨_, rfl, C11_suffix_link_longest_proper_suffix [some ['a', 'b'], some ['b']] _ rfl⟩

/-- C13: building a non-empty dictionary `D` of pairwise distinct non-empty
strings succeeds; the node reached from the root along `D[k]` carries the
pattern number `k + 1` (numbered from `0`, that is the `k + 1`-st string); every
node has a path string, and its pattern number is `0` when that string is not
in `D`, as for the root; every pattern number is at most `|D|`; and no two
nodes carry the same non-zero pattern number. -/
theorem C13_pattern_ids_dense (D : List (List Char)) (hne : D ≠ []) (hnd : D.Nodup)
    (hD : ∀ p ∈ D, p ≠ []) :
    ∃ aho, Automaton.build (D.map some) = .ok aho ∧
      (∀ (k : Nat) (p : List Char), D[k]? = some p →
        ∃ (n : Nat) (node : TrieNode), walk aho.trie p 0 = some n ∧
          aho.trie[n]? = some node ∧ node.end_of_string = k + 1) ∧
      (∀ (n : Nat) (node : TrieNode), aho.trie[n]? = some node →
        node.end_of_string ≤ D.length ∧
        ∃ w : List Char, walk aho.trie w 0 = some n ∧ (w ∉ D → node.end_of_string = 0)) ∧
      (∃ root : TrieNode, aho.trie[0]? = some root ∧ root.end_of_string = 0) ∧
      (∀ (n m : Nat) (node md : TrieNode), aho.trie[n]? = some node → aho.trie[m]? = some md →
        node.end_of_string = md.end_of_string → node.end_of_string ≠ 0 → n = m) := by
  have hex : ∃ p ∈ D, p ≠ [] := by
    cases D with
    | nil => exact absurd rfl hne
    | cons p D => exact ⟨p, List.mem_cons_self _ _, hD p (List.mem_cons_self _ _)⟩
  obtain ⟨aho, wd, hbuild, -, hb⟩ := Automaton.build_spec D hex
  have zero_of_not_mem : ∀ (n : Nat) (node : TrieNode), aho.trie[n]? = some node →
      wd n ∉ D → node.end_of_string = 0 := by
    intro n node hnode hnot
    rcases hb.ids n node hnode with ⟨h0, -⟩ | ⟨-, hget, -⟩
    · exact h0
    · exact absurd (List.getElem?_mem hget) hnot
  refine ⟨aho, hbuild, ?_, ?_, ?_, ?_⟩
  · intro k p hp
    have hpD : p ∈ D := List.getElem?_mem hp
    obtain ⟨n, hn, hw⟩ := hb.complete p hpD p List.prefix_rfl
    obtain ⟨node, hnode⟩ := get_of_lt hn
    refine ⟨n, node, (hb.shape.walk_root_iff p n).2 ⟨hn, hw⟩, hnode, ?_⟩
    rcases hb.ids n node hnode with ⟨-, hnot⟩ | ⟨hpos, hget, -⟩
    · rw [hw] at hnot
      exact absurd hpD hnot
    · rw [hw] at hget
      have hk : k < D.length := by
        rcases List.getElem?_eq_some.1 hp with ⟨h1, _⟩
        exact h1
      have := List.getElem?_inj hk hnd (hp.trans hget.symm)
      omega
  · intro n node hnode
    exact ⟨hb.ids_le hnode, wd n, (hb.shape.unique_path (get_lt hnode)).1,
      zero_of_not_mem n node hnode⟩
  · obtain ⟨root, hroot⟩ := get_of_lt hb.shape.pos
    refine ⟨root, hroot, zero_of_not_mem 0 root hroot ?_⟩
    rw [hb.shape.root_word]
    intro hmem
    exact hD [] hmem rfl
  · intro n m node md hn hm he h0
    exact hb.ids_inj hn hm he h0

/-- C13 (witness): the dictionary `{"a", "ab"}`. -/
theorem C13_pattern_ids_dense_witness :
    ∃ aho, Automaton.build ([['a'], ['a', 'b']].map some) = .ok aho ∧
      (∀ (k : Nat) (p : List Char), [['a'], ['a', 'b']][k]? = some p →
        ∃ (n : Nat) (node : TrieNode), walk aho.trie p 0 = some n ∧
          aho.trie[n]? = some node ∧ node.end_of_string = k + 1) ∧
      (∀ (n : Nat) (node : TrieNode), aho.trie[n]? = some node →
        node.end_of_string ≤ [['a'], ['a', 'b']].length ∧
        ∃ w : List Char, walk aho.trie w 0 = some n ∧
          (w ∉ [['a'], ['a', 'b']] → node.end_of_string = 0)) ∧
      (∃ root : TrieNode, aho.trie[0]? = some root ∧ root.end_of_string = 0) ∧
      (∀ (n m : Nat) (node md : TrieNode), aho.trie[n]? = some node → aho.trie[m]? = some md →
        node.end_of_string = md.end_of_string → node.end_of_string ≠ 0 → n = m) :=
  C13_pattern_ids_dense [['a'], ['a', 'b']] (by simp) (by decide) (by simp)

/-- C14: for every non-empty dictionary `D` of non-null strings the insertion
loop succeeds, and in the trie it leaves: a string labels a path from the root
exactly when it is a prefix of some string of `D`; every node has exactly one
path string; every child stored under symbol `c` in node `n` has parent `n`
and edge symbol `c`; and a further `add_child` keeps every node in place, with
its parent, edge symbol, children entries and path string. -/
theorem C14_trie_of_prefixes (D : List (List Char)) (hne : D ≠ []) :
    ∃ trie, insert_dictionary (D.map some) [TrieNode.new none (Char.ofNat 0)] 1 = .ok trie ∧
      PathsArePrefixes D trie ∧
      (∀ n, n < trie.length →
        ∃ w : List Char, walk trie w 0 = some n ∧ ∀ w1, walk trie w1 0 = some n → w1 = w) ∧
      (∀ (n : Nat) (node : TrieNode) (c : Char) (m : Nat), trie[n]? = some node →
        (c, m) ∈ node.children →
        ∃ md : TrieNode, trie[m]? = some md ∧ md.parent = some n ∧ md.path_symbol = c) ∧
      (∀ (p : Option (List Char)) (k : Nat) (trie1 : Trie),
        add_child trie 0 p k = .ok trie1 →
        Extends trie trie1 ∧ ∀ (w : List Char) (n : Nat),
          walk trie w 0 = some n → walk trie1 w 0 = some n) := by
  obtain ⟨trie, wd, hrun, h⟩ := insert_dictionary_spec D [] _ _ (Inserted.start_inserted _ rfl)
  simp only [List.length_nil, Nat.zero_add, List.nil_append] at hrun h
  refine ⟨trie, hrun, ?_, ?_, ?_, ?_⟩
  · intro w
    rw [h.walk_iff_inserted w]
    constructor
    · rintro (rfl | hp)
      · cases D with
        | nil => exact absurd rfl hne
        | cons p D => exact ⟨p, List.mem_cons_self _ _, List.nil_prefix⟩
      · exact hp
    · intro hp
      exact Or.inr hp
  · intro n hn
    exact ⟨wd n, h.shape.unique_path hn⟩
  · intro n node c m hn hm
    exact (h.shape.child n node c m hn hm).2.2
  · intro p k trie1 hadd
    cases p with
    | none => simp [add_child] at hadd
    | some p =>
      have hext := add_child_from_extends k p trie 0 trie1 hadd
      exact ⟨hext, fun w n hw => hext.walk_extends w 0 n hw⟩

/-- C14 (witness): the dictionary `{"ab", "ac"}`. -/
theorem C14_trie_of_prefixes_witness :
    ∃ trie, insert_dictionary ([['a', 'b'], ['a', 'c']].map some)
        [TrieNode.new none (Char.ofNat 0)] 1 = .ok trie ∧
      PathsArePrefixes [['a', 'b'], ['a', 'c']] trie ∧
      (∀ n, n < trie.length →
        ∃ w : List Char, walk trie w 0 = some n ∧ ∀ w1, walk trie w1 0 = some n → w1 = w) ∧
      (∀ (n : Nat) (node : TrieNode) (c : Char) (m : Nat), trie[n]? = some node →
        (c, m) ∈ node.children →
        ∃ md : TrieNode, trie[m]? = some md ∧ md.parent = some n ∧ md.path_symbol = c) ∧
      (∀ (p : Option (List Char)) (k : Nat) (trie1 : Trie),
        add_child trie 0 p k = .ok trie1 →
        Extends trie trie1 ∧ ∀ (w : List Char) (n : Nat),
          walk trie w 0 = some n → walk trie1 w 0 = some n) :=
  C14_trie_of_prefixes [['a', 'b'], ['a', 'c']] (by simp)

theorem DictSpec.unique_link {Q : List Char → Prop} {len : Nat} {wd : Nat → List Char}
    {x : List Char} (hinj : ∀ i j, i < len → j < len → wd i = wd j → i = j)
    {r r1 : Option Nat} (h : DictSpec Q len wd x r) (h1 : DictSpec Q len wd x r1) : r = r1 := by
  cases r with
  | none =>
    cases r1 with
    | none => rfl
    | some d =>
      obtain ⟨-, hls⟩ := h1.2 d rfl
      exact absurd hls.2.1 (h.1 rfl _ hls.1)
  | some d =>
    obtain ⟨hd, hls⟩ := h.2 d rfl
    cases r1 with
    | none => exact absurd hls.2.1 (h1.1 rfl _ hls.1)
    | some d1 =>
      obtain ⟨hd1, hls1⟩ := h1.2 d1 rfl
      rw [hinj d d1 hd hd1 (hls.unique hls1)]

namespace Built

variable {trie : Trie} {wd : Nat → List Char} {D : List (List Char)}

theorem suffix_chain_root (hb : Built trie wd D) (fuel : Nat) : suffix_chain trie fuel 0 = [] := by
  obtain ⟨r, hr, hsl, -⟩ := hb.root_links
  cases fuel with
  | zero => rfl
  | succ fuel => simp [suffix_chain, hr, hsl]

theorem dict_chain_root (hb : Built trie wd D) (fuel : Nat) : dict_chain trie fuel 0 = [] := by
  obtain ⟨r, hr, -, hdl⟩ := hb.root_links
  cases fuel with
  | zero => rfl
  | succ fuel => simp [dict_chain, hr, hdl]

/-- Along the chain of suffix links the words get strictly shorter. -/
theorem suffix_chain_decreasing (hb : Built trie wd D) :
    ∀ (fuel n : Nat), n < trie.length →
      (∀ m ∈ suffix_chain trie fuel n, m < trie.length ∧ (wd m).length < (wd n).length) ∧
      (suffix_chain trie fuel n).Pairwise (fun a b => (wd b).length < (wd a).length) := by
  intro fuel
  induction fuel with
  | zero =>
    intro n _
    simp [suffix_chain]
  | succ fuel ih =>
    intro n hn
    by_cases h0 : n = 0
    · subst h0
      rw [hb.suffix_chain_root]
      simp
    · obtain ⟨node, s, hnode, hsl, hs, hls⟩ := hb.suffix n h0 hn
      have hlt : (wd s).length < (wd n).length :=
        Nat.lt_of_le_of_lt hls.1.length_le (length_tail_lt (hb.shape.word_ne_nil hn h0))
      obtain ⟨ih1, ih2⟩ := ih s hs
      simp only [suffix_chain, hnode, hsl]
      refine ⟨?_, List.pairwise_cons.2 ⟨fun m hm => (ih1 m hm).2, ih2⟩⟩
      intro m hm
      rcases List.mem_cons.1 hm with rfl | hm
      · exact ⟨hs, hlt⟩
      · exact ⟨(ih1 m hm).1, Nat.lt_trans (ih1 m hm).2 hlt⟩

/-- The chain of suffix links of a non-root node ends at the root. -/
theorem suffix_chain_ends (hb : Built trie wd D) :
    ∀ (fuel n : Nat), n < trie.length → n ≠ 0 → (wd n).length ≤ fuel →
      ∃ pre, suffix_chain trie fuel n = pre ++ [0] := by
  intro fuel
  induction fuel with
  | zero =>
    intro n hn h0 hfuel
    have := hb.shape.word_ne_nil hn h0
    have : (wd n).length ≠ 0 := by simpa using this
    omega
  | succ fuel ih =>
    intro n hn h0 hfuel
    obtain ⟨node, s, hnode, hsl, hs, hls⟩ := hb.suffix n h0 hn
    have hlt : (wd s).length < (wd n).length :=
      Nat.lt_of_le_of_lt hls.1.length_le (length_tail_lt (hb.shape.word_ne_nil hn h0))
    simp only [suffix_chain, hnode, hsl]
    by_cases hs0 : s = 0
    · subst hs0
      exact ⟨[], by rw [hb.suffix_chain_root]; rfl⟩
    · obtain ⟨pre, hpre⟩ := ih s hs hs0 (by omega)
      exact ⟨s :: pre, by rw [hpre]; rfl⟩

/-- The dictionary suffix link of a node leads to a shallower node that ends a string. -/
theorem dict_link_target (hb : Built trie wd D) {n : Nat} {node : TrieNode}
    (hnode : trie[n]? = some node) {d : Nat} (hd : node.dict_suffix_link = some d) :
    ∃ dnode : TrieNode, trie[d]? = some dnode ∧ dnode.end_of_string ≠ 0 ∧
      (wd d).length < (wd n).length := by
  obtain ⟨dnode, h1, h2, h3, -⟩ := (hb.hit_split hnode).2 d hd
  exact ⟨dnode, h1, h2, h3⟩

/-- Along the chain of dictionary suffix links the words get strictly shorter. -/
theorem dict_chain_decreasing (hb : Built trie wd D) :
    ∀ (fuel n : Nat), n < trie.length →
      (∀ m ∈ dict_chain trie fuel n, m < trie.length ∧ (wd m).length < (wd n).length) ∧
      (dict_chain trie fuel n).Pairwise (fun a b => (wd b).length < (wd a).length) := by
  intro fuel
  induction fuel with
  | zero =>
    intro n _
    simp [dict_chain]
  | succ fuel ih =>
    intro n hn
    obtain ⟨node, hnode⟩ := get_of_lt hn
    cases hdl : node.dict_suffix_link with
    | none => simp [dict_chain, hnode, hdl]
    | some d =>
      obtain ⟨dnode, hdnode, -, hlt⟩ := hb.dict_link_target hnode hdl
      obtain ⟨ih1, ih2⟩ := ih d (get_lt hdnode)
      simp only [dict_chain, hnode, hdl]
      refine ⟨?_, List.pairwise_cons.2 ⟨fun m hm => (ih1 m hm).2, ih2⟩⟩
      intro m hm
      rcases List.mem_cons.1 hm with rfl | hm
      · exact ⟨get_lt hdnode, hlt⟩
      · exact ⟨(ih1 m hm).1, Nat.lt_trans (ih1 m hm).2 hlt⟩

/-- What `find_dict_suffix_link` computes: the first node of the chain of suffix
links that ends a string. -/
theorem find_dict_suffix_link_chain (hb : Built trie wd D) :
    ∀ (fuel n : Nat), n < trie.length → n ≠ 0 → (wd n).length ≤ fuel →
      find_dict_suffix_link trie fuel n =
        .ok (trie, (suffix_chain trie fuel n).find? (is_terminal trie)) := by
  intro fuel
  induction fuel with
  | zero =>
    intro n hn h0 hfuel
    have := hb.shape.word_ne_nil hn h0
    have : (wd n).length ≠ 0 := by simpa using this
    omega
  | succ fuel ih =>
    intro n hn h0 hfuel
    obtain ⟨node, s, hnode, hsl, hs, hls⟩ := hb.suffix n h0 hn
    have hlt : (wd s).length < (wd n).length :=
      Nat.lt_of_le_of_lt hls.1.length_le (length_tail_lt (hb.shape.word_ne_nil hn h0))
    obtain ⟨linked, hlinked⟩ := get_of_lt hs
    simp only [find_dict_suffix_link, suffix_chain, hnode, hsl, hlinked, List.find?_cons]
    by_cases he : linked.end_of_string ≠ 0
    · have ht : is_terminal trie s = true := by simp [is_terminal, hlinked, he]
      simp [he, ht]
    · have ht : is_terminal trie s = false := by simp [is_terminal, hlinked, he]
      simp only [he, if_false, ht]
      by_cases hs0 : s = 0
      · subst hs0
        simp [hb.suffix_chain_root]
      · simp only [hs0, if_false]
        exact ih s hs hs0 (by omega)

/-- The stored dictionary suffix link of a non-root node is the first node of its
chain of suffix links that ends a string. -/
theorem dict_link_eq_find (hb : Built trie wd D) {n : Nat} (hn : n < trie.length) (h0 : n ≠ 0)
    {node : TrieNode} (hnode : trie[n]? = some node) :
    node.dict_suffix_link = (suffix_chain trie trie.length n).find? (is_terminal trie) := by
  obtain ⟨node1, hnode1, hspec⟩ := hb.dict n h0 hn
  rw [hnode] at hnode1
  cases hnode1
  obtain ⟨r, hrun, hr⟩ := find_dict_suffix_link_spec hb.shape trie.length n hn h0
    (Nat.le_of_lt (hb.shape.length_lt hn)) (fun k hk0 hk _ => hb.suffix k hk0 hk)
  rw [hb.find_dict_suffix_link_chain trie.length n hn h0
    (Nat.le_of_lt (hb.shape.length_lt hn))] at hrun
  have : (suffix_chain trie trie.length n).find? (is_terminal trie) = r := by
    cases hrun
    rfl
  rw [this]
  exact hspec.unique_link hb.shape.inj hr

end Built

/-- C12: on every automaton that was built from a dictionary of non-empty
strings, for every non-root node `n`: the chain of nodes met by following
`suffix_link` from `n` (one or more times) ends at the root, whose own suffix
link is null; the dictionary suffix link of `n` is the first node of that
chain with a non-zero pattern number; it is null exactly when no node of the
chain has a non-zero pattern number; and it is never the root. -/
theorem C12_dict_suffix_link_first_terminal (dictionary : List (Option (List Char)))
    (aho : Automaton) (h : Automaton.build dictionary = .ok aho)
    (hne : ∀ p : List Char, some p ∈ dictionary → p ≠ []) :
    (∃ root : TrieNode, aho.trie[0]? = some root ∧ root.suffix_link = none) ∧
    ∀ n, n ≠ 0 → n < aho.trie.length →
      ∃ node : TrieNode, aho.trie[n]? = some node ∧
        (∃ pre, suffix_chain aho.trie aho.trie.length n = pre ++ [0]) ∧
        node.dict_suffix_link =
          (suffix_chain aho.trie aho.trie.length n).find? (is_terminal aho.trie) ∧
        (node.dict_suffix_link = none ↔
          ∀ m ∈ suffix_chain aho.trie aho.trie.length n, is_terminal aho.trie m = false) ∧
        node.dict_suffix_link ≠ some 0 := by
  obtain ⟨D, wd, rfl, -, -, hb⟩ := Automaton.build_ok h
  have hD : ∀ p ∈ D, p ≠ [] := fun p hp => hne p (by simpa using hp)
  obtain ⟨root, hroot, hrsl, -⟩ := hb.root_links
  refine ⟨⟨root, hroot, hrsl⟩, ?_⟩
  intro n h0 hn
  obtain ⟨node, hnode⟩ := get_of_lt hn
  have hfind := hb.dict_link_eq_find hn h0 hnode
  refine ⟨node, hnode, hb.suffix_chain_ends _ n hn h0 (Nat.le_of_lt (hb.shape.length_lt hn)),
    hfind, ?_, ?_⟩
  · rw [hfind, List.find?_eq_none]
    simp
  · intro hd
    obtain ⟨dnode, hdnode, he, -⟩ := hb.dict_link_target hnode hd
    rw [hroot] at hdnode
    cases hdnode
    rcases hb.ids 0 root hroot with ⟨hz, -⟩ | ⟨-, hget, -⟩
    · exact he hz
    · rw [hb.shape.root_word] at hget
      exact hD [] (List.getElem?_mem hget) rfl

/-- C12 (witness): the dictionary `{"ab", "b"}`. -/
theorem C12_dict_suffix_link_first_terminal_witness :
    ∃ aho, Automaton.build [some ['a', 'b'], some ['b']] = .ok aho ∧
      (∃ root : TrieNode, aho.trie[0]? = some root ∧ root.suffix_link = none) ∧
      ∀ n, n ≠ 0 → n < aho.trie.length →
        ∃ node : TrieNode, aho.trie[n]? = some node ∧
          (∃ pre, suffix_chain aho.trie aho.trie.length n = pre ++ [0]) ∧
          node.dict_suffix_link =
            (suffix_chain aho.trie aho.trie.length n).find? (is_terminal aho.trie) ∧
          (node.dict_suffix_link = none ↔
            ∀ m ∈ suffix_chain aho.trie aho.trie.length n, is_terminal aho.trie m = false) ∧
          node.dict_suffix_link ≠ some 0 :=
  ⟨_, rfl, C12_dict_suffix_link_first_terminal [some ['a', 'b'], some ['b']] _ rfl
    (by simp)⟩

/-- C15: on every automaton that was built, for every non-root node `n`: its
depth is the length of its path string; its suffix link is set, to a node of
strictly smaller depth, the root when `n` has depth `1`; its dictionary suffix
link, when set, leads to a node of strictly smaller depth; and along the
chains of suffix links and of dictionary suffix links from `n`, followed for
any number of steps, the depth strictly decreases, so that no node is met
twice. -/
theorem C15_links_decrease_depth (dictionary : List (Option (List Char)))
    (aho : Automaton) (h : Automaton.build dictionary = .ok aho) :
    ∀ n, n ≠ 0 → n < aho.trie.length →
      ∃ (node : TrieNode) (s : Nat), aho.trie[n]? = some node ∧
        (∀ w : List Char, walk aho.trie w 0 = some n →
          depth aho.trie aho.trie.length n = w.length) ∧
        node.suffix_link = some s ∧
        depth aho.trie aho.trie.length s < depth aho.trie aho.trie.length n ∧
        (depth aho.trie aho.trie.length n = 1 → s = 0) ∧
        (∀ d, node.dict_suffix_link = some d →
          depth aho.trie aho.trie.length d < depth aho.trie aho.trie.length n) ∧
        ∀ fuel,
          (n :: suffix_chain aho.trie fuel n).Pairwise
            (fun a b => depth aho.trie aho.trie.length b < depth aho.trie aho.trie.length a) ∧
          (n :: dict_chain aho.trie fuel n).Pairwise
            (fun a b => depth aho.trie aho.trie.length b < depth aho.trie aho.trie.length a) ∧
          (n :: suffix_chain aho.trie fuel n).Nodup ∧
          (n :: dict_chain aho.trie fuel n).Nodup := by
  obtain ⟨D, wd, -, -, -, hb⟩ := Automaton.build_ok h
  intro n h0 hn
  obtain ⟨node, s, hnode, hsl, hs, hls⟩ := hb.suffix n h0 hn
  have hdn := hb.shape.depth_eq_length hn
  have hlt : (wd s).length < (wd n).length :=
    Nat.lt_of_le_of_lt hls.1.length_le (length_tail_lt (hb.shape.word_ne_nil hn h0))
  have conv : ∀ (l : List Nat), (∀ m ∈ l, m < aho.trie.length ∧ (wd m).length < (wd n).length) →
      l.Pairwise (fun a b => (wd b).length < (wd a).length) →
      (n :: l).Pairwise
        (fun a b => depth aho.trie aho.trie.length b < depth aho.trie aho.trie.length a) := by
    intro l hmem hpw
    refine List.pairwise_cons.2 ⟨?_, ?_⟩
    · intro m hm
      rw [hdn, hb.shape.depth_eq_length (hmem m hm).1]
      exact (hmem m hm).2
    · refine hpw.imp_of_mem ?_
      intro a b ha hb1 hab
      rw [hb.shape.depth_eq_length (hmem a ha).1, hb.shape.depth_eq_length (hmem b hb1).1]
      exact hab
  have nodup_of : ∀ (l : List Nat), l.Pairwise
      (fun a b => depth aho.trie aho.trie.length b < depth aho.trie aho.trie.length a) →
      l.Nodup := by
    intro l hpw
    refine hpw.imp ?_
    intro a b hab heq
    rw [heq] at hab
    exact Nat.lt_irrefl _ hab
  refine ⟨node, s, hnode, ?_, hsl, ?_, ?_, ?_, ?_⟩
  · intro w hw
    rw [hdn, ((hb.shape.walk_root_iff w n).1 hw).2]
  · rw [hdn, hb.shape.depth_eq_length hs]
    exact hlt
  · intro h1
    rw [hdn] at h1
    apply hb.shape.eq_root_of_word hs
    exact List.length_eq_zero.1 (by omega)
  · intro d hd
    obtain ⟨dnode, hdnode, -, hdlt⟩ := hb.dict_link_target hnode hd
    rw [hdn, hb.shape.depth_eq_length (get_lt hdnode)]
    exact hdlt
  · intro fuel
    obtain ⟨s1, s2⟩ := hb.suffix_chain_decreasing fuel n hn
    obtain ⟨d1, d2⟩ := hb.dict_chain_decreasing fuel n hn
    exact ⟨conv _ s1 s2, conv _ d1 d2, nodup_of _ (conv _ s1 s2), nodup_of _ (conv _ d1 d2)⟩

/-- C15 (witness): the dictionary `{"ab", "b"}`. -/
theorem C15_links_decrease_depth_witness :
    ∃ aho, Automaton.build [some ['a', 'b'], some ['b']] = .ok aho ∧
      ∀ n, n ≠ 0 → n < aho.trie.length →
        ∃ (node : TrieNode) (s : Nat), aho.trie[n]? = some node ∧
          (∀ w : List Char, walk aho.trie w 0 = some n →
            depth aho.trie aho.trie.length n = w.length) ∧
          node.suffix_link = some s ∧
          depth aho.trie aho.trie.length s < depth aho.trie aho.trie.length n ∧
          (depth aho.trie aho.trie.length n = 1 → s = 0) ∧
          (∀ d, node.dict_suffix_link = some d →
            depth aho.trie aho.trie.length d < depth aho.trie aho.trie.length n) ∧
          ∀ fuel,
            (n :: suffix_chain aho.trie fuel n).Pairwise
              (fun a b => depth aho.trie aho.trie.length b < depth aho.trie aho.trie.length a) ∧
            (n :: dict_chain aho.trie fuel n).Pairwise
              (fun a b => depth aho.trie aho.trie.length b < depth aho.trie aho.trie.length a) ∧
            (n :: suffix_chain aho.trie fuel n).Nodup ∧
            (n :: dict_chain aho.trie fuel n).Nodup :=
  ⟨_, rfl, C15_links_decrease_depth [some ['a', 'b'], some ['b']] _ rfl⟩

theorem kids_in_of_get (iter : List (Char × Nat) → List (Char × Nat)) {trie : Trie} {n : Nat}
    {node : TrieNode} (h : trie[n]? = some node) :
    kids_in iter trie n = (iter node.children).map Prod.snd := by
  simp [kids_in, h]

/-- Iterating the children in another order permutes the children. -/
theorem kids_in_perm {iter : List (Char × Nat) → List (Char × Nat)}
    (hiter : ∀ l, List.Perm (iter l) l) (trie : Trie) (n : Nat) :
    List.Perm (kids_in iter trie n) (kids trie n) := by
  unfold kids_in kids
  cases trie[n]? with
  | none => exact List.Perm.refl _
  | some node => exact (hiter node.children).map _

/-- Iterating the children in another order permutes each level. -/
theorem level_in_perm {iter : List (Char × Nat) → List (Char × Nat)}
    (hiter : ∀ l, List.Perm (iter l) l) (trie : Trie) :
    ∀ d, List.Perm (level_in iter trie d) (level trie d) := by
  intro d
  induction d with
  | zero => exact List.Perm.refl _
  | succ d ih =>
    simp only [level_in, level]
    exact (List.Perm.flatMap_left _ (fun n _ => kids_in_perm hiter trie n)).trans
      (List.Perm.flatMap_right _ ih)

theorem mem_level_in {iter : List (Char × Nat) → List (Char × Nat)}
    (hiter : ∀ l, List.Perm (iter l) l) {trie : Trie} {wd : Nat → List Char}
    (hs : Shape trie wd) (d m : Nat) (h : m ∈ level_in iter trie d) :
    m < trie.length ∧ (wd m).length = d :=
  hs.mem_level d m ((level_in_perm hiter trie d).mem_iff.1 h)

theorem level_in_of_length {iter : List (Char × Nat) → List (Char × Nat)}
    (hiter : ∀ l, List.Perm (iter l) l) {trie : Trie} {wd : Nat → List Char}
    (hs : Shape trie wd) (d m : Nat) (hm : m < trie.length) (hlen : (wd m).length = d) :
    m ∈ level_in iter trie d :=
  (level_in_perm hiter trie d).mem_iff.2 (hs.level_of_length d m hm hlen)

theorem level_in_nodup {iter : List (Char × Nat) → List (Char × Nat)}
    (hiter : ∀ l, List.Perm (iter l) l) {trie : Trie} {wd : Nat → List Char}
    (hs : Shape trie wd) (d : Nat) : (level_in iter trie d).Nodup :=
  (level_in_perm hiter trie d).nodup_iff.2 (hs.level_nodup d)

theorem kids_in_sameTree (iter : List (Char × Nat) → List (Char × Nat)) {t t1 : Trie}
    (h : SameTree t t1) (n : Nat) : kids_in iter t1 n = kids_in iter t n := by
  unfold kids_in
  cases hn : t[n]? with
  | none =>
    have : t1[n]? = none := by
      rw [List.getElem?_eq_none_iff] at hn ⊢
      rw [← h.1]
      exact hn
    rw [this]
  | some node =>
    have : n < t1.length := by rw [← h.1]; exact get_lt hn
    obtain ⟨node1, hn1⟩ := get_of_lt this
    rw [hn1]
    simp only
    rw [(h.2 n node node1 hn hn1).1]

theorem level_in_succ_nil {iter : List (Char × Nat) → List (Char × Nat)} {trie : Trie} {d : Nat}
    (h : level_in iter trie d = []) : ∀ k, level_in iter trie (d + k) = [] := by
  intro k
  induction k with
  | zero => exact h
  | succ k ih =>
    rw [← Nat.add_assoc]
    simp [level_in, ih]

theorem BfsInvIn.next_level_in {iter : List (Char × Nat) → List (Char × Nat)} {t0 t : Trie}
    {wd : Nat → List Char} {d : Nat} {P : List Nat} (hiter : ∀ l, List.Perm (iter l) l)
    (hs : Shape t0 wd) (h : BfsInvIn iter t0 wd t d P []) :
    BfsInvIn iter t0 wd t (d + 1) [] (level_in iter t0 (d + 1)) ∧
      P.flatMap (kids_in iter t0) = level_in iter t0 (d + 1) := by
  have hP : level_in iter t0 d = P := by simpa using h.lvl
  refine ⟨⟨h.skel, by simp, by omega, ?_, ?_⟩, by simp [level_in, hP]⟩
  · intro n h0 hn hcase
    rcases hcase with hlt | hmem
    · by_cases hd : (wd n).length < d
      · exact h.done n h0 hn (Or.inl hd)
      · have : (wd n).length = d := by omega
        exact h.done n h0 hn (Or.inr (hP ▸ level_in_of_length hiter hs d n hn this))
    · simp at hmem
  · intro n node hn hcase
    refine h.todo n node hn ?_
    rcases hcase with h0 | ⟨hd, -⟩
    · exact Or.inl h0
    · refine Or.inr ⟨by omega, ?_⟩
      intro hmem
      have := (mem_level_in hiter hs d n (hP ▸ hmem)).2
      omega

/-- One iteration of the breadth-first pass, for any iteration order. -/
theorem BfsInvIn.step_in {iter : List (Char × Nat) → List (Char × Nat)} {t0 t : Trie}
    {wd : Nat → List Char} {d : Nat} {P A : List Nat} {cur : Nat}
    (hiter : ∀ l, List.Perm (iter l) l) (hs : Shape t0 wd) (h : BfsInvIn iter t0 wd t d P (cur :: A)) :
    ∃ (node : TrieNode) (s : Nat) (r : Option Nat),
      t[cur]? = some node ∧ (iter node.children).map Prod.snd = kids_in iter t0 cur ∧
      find_suffix_link t t.length cur = .ok (t, some s) ∧
      find_dict_suffix_link
        (update_node t cur (fun nd => { nd with suffix_link := some s }))
        (update_node t cur (fun nd => { nd with suffix_link := some s })).length cur =
        .ok (update_node t cur (fun nd => { nd with suffix_link := some s }), r) ∧
      BfsInvIn iter t0 wd
        (update_node (update_node t cur (fun nd => { nd with suffix_link := some s })) cur
          (fun nd => { nd with dict_suffix_link := r })) d (P ++ [cur]) A ∧
      pending (update_node (update_node t cur (fun nd => { nd with suffix_link := some s })) cur
          (fun nd => { nd with dict_suffix_link := r })) + 1 = pending t := by
  have hlen : t.length = t0.length := h.skel.1.1.symm
  have hst : Shape t wd := hs.of_sameTree h.skel.1
  have hcur_mem : cur ∈ level_in iter t0 d := by rw [h.lvl]; simp
  obtain ⟨hcur_lt0, hcur_len⟩ := mem_level_in hiter hs d cur hcur_mem
  have hcur_lt : cur < t.length := by rw [hlen]; exact hcur_lt0
  have hcur0 : cur ≠ 0 := by
    rintro rfl
    rw [hs.root_word] at hcur_len
    have := h.dpos
    simp at hcur_len
    omega
  have hnd := level_in_nodup hiter hs d
  rw [h.lvl] at hnd
  have hcurP : cur ∉ P := by
    intro hmem
    have := (List.nodup_append.1 hnd).2.2
    exact this hmem (List.mem_cons_self _ _)
  obtain ⟨node, hnode⟩ := get_of_lt hcur_lt
  have hkids : (iter node.children).map Prod.snd = kids_in iter t0 cur := by
    rw [← kids_in_sameTree iter h.skel.1 cur, kids_in_of_get iter hnode]
  have hfresh := h.todo cur node hnode (Or.inr ⟨by omega, hcurP⟩)
  -- the suffix link
  obtain ⟨s, hrun1, hslt, hls⟩ := find_suffix_link_spec hst hcur_lt hcur0
    (fun k hk0 hk hkl => (h.done k hk0 (hlen ▸ hk) (Or.inl (by omega))).1)
  refine ⟨node, s, ?_⟩
  generalize ht2 : update_node t cur (fun nd => { nd with suffix_link := some s }) = t2
  have hsk2 : SameSkeleton t t2 := by
    rw [← ht2]
    exact SameSkeleton.update_skeleton t cur _ (fun nd => ⟨rfl, rfl, rfl, rfl⟩)
  have hlen2 : t2.length = t.length := hsk2.1.1.symm
  have hst2 : Shape t2 wd := hst.of_sameTree hsk2.1
  have hget2 : t2[cur]? = some { node with suffix_link := some s } := by
    rw [← ht2]
    exact update_node_get_self hnode _
  have hother2 : ∀ k, k ≠ cur → t2[k]? = t[k]? := by
    intro k hk
    rw [← ht2]
    exact update_node_get_ne t (Ne.symm hk) _
  have hsuf2 : SuffixOK t2 wd cur :=
    ⟨_, s, hget2, rfl, by rw [hlen2]; exact hslt, by rw [hlen2]; exact hls⟩
  have hdone2 : ∀ k, k ≠ 0 → k < t2.length → (k = cur ∨ (wd k).length < (wd cur).length) →
      SuffixOK t2 wd k := by
    intro k hk0 hk hcase
    rcases hcase with rfl | hkl
    · exact hsuf2
    · have hkc : k ≠ cur := by
        rintro rfl
        omega
      refine SuffixOK.transfer_suffix hlen2 ?_
        (h.done k hk0 (by rw [← hlen, ← hlen2]; exact hk) (Or.inl (by omega))).1
      intro nd hndk
      exact ⟨nd, by rw [hother2 k hkc]; exact hndk, rfl⟩
  -- the dictionary suffix link
  obtain ⟨r, hrun2, hr⟩ := find_dict_suffix_link_spec hst2 t2.length cur
    (by rw [hlen2]; exact hcur_lt) hcur0 (Nat.le_of_lt (hst2.length_lt (by rw [hlen2]; exact hcur_lt)))
    hdone2
  refine ⟨r, hnode, hkids, hrun1, hrun2, ?_⟩
  generalize ht4 : update_node t2 cur (fun nd => { nd with dict_suffix_link := r }) = t4
  have hsk4 : SameSkeleton t2 t4 := by
    rw [← ht4]
    exact SameSkeleton.update_skeleton t2 cur _ (fun nd => ⟨rfl, rfl, rfl, rfl⟩)
  have hlen4 : t4.length = t2.length := hsk4.1.1.symm
  have hget4 : t4[cur]? =
      some { ({ node with suffix_link := some s } : TrieNode) with dict_suffix_link := r } := by
    rw [← ht4]
    exact update_node_get_self hget2 _
  have hother4 : ∀ k, k ≠ cur → t4[k]? = t[k]? := by
    intro k hk
    rw [← ht4, update_node_get_ne t2 (Ne.symm hk) _]
    exact hother2 k hk
  have hsk04 : SameSkeleton t0 t4 := (h.skel.trans_skeleton hsk2).trans_skeleton hsk4
  have hsk_t4 : SameSkeleton t t4 := hsk2.trans_skeleton hsk4
  refine ⟨⟨hsk04, by rw [h.lvl]; simp, h.dpos, ?_, ?_⟩, ?_⟩
  · intro k hk0 hk hcase
    by_cases hkc : k = cur
    · subst hkc
      refine ⟨SuffixOK.transfer_suffix hlen4 ?_ hsuf2, ?_⟩
      · intro nd hndk
        rw [hget2] at hndk
        cases hndk
        exact ⟨_, hget4, rfl⟩
      · refine ⟨_, hget4, ?_⟩
        have hT : Terminal t2 wd = Terminal t4 wd :=
          funext fun u => propext (Terminal.of_sameSkeleton hsk4 u)
        rw [← hT, hlen4]
        exact hr
    · have hcase' : (wd k).length < d ∨ k ∈ P := by
        rcases hcase with hl | hm
        · exact Or.inl hl
        · rcases List.mem_append.1 hm with hm | hm
          · exact Or.inr hm
          · exact absurd (by simpa using hm) hkc
      obtain ⟨h1, h2⟩ := h.done k hk0 hk hcase'
      refine ⟨SuffixOK.transfer_suffix (hlen4.trans hlen2) ?_ h1, DictOK.transfer_dict hsk_t4 ?_ h2⟩
      · intro nd hndk
        exact ⟨nd, by rw [hother4 k hkc]; exact hndk, rfl⟩
      · intro nd hndk
        exact ⟨nd, by rw [hother4 k hkc]; exact hndk, rfl⟩
  · intro k nd hk hcase
    have hkc : k ≠ cur := by
      rcases hcase with rfl | ⟨-, hnot⟩
      · exact Ne.symm hcur0
      · rintro rfl
        exact hnot (by simp)
    rw [hother4 k hkc] at hk
    refine h.todo k nd hk ?_
    rcases hcase with h0 | ⟨hd, hnot⟩
    · exact Or.inl h0
    · exact Or.inr ⟨hd, fun hm => hnot (List.mem_append_left _ hm)⟩
  · have e4 : pending t4 = pending t2 := by
      rw [← ht4]
      exact pending_update_same _ (fun nd => rfl)
    have e2 : pending t2 + 1 = pending t := by
      rw [← ht2]
      exact pending_update_set hnode hfresh.1 _ (by simp)
    rw [e4, e2]

/-- The links are determined by the tree: two stores with the links of the same
tree set are the same store. -/
theorem Linked.unique_store {t0 t t1 : Trie} {wd : Nat → List Char} (hs : Shape t0 wd)
    (h : Linked t0 wd t) (h1 : Linked t0 wd t1) : t = t1 := by
  have hlen : t.length = t0.length := h.skel.1.1.symm
  have hlen1 : t1.length = t0.length := h1.skel.1.1.symm
  have hterm : ∀ u, Terminal t wd u ↔ Terminal t1 wd u := fun u =>
    ((Terminal.of_sameSkeleton h.skel u).symm).trans (Terminal.of_sameSkeleton h1.skel u)
  apply List.ext_getElem?
  intro n
  by_cases hn : n < t0.length
  · obtain ⟨nd0, hnd0⟩ := get_of_lt hn
    obtain ⟨nd, hnd, hc, hp, hps, he⟩ := h.skel.get hnd0
    obtain ⟨nd1, hnd1, hc1, hp1, hps1, he1⟩ := h1.skel.get hnd0
    rw [hnd, hnd1]
    have hlinks : nd.suffix_link = nd1.suffix_link ∧
        nd.dict_suffix_link = nd1.dict_suffix_link := by
      by_cases h0 : n = 0
      · subst h0
        obtain ⟨r, hr, hrs, hrd⟩ := h.root
        obtain ⟨r1, hr1, hrs1, hrd1⟩ := h1.root
        rw [hnd] at hr
        rw [hnd1] at hr1
        cases hr
        cases hr1
        exact ⟨by rw [hrs, hrs1], by rw [hrd, hrd1]⟩
      · obtain ⟨⟨x, s, hx, hxs, hs_lt, hls⟩, ⟨y, hy, hyd⟩⟩ := h.links n h0 hn
        obtain ⟨⟨x1, s1, hx1, hxs1, hs1_lt, hls1⟩, ⟨y1, hy1, hyd1⟩⟩ := h1.links n h0 hn
        rw [hnd] at hx hy
        rw [hnd1] at hx1 hy1
        cases hx
        cases hy
        cases hx1
        cases hy1
        rw [hlen] at hls hs_lt hyd
        rw [hlen1] at hls1 hs1_lt hyd1
        refine ⟨?_, ?_⟩
        · rw [hxs, hxs1, hs.inj s s1 hs_lt hs1_lt (hls.unique hls1)]
        · have hyd2 : DictSpec (Terminal t wd) t0.length wd (wd n).tail
              nd1.dict_suffix_link := by
            refine ⟨?_, ?_⟩
            · intro hnone u hu hq
              exact hyd1.1 hnone u hu ((hterm u).1 hq)
            · intro d hd
              obtain ⟨hdlt, hdl, hdq, hdmax⟩ := hyd1.2 d hd
              exact ⟨hdlt, hdl, (hterm _).2 hdq, fun u hu hq => hdmax u hu ((hterm u).1 hq)⟩
          exact DictSpec.unique_link hs.inj hyd hyd2
    obtain ⟨a1, a2, a3, a4, a5, a6⟩ := nd
    obtain ⟨b1, b2, b3, b4, b5, b6⟩ := nd1
    simp only at hc hp hps he hc1 hp1 hps1 he1 hlinks
    simp only [Option.some.injEq, TrieNode.mk.injEq]
    exact ⟨by rw [he, he1], by rw [hc, hc1], hlinks.1, hlinks.2, by rw [hp, hp1],
      by rw [hps, hps1]⟩
  · have e : t[n]? = none := by
      rw [List.getElem?_eq_none_iff, hlen]
      omega
    have e1 : t1[n]? = none := by
      rw [List.getElem?_eq_none_iff, hlen1]
      omega
    rw [e, e1]

/-- For every iteration order of the children, the breadth-first pass terminates
within its bound and sets every link. -/
theorem resolve_links_visits_linked {iter : List (Char × Nat) → List (Char × Nat)}
    (hiter : ∀ l, List.Perm (iter l) l) {t0 : Trie} {wd : Nat → List Char} (hs : Shape t0 wd) :
    ∀ (fuel : Nat) (t : Trie) (d : Nat) (P A : List Nat), BfsInvIn iter t0 wd t d P A →
      pending t ≤ fuel → A ++ P.flatMap (kids_in iter t0) ≠ [] →
      ∃ t', (resolve_links_visits iter fuel t (A ++ P.flatMap (kids_in iter t0))).1 = .ok t' ∧ Linked t0 wd t' := by
  intro fuel
  induction fuel with
  | zero =>
    intro t d P A h hp _
    exfalso
    have hpos : 0 < t.length := by rw [← h.skel.1.1]; exact hs.pos
    obtain ⟨r, hr⟩ := get_of_lt hpos
    have := pending_pos hr (h.todo 0 r hr (Or.inl rfl)).1
    omega
  | succ fuel ih =>
    -- it suffices to treat a queue that starts with a node of depth `d`
    have main : ∀ (t : Trie) (d : Nat) (P A : List Nat) (cur : Nat),
        BfsInvIn iter t0 wd t d P (cur :: A) → pending t ≤ fuel + 1 →
        ∃ t', (resolve_links_visits iter (fuel + 1) t ((cur :: A) ++ P.flatMap (kids_in iter t0))).1 = .ok t' ∧
          Linked t0 wd t' := by
      intro t d P A cur h hp
      obtain ⟨node, s, r, hnode, hkids, hrun1, hrun2, hinv, hpend⟩ := h.step_in hiter hs
      have hq : (A ++ P.flatMap (kids_in iter t0)) ++ (iter node.children).map Prod.snd =
          A ++ (P ++ [cur]).flatMap (kids_in iter t0) := by
        rw [hkids]
        simp
      by_cases hempty : A ++ (P ++ [cur]).flatMap (kids_in iter t0) = []
      · refine ⟨_, ?_, ⟨hinv.skel, ?_, ?_⟩⟩
        · rw [List.cons_append]
          simp only [resolve_links_visits, hnode, hrun1, hrun2, hq, hempty,
            List.isEmpty_nil, if_true]
        · intro n h0 hn
          have hA : A = [] := (List.append_eq_nil.1 hempty).1
          have hnext : level_in iter t0 (d + 1) = [] := by
            have := (List.append_eq_nil.1 hempty).2
            simp only [level_in]
            rw [hinv.lvl, hA, List.append_nil]
            exact this
          have hle : (wd n).length ≤ d := by
            by_contra hgt
            have hmem := level_in_of_length hiter hs _ n hn rfl
            have : (wd n).length = d + 1 + ((wd n).length - (d + 1)) := by omega
            rw [this, level_in_succ_nil hnext] at hmem
            simp at hmem
          refine hinv.done n h0 hn ?_
          by_cases hd : (wd n).length < d
          · exact Or.inl hd
          · have : (wd n).length = d := by omega
            have hmem := level_in_of_length hiter hs d n hn this
            rw [hinv.lvl, hA, List.append_nil] at hmem
            exact Or.inr hmem
        · have hpos : 0 < (update_node (update_node t cur
              (fun nd => { nd with suffix_link := some s })) cur
              (fun nd => { nd with dict_suffix_link := r })).length := by
            rw [← hinv.skel.1.1]; exact hs.pos
          obtain ⟨rt, hrt⟩ := get_of_lt hpos
          exact ⟨rt, hrt, hinv.todo 0 rt hrt (Or.inl rfl)⟩
      · obtain ⟨t', hrun, hres⟩ := ih _ d (P ++ [cur]) A hinv (by omega) hempty
        refine ⟨t', ?_, hres⟩
        have hne : (A ++ (P ++ [cur]).flatMap (kids_in iter t0)).isEmpty = false := by
          cases hq' : A ++ (P ++ [cur]).flatMap (kids_in iter t0) with
          | nil => exact absurd hq' hempty
          | cons _ _ => rfl
        rw [List.cons_append]
        simp only [resolve_links_visits, hnode, hrun1, hrun2, hq, hne]
        exact hrun
    intro t d P A h hp hq
    cases A with
    | cons cur A => exact main t d P A cur h hp
    | nil =>
      obtain ⟨h', hlevel⟩ := h.next_level_in hiter hs
      simp only [List.nil_append] at hq ⊢
      rw [hlevel] at hq ⊢
      cases hl : level_in iter t0 (d + 1) with
      | nil => exact absurd hl hq
      | cons cur A =>
        rw [hl] at h'
        have := main t (d + 1) [] A cur h' hp
        simpa using this

/-- The order in which the breadth-first pass takes the nodes from its queue,
for every iteration order of the children: the nodes still waiting at the current depth, then all deeper nodes, each
once, in order of depth. -/
theorem resolve_links_visits_spec {iter : List (Char × Nat) → List (Char × Nat)}
    (hiter : ∀ l, List.Perm (iter l) l) {t0 : Trie} {wd : Nat → List Char} (hs : Shape t0 wd) :
    ∀ (fuel : Nat) (t : Trie) (d : Nat) (P A : List Nat), BfsInvIn iter t0 wd t d P A →
      pending t ≤ fuel → A ++ P.flatMap (kids_in iter t0) ≠ [] →
      (resolve_links_visits iter fuel t (A ++ P.flatMap (kids_in iter t0))).2.Nodup ∧
      (resolve_links_visits iter fuel t (A ++ P.flatMap (kids_in iter t0))).2.Pairwise
        (fun a b => (wd a).length ≤ (wd b).length) ∧
      ∀ n, n ∈ (resolve_links_visits iter fuel t (A ++ P.flatMap (kids_in iter t0))).2 ↔
        (n < t0.length ∧ (n ∈ A ∨ d < (wd n).length)) := by
  intro fuel
  induction fuel with
  | zero =>
    intro t d P A h hp _
    exfalso
    have hpos : 0 < t.length := by rw [← h.skel.1.1]; exact hs.pos
    obtain ⟨r, hr⟩ := get_of_lt hpos
    have := pending_pos hr (h.todo 0 r hr (Or.inl rfl)).1
    omega
  | succ fuel ih =>
    have main : ∀ (t : Trie) (d : Nat) (P A : List Nat) (cur : Nat),
        BfsInvIn iter t0 wd t d P (cur :: A) → pending t ≤ fuel + 1 →
        (resolve_links_visits iter (fuel + 1) t ((cur :: A) ++ P.flatMap (kids_in iter t0))).2.Nodup ∧
        (resolve_links_visits iter (fuel + 1) t ((cur :: A) ++ P.flatMap (kids_in iter t0))).2.Pairwise
          (fun a b => (wd a).length ≤ (wd b).length) ∧
        ∀ n, n ∈ (resolve_links_visits iter (fuel + 1) t ((cur :: A) ++ P.flatMap (kids_in iter t0))).2 ↔
          (n < t0.length ∧ (n ∈ cur :: A ∨ d < (wd n).length)) := by
      intro t d P A cur h hp
      obtain ⟨node, s, r, hnode, hkids, hrun1, hrun2, hinv, hpend⟩ := h.step_in hiter hs
      have hq : (A ++ P.flatMap (kids_in iter t0)) ++ (iter node.children).map Prod.snd =
          A ++ (P ++ [cur]).flatMap (kids_in iter t0) := by
        rw [hkids]
        simp
      have hcur_mem : cur ∈ level_in iter t0 d := by rw [h.lvl]; simp
      obtain ⟨hcur_lt, hcur_len⟩ := mem_level_in hiter hs d cur hcur_mem
      have hnd := level_in_nodup hiter hs d
      rw [h.lvl] at hnd
      have hcurA : cur ∉ A := by
        have := (List.nodup_append.1 hnd).2.1
        exact (List.nodup_cons.1 this).1
      have hA : ∀ m ∈ A, m < t0.length ∧ (wd m).length = d := by
        intro m hm
        exact mem_level_in hiter hs d m (by rw [h.lvl]; simp [hm])
      by_cases hempty : A ++ (P ++ [cur]).flatMap (kids_in iter t0) = []
      · have hv : (resolve_links_visits iter (fuel + 1) t
            ((cur :: A) ++ P.flatMap (kids_in iter t0))).2 = [cur] := by
          rw [List.cons_append]
          simp only [resolve_links_visits, hnode, hrun1, hrun2, hq, hempty,
            List.isEmpty_nil, if_true]
        rw [hv]
        have hAnil : A = [] := (List.append_eq_nil.1 hempty).1
        have hnext : level_in iter t0 (d + 1) = [] := by
          have := (List.append_eq_nil.1 hempty).2
          simp only [level_in]
          rw [hinv.lvl, hAnil, List.append_nil]
          exact this
        refine ⟨by simp, by simp, ?_⟩
        intro n
        constructor
        · intro hn
          have : n = cur := by simpa using hn
          subst this
          exact ⟨hcur_lt, Or.inl (List.mem_cons_self _ _)⟩
        · rintro ⟨hn, hcase⟩
          rcases hcase with hmem | hdeep
          · rw [hAnil] at hmem
            exact hmem
          · exfalso
            have hmem := level_in_of_length hiter hs _ n hn rfl
            have : (wd n).length = d + 1 + ((wd n).length - (d + 1)) := by omega
            rw [this, level_in_succ_nil hnext] at hmem
            simp at hmem
      · have hne : (A ++ (P ++ [cur]).flatMap (kids_in iter t0)).isEmpty = false := by
          cases hq1 : A ++ (P ++ [cur]).flatMap (kids_in iter t0) with
          | nil => exact absurd hq1 hempty
          | cons _ _ => rfl
        have hv : (resolve_links_visits iter (fuel + 1) t
            ((cur :: A) ++ P.flatMap (kids_in iter t0))).2 =
            cur :: (resolve_links_visits iter fuel
              (update_node (update_node t cur (fun nd => { nd with suffix_link := some s })) cur
                (fun nd => { nd with dict_suffix_link := r }))
              (A ++ (P ++ [cur]).flatMap (kids_in iter t0))).2 := by
          rw [List.cons_append]
          simp only [resolve_links_visits, hnode, hrun1, hrun2, hq, hne]
          rfl
        obtain ⟨ih1, ih2, ih3⟩ := ih _ d (P ++ [cur]) A hinv (by omega) hempty
        rw [hv]
        refine ⟨List.nodup_cons.2 ⟨?_, ih1⟩, List.pairwise_cons.2 ⟨?_, ih2⟩, ?_⟩
        · intro hmem
          rcases ((ih3 cur).1 hmem).2 with h1 | h1
          · exact hcurA h1
          · omega
        · intro m hm
          rcases ((ih3 m).1 hm).2 with h1 | h1
          · rw [hcur_len, (hA m h1).2]
          · omega
        · intro n
          rw [List.mem_cons, ih3 n]
          constructor
          · rintro (rfl | ⟨hn, hcase⟩)
            · exact ⟨hcur_lt, Or.inl (List.mem_cons_self _ _)⟩
            · rcases hcase with h1 | h1
              · exact ⟨hn, Or.inl (List.mem_cons_of_mem _ h1)⟩
              · exact ⟨hn, Or.inr h1⟩
          · rintro ⟨hn, hcase⟩
            rcases hcase with h1 | h1
            · rcases List.mem_cons.1 h1 with h2 | h2
              · exact Or.inl h2
              · exact Or.inr ⟨hn, Or.inl h2⟩
            · exact Or.inr ⟨hn, Or.inr h1⟩
    intro t d P A h hp hq
    cases A with
    | cons cur A => exact main t d P A cur h hp
    | nil =>
      obtain ⟨h1, hlevel⟩ := h.next_level_in hiter hs
      simp only [List.nil_append] at hq ⊢
      rw [hlevel] at hq ⊢
      cases hl : level_in iter t0 (d + 1) with
      | nil => exact absurd hl hq
      | cons cur A =>
        rw [hl] at h1
        have hm := main t (d + 1) [] A cur h1 hp
        simp only [List.flatMap_nil, List.append_nil] at hm
        refine ⟨hm.1, hm.2.1, ?_⟩
        intro n
        rw [hm.2.2 n]
        constructor
        · rintro ⟨hn, hcase⟩
          refine ⟨hn, Or.inr ?_⟩
          rcases hcase with h2 | h2
          · have := (mem_level_in hiter hs (d + 1) n (by rw [hl]; exact h2)).2
            omega
          · omega
        · rintro ⟨hn, hcase⟩
          refine ⟨hn, ?_⟩
          rcases hcase with h2 | h2
          · simp at h2
          · by_cases h3 : (wd n).length = d + 1
            · have := level_in_of_length hiter hs (d + 1) n hn h3
              rw [hl] at this
              exact Or.inl this
            · exact Or.inr (by omega)

/-- After inserting empty strings only, the root is the only node. -/
theorem Inserted.only_root {trie : Trie} {wd : Nat → List Char} {D : List (List Char)}
    (h : Inserted trie wd D) (hD : ∀ p ∈ D, p = []) : ∀ n, n < trie.length → n = 0 := by
  intro n hn
  apply h.shape.eq_root_of_word hn
  rcases h.sound n hn with h0 | ⟨q, hq, hpre⟩
  · exact h0
  · rw [hD q hq] at hpre
    exact List.prefix_nil.1 hpre

/-- After inserting a non-empty string, the root has a child. -/
theorem Inserted.level_one_ne_nil {trie : Trie} {wd : Nat → List Char} {D : List (List Char)}
    (h : Inserted trie wd D) (hD : ∃ p ∈ D, p ≠ []) : level trie 1 ≠ [] := by
  obtain ⟨p, hp, hpne⟩ := hD
  cases p with
  | nil => exact absurd rfl hpne
  | cons c rest =>
    obtain ⟨m, hm, hw⟩ := h.complete _ hp [c] ⟨rest, rfl⟩
    have := h.shape.level_of_length 1 m hm (by rw [hw]; rfl)
    intro hnil
    rw [hnil] at this
    simp at this

/-- C16: for every dictionary of non-null strings and every order in which
the children maps are iterated, the insertion loop succeeds and leaves every
link unset, and the link loop of the constructor, run on the trie it leaves:
takes every non-root node from the queue exactly once, in non-decreasing order
of depth; never dereferences a null link (an unset `suffix_link` that is read
is dereferenced at once, also the own link of the node whose links are being
computed); returns when the dictionary has a non-empty string; and has the
outcome of the constructor, whatever the order of iteration. -/
theorem C16_link_pass_order (D : List (List Char))
    (iter : List (Char × Nat) → List (Char × Nat)) (hiter : ∀ l, List.Perm (iter l) l) :
    ∃ t0 : Trie,
      insert_dictionary (D.map some) [TrieNode.new none (Char.ofNat 0)] 1 = .ok t0 ∧
      (∀ (n : Nat) (node : TrieNode), t0[n]? = some node →
        node.suffix_link = none ∧ node.dict_suffix_link = none) ∧
      (Trie.build_visits iter (D.map some)).2.Nodup ∧
      (∀ n, n ∈ (Trie.build_visits iter (D.map some)).2 ↔ (n ≠ 0 ∧ n < t0.length)) ∧
      (Trie.build_visits iter (D.map some)).2.Pairwise
        (fun a b => depth t0 t0.length a ≤ depth t0 t0.length b) ∧
      (Trie.build_visits iter (D.map some)).1 ≠ .error .null_deref ∧
      ((∃ p ∈ D, p ≠ []) → ∃ t, (Trie.build_visits iter (D.map some)).1 = .ok t) ∧
      (Trie.build_visits iter (D.map some)).1 = Trie.build (D.map some) := by
  obtain ⟨t0, wd, hrun, h0⟩ := insert_dictionary_spec D [] _ _ (Inserted.start_inserted _ rfl)
  simp only [List.length_nil, Nat.zero_add, List.nil_append] at hrun h0
  obtain ⟨root, hroot⟩ := get_of_lt h0.shape.pos
  have hvis : Trie.build_visits iter (D.map some) =
      resolve_links_visits iter t0.length t0 ((iter root.children).map Prod.snd) := by
    simp only [Trie.build_visits, hrun, hroot]
  have hbuild : Trie.build (D.map some) =
      resolve_links t0.length t0 (root.children.map Prod.snd) := by
    simp only [Trie.build, hrun, hroot]
  have hq : (iter root.children).map Prod.snd = level_in iter t0 1 := by
    simp [level_in, kids_in_of_get iter hroot]
  have hq0 : root.children.map Prod.snd = level t0 1 := by
    simp [level, kids_of_get hroot]
  refine ⟨t0, hrun, h0.fresh, ?_⟩
  rw [hvis]
  by_cases hD : ∃ p ∈ D, p ≠ []
  · have hne0 := h0.level_one_ne_nil hD
    have hne : level_in iter t0 1 ≠ [] := by
      obtain ⟨x, hx⟩ := List.exists_mem_of_ne_nil _ hne0
      have := (level_in_perm hiter t0 1).mem_iff.2 hx
      exact List.ne_nil_of_mem this
    have hpend : pending t0 ≤ t0.length := List.countP_le_length _
    have hstart : BfsInvIn iter t0 wd t0 1 [] (level_in iter t0 1) := by
      obtain ⟨h1, -, h3, h4, h5⟩ := BfsInv.start_bfs h0
      exact ⟨h1, by simp, h3, h4, h5⟩
    have hspec := resolve_links_visits_spec hiter h0.shape t0.length t0 1 []
      (level_in iter t0 1) hstart hpend (by simpa using hne)
    obtain ⟨t1, hok, hlinked⟩ := resolve_links_visits_linked hiter h0.shape t0.length t0 1 []
      (level_in iter t0 1) hstart hpend (by simpa using hne)
    obtain ⟨t2, hok0, hlinked0⟩ := resolve_links_spec h0.shape t0.length t0 1 [] (level t0 1)
      (BfsInv.start_bfs h0) hpend (by simpa using hne0)
    simp only [List.flatMap_nil, List.append_nil] at hspec hok hok0
    rw [← hq] at hspec hok
    rw [← hq0] at hok0
    obtain ⟨hnodup, hsorted, hmem⟩ := hspec
    have hmem1 : ∀ n, n ∈ (resolve_links_visits iter t0.length t0
        ((iter root.children).map Prod.snd)).2 ↔ (n ≠ 0 ∧ n < t0.length) := by
      intro n
      rw [hmem n, hq]
      constructor
      · rintro ⟨hn, hcase⟩
        refine ⟨?_, hn⟩
        rintro rfl
        rcases hcase with h1 | h1
        · have := (mem_level_in hiter h0.shape 1 0 h1).2
          rw [h0.shape.root_word] at this
          simp at this
        · rw [h0.shape.root_word] at h1
          simp at h1
      · rintro ⟨hn0, hn⟩
        refine ⟨hn, ?_⟩
        have hne1 : (wd n).length ≠ 0 := by
          have := h0.shape.word_ne_nil hn hn0
          simpa using this
        by_cases h1 : (wd n).length = 1
        · exact Or.inl (level_in_of_length hiter h0.shape 1 n hn h1)
        · exact Or.inr (by omega)
    refine ⟨hnodup, hmem1, ?_, ?_, fun _ => ⟨t1, hok⟩, ?_⟩
    · refine hsorted.imp_of_mem ?_
      intro a b ha hb hab
      rw [h0.shape.depth_eq_length ((hmem1 a).1 ha).2,
        h0.shape.depth_eq_length ((hmem1 b).1 hb).2]
      exact hab
    · rw [hok]
      intro h
      cases h
    · rw [hok, hbuild, hok0, Linked.unique_store h0.shape hlinked hlinked0]
  · have hall : ∀ p ∈ D, p = [] := by
      intro p hp
      by_contra hne
      exact hD ⟨p, hp, hne⟩
    have honly := h0.only_root hall
    have hnil : root.children = [] := by
      cases hc : root.children with
      | nil => rfl
      | cons a l =>
        exfalso
        obtain ⟨c, m⟩ := a
        have hmem : (c, m) ∈ root.children := by rw [hc]; exact List.mem_cons_self _ _
        have hch := h0.shape.child 0 root c m hroot hmem
        have := honly m (h0.shape.child_lt hroot hmem)
        omega
    have hiter_nil : iter [] = [] := List.Perm.eq_nil (hiter [])
    obtain ⟨k, hk⟩ : ∃ k, t0.length = k + 1 := ⟨t0.length - 1, by have := h0.shape.pos; omega⟩
    have hv : resolve_links_visits iter t0.length t0 ((iter root.children).map Prod.snd) =
        (.error .empty_front, []) := by
      rw [hnil, hiter_nil, hk]
      rfl
    rw [hv, Trie.build_no_child D hall]
    refine ⟨by simp, ?_, by simp, ?_, fun h => absurd h hD, rfl⟩
    · intro n
      constructor
      · intro h
        simp at h
      · rintro ⟨hn0, hn⟩
        exact absurd (honly n hn) hn0
    · intro h
      cases h

/-- C16 (witness): the dictionary `{"ab", "b", "c"}` with every children map
iterated from its last entry to its first: the link loop takes the nodes in the
order `4, 3, 1, 2` and returns. -/
theorem C16_link_pass_order_witness :
    (∀ l : List (Char × Nat), List.Perm l.reverse l) ∧
    (Trie.build_visits List.reverse ([['a', 'b'], ['b'], ['c']].map some)).2 = [4, 3, 1, 2] ∧
    ∃ t, (Trie.build_visits List.reverse ([['a', 'b'], ['b'], ['c']].map some)).1 = .ok t := by
  refine ⟨fun l => List.reverse_perm l, rfl, ?_⟩
  obtain ⟨t0, -, -, -, -, -, -, h, -⟩ :=
    C16_link_pass_order [['a', 'b'], ['b'], ['c']] List.reverse (fun l => List.reverse_perm l)
  exact h ⟨['b'], by simp, by simp⟩

/-- C17: on every automaton that was built: from every state and for every
symbol the transition function returns a node of the automaton, within a
number of calls bounded by the depth of the state plus one; in every state the
emission of the loop body returns; and `execute_on_string` returns a result,
one list per pattern, for every text. -/
theorem C17_scanning_total (dictionary : List (Option (List Char))) (aho : Automaton)
    (h : Automaton.build dictionary = .ok aho) :
    (∀ (state : Nat) (c : Char) (fuel : Nat), state < aho.trie.length →
      depth aho.trie aho.trie.length state < fuel →
      ∃ m, m < aho.trie.length ∧
        transition_function aho.trie fuel (some state) c = .ok (aho.trie, m)) ∧
    (∀ (state i : Nat) (entries : List (List Nat)), state < aho.trie.length →
      entries.length = aho.dictionary_size →
      ∃ entries1, emit aho.trie state i entries = .ok entries1 ∧
        entries1.length = aho.dictionary_size) ∧
    (∀ T : List Char, ∃ entries, execute_on_string aho T = .ok (aho, entries) ∧
      entries.length = aho.dictionary_size) := by
  obtain ⟨D, wd, -, -, hsize, hb⟩ := Automaton.build_ok h
  refine ⟨?_, ?_, ?_⟩
  · intro state c fuel hstate hfuel
    rw [hb.shape.depth_eq_length hstate] at hfuel
    obtain ⟨m, hrun, hm, -⟩ := transition_spec hb.shape c (wd state).length
      (fun n hn0 hn _ => hb.suffix n hn0 hn) fuel state hstate (Nat.le_refl _) hfuel
    exact ⟨m, hm, hrun⟩
  · intro state i entries hstate hlen
    obtain ⟨entries1, hrun, hp⟩ := hb.emit_spec i hstate (hlen.trans hsize)
    exact ⟨entries1, hrun, hp.1.trans hlen⟩
  · intro T
    obtain ⟨entries, hrun, hlen, -⟩ := execute_on_string_spec hb hsize T
    exact ⟨entries, hrun, hlen.trans hsize.symm⟩

/-- C17 (witness): the dictionary `{"ab", "b"}`. -/
theorem C17_scanning_total_witness :
    ∃ aho, Automaton.build [some ['a', 'b'], some ['b']] = .ok aho ∧
      (∀ (state : Nat) (c : Char) (fuel : Nat), state < aho.trie.length →
        depth aho.trie aho.trie.length state < fuel →
        ∃ m, m < aho.trie.length ∧
          transition_function aho.trie fuel (some state) c = .ok (aho.trie, m)) ∧
      (∀ (state i : Nat) (entries : List (List Nat)), state < aho.trie.length →
        entries.length = aho.dictionary_size →
        ∃ entries1, emit aho.trie state i entries = .ok entries1 ∧
          entries1.length = aho.dictionary_size) ∧
      (∀ T : List Char, ∃ entries, execute_on_string aho T = .ok (aho, entries) ∧
        entries.length = aho.dictionary_size) :=
  ⟨_, rfl, C17_scanning_total [some ['a', 'b'], some ['b']] _ rfl⟩

/-- C18: on every automaton that was built: from every node `n`, with path
string `w`, the transition by `c` returns the node whose path string is the
longest suffix of `w ++ [c]` that labels a path, the root when no non-empty
suffix does; and in the scan of a text `T1 ++ T2` the state after `T1` is the
node whose path string is the longest suffix of `T1` that is a prefix of some
dictionary string. -/
theorem C18_transition_is_longest_suffix (dictionary : List (Option (List Char)))
    (aho : Automaton) (h : Automaton.build dictionary = .ok aho) :
    (∀ (n : Nat) (w : List Char) (c : Char), walk aho.trie w 0 = some n →
      ∃ (m : Nat) (u : List Char),
        transition_function aho.trie aho.trie.length (some n) c = .ok (aho.trie, m) ∧
        walk aho.trie u 0 = some m ∧ u <:+ w ++ [c] ∧
        (∀ v : List Char, v <:+ w ++ [c] → (∃ k, walk aho.trie v 0 = some k) → v <:+ u) ∧
        ((∀ v : List Char, v ≠ [] → v <:+ w ++ [c] → walk aho.trie v 0 = none) → m = 0)) ∧
    (∀ T1 T2 : List Char, ∃ (s : Nat) (e : List (List Nat)) (u : List Char),
      scan_loop T1 aho.trie 0 0 (List.replicate aho.dictionary_size []) =
        .ok (aho.trie, s, e) ∧
      scan_loop (T1 ++ T2) aho.trie 0 0 (List.replicate aho.dictionary_size []) =
        scan_loop T2 aho.trie T1.length s e ∧
      walk aho.trie u 0 = some s ∧ u <:+ T1 ∧
      (∃ p : List Char, some p ∈ dictionary ∧ u <+: p) ∧
      ∀ v : List Char, v <:+ T1 → (∃ p : List Char, some p ∈ dictionary ∧ v <+: p) →
        v <:+ u) := by
  obtain ⟨D, wd, rfl, hD, hsize, hb⟩ := Automaton.build_ok h
  have hmem : ∀ v : List Char, (∃ p : List Char, some p ∈ D.map some ∧ v <+: p) ↔
      ∃ p ∈ D, v <+: p := by
    intro v
    simp
  refine ⟨?_, ?_⟩
  · intro n w c hw
    obtain ⟨hn, hwn⟩ := (hb.shape.walk_root_iff w n).1 hw
    obtain ⟨m, hrun, hm, hls⟩ := transition_spec hb.shape c (wd n).length
      (fun k hk0 hk _ => hb.suffix k hk0 hk) aho.trie.length n hn (Nat.le_refl _)
      (hb.shape.length_lt hn)
    rw [hwn] at hls
    refine ⟨m, wd m, hrun, (hb.shape.unique_path hm).1, hls.1, ?_, ?_⟩
    · intro v hv hpath
      exact hls.2.2 v hv ((hb.shape.isWord_iff_walk v).2 hpath)
    · intro hnone
      by_contra hm0
      have := hnone (wd m) (hb.shape.word_ne_nil hm hm0) hls.1
      rw [(hb.shape.unique_path hm).1] at this
      cases this
  · intro T1 T2
    have hroot : LongestSuffix (IsWord aho.trie.length wd) [] (wd 0) := by
      rw [hb.shape.root_word]
      exact LongestSuffix.self hb.shape.isWord_nil
    obtain ⟨s, e, hrun, hs, hls, -, -⟩ :=
      hb.scan_loop_spec T1 [] 0 0 (List.replicate aho.dictionary_size []) hb.shape.pos hroot
        (by simp [hsize])
    simp only [List.nil_append] at hls
    refine ⟨s, e, wd s, hrun, ?_, (hb.shape.unique_path hs).1, hls.1, ?_, ?_⟩
    · rw [scan_loop_append T2 T1 _ _ _ _ _ _ _ hrun, Nat.zero_add]
    · exact (hmem (wd s)).2
        ((hb.walk_iff_built hD (wd s)).1 ⟨s, (hb.shape.unique_path hs).1⟩)
    · intro v hv hpre
      exact hls.2.2 v hv
        ((hb.shape.isWord_iff_walk v).2 ((hb.walk_iff_built hD v).2 ((hmem v).1 hpre)))

/-- C18 (witness): the dictionary `{"ab", "b"}`. -/
theorem C18_transition_is_longest_suffix_witness :
    ∃ aho, Automaton.build [some ['a', 'b'], some ['b']] = .ok aho ∧
      (∀ (n : Nat) (w : List Char) (c : Char), walk aho.trie w 0 = some n →
        ∃ (m : Nat) (u : List Char),
          transition_function aho.trie aho.trie.length (some n) c = .ok (aho.trie, m) ∧
          walk aho.trie u 0 = some m ∧ u <:+ w ++ [c] ∧
          (∀ v : List Char, v <:+ w ++ [c] → (∃ k, walk aho.trie v 0 = some k) → v <:+ u) ∧
          ((∀ v : List Char, v ≠ [] → v <:+ w ++ [c] → walk aho.trie v 0 = none) → m = 0)) ∧
      (∀ T1 T2 : List Char, ∃ (s : Nat) (e : List (List Nat)) (u : List Char),
        scan_loop T1 aho.trie 0 0 (List.replicate aho.dictionary_size []) =
          .ok (aho.trie, s, e) ∧
        scan_loop (T1 ++ T2) aho.trie 0 0 (List.replicate aho.dictionary_size []) =
          scan_loop T2 aho.trie T1.length s e ∧
        walk aho.trie u 0 = some s ∧ u <:+ T1 ∧
        (∃ p : List Char, some p ∈ [some ['a', 'b'], some ['b']] ∧ u <+: p) ∧
        ∀ v : List Char, v <:+ T1 →
          (∃ p : List Char, some p ∈ [some ['a', 'b'], some ['b']] ∧ v <+: p) → v <:+ u) :=
  ⟨_, rfl, C18_transition_is_longest_suffix [some ['a', 'b'], some ['b']] _ rfl⟩

/-- C19: on every automaton that was built, `dictionary_size` is the number of
entries of the dictionary, and: every node reached through a
`dict_suffix_link` has a non-zero pattern number; every pattern number stored
on a node is at most `dictionary_size`, so that for a non-zero one the index
`end_of_string - 1` is below `dictionary_size` and the write
`entries[end_of_string - 1].push_back(i)` succeeds on a deque of
`dictionary_size` lists; and `execute_on_string` returns for every text. -/
theorem C19_result_writes_in_bounds (dictionary : List (Option (List Char)))
    (aho : Automaton) (h : Automaton.build dictionary = .ok aho) :
    aho.dictionary_size = dictionary.length ∧
    (∀ (n d : Nat) (node : TrieNode), aho.trie[n]? = some node →
      node.dict_suffix_link = some d →
      ∃ dnode : TrieNode, aho.trie[d]? = some dnode ∧ dnode.end_of_string ≠ 0) ∧
    (∀ (n : Nat) (node : TrieNode), aho.trie[n]? = some node →
      node.end_of_string ≤ aho.dictionary_size) ∧
    (∀ (n : Nat) (node : TrieNode), aho.trie[n]? = some node → node.end_of_string ≠ 0 →
      node.end_of_string - 1 < aho.dictionary_size ∧
      ∀ (entries : List (List Nat)) (i : Nat), entries.length = aho.dictionary_size →
        ∃ entries1, push_back_at entries node.end_of_string i = .ok entries1) ∧
    (∀ T : List Char, ∃ entries, execute_on_string aho T = .ok (aho, entries)) := by
  obtain ⟨D, wd, rfl, -, hsize, hb⟩ := Automaton.build_ok h
  refine ⟨by simp [hsize], ?_, ?_, ?_, ?_⟩
  · intro n d node hnode hd
    obtain ⟨dnode, h1, h2, -⟩ := hb.dict_link_target hnode hd
    exact ⟨dnode, h1, h2⟩
  · intro n node hnode
    rw [hsize]
    exact hb.ids_le hnode
  · intro n node hnode he
    have hle := hb.ids_le hnode
    refine ⟨by rw [hsize]; omega, ?_⟩
    intro entries i hlen
    obtain ⟨entries1, hrun, -⟩ := push_back_at_spec he (by rw [hlen, hsize]; exact hle) i
    exact ⟨entries1, hrun⟩
  · intro T
    obtain ⟨entries, hrun, -⟩ := execute_on_string_spec hb hsize T
    exact ⟨entries, hrun⟩

/-- C19 (witness): the dictionary `{"ab", "b"}`. -/
theorem C19_result_writes_in_bounds_witness :
    ∃ aho, Automaton.build [some ['a', 'b'], some ['b']] = .ok aho ∧
      aho.dictionary_size = [some ['a', 'b'], some ['b']].length ∧
      (∀ (n d : Nat) (node : TrieNode), aho.trie[n]? = some node →
        node.dict_suffix_link = some d →
        ∃ dnode : TrieNode, aho.trie[d]? = some dnode ∧ dnode.end_of_string ≠ 0) ∧
      (∀ (n : Nat) (node : TrieNode), aho.trie[n]? = some node →
        node.end_of_string ≤ aho.dictionary_size) ∧
      (∀ (n : Nat) (node : TrieNode), aho.trie[n]? = some node → node.end_of_string ≠ 0 →
        node.end_of_string - 1 < aho.dictionary_size ∧
        ∀ (entries : List (List Nat)) (i : Nat), entries.length = aho.dictionary_size →
          ∃ entries1, push_back_at entries node.end_of_string i = .ok entries1) ∧
      (∀ T : List Char, ∃ entries, execute_on_string aho T = .ok (aho, entries)) :=
  ⟨_, rfl, C19_result_writes_in_bounds [some ['a', 'b'], some ['b']] _ rfl⟩

end AhoCorasick
